import Mathlib

/-!
Verification development for the go-readability article-extraction engine.

The definitions below are a shallow embedding, translated from the Go
sources of the repository (`parser.go`, `parser-parse.go`, `parser-check.go`,
`utils.go`, `worker.go`, `internal/re2go/*.re`).  DOM trees are modelled as a
nested inductive type, machine floats are modelled as rationals (character
counts and comma counts are small integers in the source, and the claims under
study are about exact threshold comparisons, not rounding), and the few pieces
of behaviour that live outside the repository (the `net/url` standard library,
the positive/negative class matchers whose re2c source is not part of the
snapshot) are modelled from the specification and marked as such in their
doc comments.
-/

namespace GoReadability

/-! ## String utilities (from `utils.go` and `internal/re2go/normalize.re`) -/

/-- Whitespace test matching Go's `unicode.IsSpace` on the code points that
`strings.TrimSpace` trims: ASCII whitespace plus the Unicode space runes. -/
def isGoSpace (c : Char) : Bool :=
  c = ' ' ∨ c = '\t' ∨ c = '\n' ∨ c = (Char.ofNat 11) ∨ c = (Char.ofNat 12) ∨
  c = '\r' ∨ c = (Char.ofNat 0x85) ∨ c = (Char.ofNat 0xA0) ∨
  c = (Char.ofNat 0x1680) ∨ (0x2000 ≤ c.toNat ∧ c.toNat ≤ 0x200A) ∨
  c = (Char.ofNat 0x2028) ∨ c = (Char.ofNat 0x2029) ∨ c = (Char.ofNat 0x202F) ∨
  c = (Char.ofNat 0x205F) ∨ c = (Char.ofNat 0x3000)

/-- The five characters that Go's regexp class `\s` matches; this is the
character set collapsed by `re2go.NormalizeSpaces` (pattern `\s{2,}`). -/
def isGoRegexSpace (c : Char) : Bool :=
  c = '\t' ∨ c = '\n' ∨ c = (Char.ofNat 12) ∨ c = '\r' ∨ c = ' '

/-- Length bound for `List.dropWhile`, used for termination. -/
theorem dropWhileLenLe (p : α → Bool) (l : List α) :
    (l.dropWhile p).length ≤ l.length := by
  induction l with
  | nil => simp [List.dropWhile]
  | cons a l ih =>
    by_cases h : p a
    · simp only [List.dropWhile, h]
      exact Nat.le_trans ih (by simp)
    · simp only [List.dropWhile, h]
      simp

/-- Model of `strings.TrimSpace`, on character lists. -/
def trimChars (l : List Char) : List Char :=
  ((l.dropWhile isGoSpace).reverse.dropWhile isGoSpace).reverse

/-- Model of `strings.TrimSpace`. -/
def trimGo (s : String) : String := ⟨trimChars s.data⟩

/-- Recursion worker for `normalizeChars`; the fuel decreases structurally
and is always at least the length of the list, so the zero branch is inert. -/
def normalizeAux : Nat → List Char → List Char
  | 0, l => l
  | _ + 1, [] => []
  | fuel + 1, c :: rest =>
    if isGoRegexSpace c then
      match rest with
      | [] => [c]
      | d :: _ =>
        if isGoRegexSpace d then ' ' :: normalizeAux fuel (rest.dropWhile isGoRegexSpace)
        else c :: normalizeAux fuel rest
    else c :: normalizeAux fuel rest

/-- Model of `re2go.NormalizeSpaces`: every run of two or more characters
from `[\t\n\f\r ]` is replaced by a single space; single whitespace
characters are kept as they are. -/
def normalizeChars (l : List Char) : List Char := normalizeAux l.length l

/-- Model of `re2go.NormalizeSpaces` on strings. -/
def normalizeSpacesGo (s : String) : String := ⟨normalizeChars s.data⟩

/-- Model of `charCount` from `utils.go`: the number of Unicode code points. -/
def charCountGo (s : String) : Nat := s.data.length

/-- The nine comma code points counted by `re2go.CountCommas`. -/
def isReadabilityComma (c : Char) : Bool :=
  c = (Char.ofNat 0x002C) ∨ c = (Char.ofNat 0x060C) ∨ c = (Char.ofNat 0xFE50) ∨
  c = (Char.ofNat 0xFE10) ∨ c = (Char.ofNat 0xFE11) ∨ c = (Char.ofNat 0x2E41) ∨
  c = (Char.ofNat 0x2E34) ∨ c = (Char.ofNat 0x2E32) ∨ c = (Char.ofNat 0xFF0C)

/-- Model of `re2go.CountCommas`. -/
def countCommas (s : String) : Nat := (s.data.filter isReadabilityComma).length

/-- Model of `strings.Count` with a single-character separator (this is how
`getCharCount(node, ",")` counts ASCII commas in `parser.go`). -/
def countChar (c : Char) (s : String) : Nat := (s.data.filter (· = c)).length

/-- ASCII lowercasing on the character list of a string (Go's patterns are
all ASCII, so `(?i)` matching is ASCII case folding). -/
def lowerChars (s : String) : List Char := s.data.map Char.toLower

/-- Substring search on character lists. -/
def subSearch (pat : List Char) : List Char → Bool
  | [] => pat.isEmpty
  | c :: rest => pat.isPrefixOf (c :: rest) || subSearch pat rest

/-- Case-insensitive substring test: the case-insensitive alternations used by
the classifiers are plain word lists, so matching is lowercasing followed by a
substring check. -/
def containsSub (pat : String) (s : String) : Bool :=
  subSearch pat.data (lowerChars s)

/-- Case-insensitive "matches one of the words" test used to model the
re2c state machines compiled from case-insensitive alternation patterns. -/
def matchesAnyCI (pats : List String) (s : String) : Bool :=
  pats.any (fun p => containsSub p s)

/-! ## Classifier vocabularies -/

/-- `re2go.IsUnlikelyCandidates` (from `internal/re2go/grab-article.re`). -/
def isUnlikelyCandidates (s : String) : Bool :=
  matchesAnyCI
    ["-ad-", "ai2html", "banner", "breadcrumbs", "combx", "comment",
     "community", "cover-wrap", "disqus", "extra", "footer", "gdpr", "header",
     "legends", "menu", "related", "remark", "replies", "rss", "shoutbox",
     "sidebar", "skyscraper", "social", "sponsor", "supplemental", "ad-break",
     "agegate", "pagination", "pager", "popup", "yom-remote"] s

/-- `re2go.MaybeItsACandidate` (from `internal/re2go/grab-article.re`). -/
def maybeItsACandidate (s : String) : Bool :=
  matchesAnyCI
    ["and", "article", "body", "column", "content", "main", "shadow"] s

/-- `rxUnlikelyCandidates` as defined in `worker.go` lines 19 (this is the
variant referenced by `CheckDocument` in `parser-check.go`; note `foot`
instead of `footer` and the absence of `ai2html`). -/
def wkUnlikelyCandidates (s : String) : Bool :=
  matchesAnyCI
    ["-ad-", "banner", "breadcrumbs", "combx", "comment", "community",
     "cover-wrap", "disqus", "extra", "foot", "gdpr", "header", "legends",
     "menu", "related", "remark", "replies", "rss", "shoutbox", "sidebar",
     "skyscraper", "social", "sponsor", "supplemental", "ad-break", "agegate",
     "pagination", "pager", "popup", "yom-remote"] s

/-- `rxOkMaybeItsACandidate` as defined in `worker.go` line 20 (used by
`CheckDocument`; note that `content` is NOT in this list). -/
def wkOkMaybeItsACandidate (s : String) : Bool :=
  matchesAnyCI ["and", "article", "body", "column", "main", "shadow"] s

/-- Modelled from the spec: `is_positive_class` of section 4.1.  The re2c
source of `re2go.IsPositiveClass` is not part of the snapshot (only its
callers in `parser.go` are), so the vocabulary is taken from the spec. -/
def isPositiveClass (s : String) : Bool :=
  matchesAnyCI
    ["article", "body", "content", "entry", "hentry", "h-entry", "main",
     "page", "pagination", "post", "text", "blog", "story"] s

/-- Modelled from the spec: `is_negative_class` of section 4.1.  The re2c
source of `re2go.IsNegativeClass` is not part of the snapshot; the pattern
(with its `^hid$`-style anchors) is taken from the spec. -/
def isNegativeClass (s : String) : Bool :=
  let l := lowerChars s
  subSearch "hidden".data l ∨ l = "hid".data ∨
  " hid".data.reverse.isPrefixOf l.reverse ∨
  "hid ".data.isPrefixOf l ∨ subSearch " hid ".data l ∨
  matchesAnyCI
    ["banner", "combx", "comment", "com-", "contact", "foot", "footer",
     "footnote", "gdpr", "masthead", "media", "meta", "outbrain", "promo",
     "related", "scroll", "share", "shoutbox", "sidebar", "skyscraper",
     "sponsor", "shopping", "tags", "tool", "widget"] s

/-- `rxVideos` from `parser.go`: the default allowed-video pattern.  The
regex is an alternation of literal hosts behind `//` with an optional
`www.`, so it is equivalent to this substring test. -/
def matchesVideos (s : String) : Bool :=
  matchesAnyCI
    ["//dailymotion.com", "//www.dailymotion.com",
     "//youtube.com", "//www.youtube.com",
     "//youtube-nocookie.com", "//www.youtube-nocookie.com",
     "//player.vimeo.com", "//www.player.vimeo.com",
     "//v.qq.com", "//www.v.qq.com",
     "//archive.org", "//www.archive.org",
     "//upload.wikimedia.org", "//www.upload.wikimedia.org",
     "//player.twitch.tv", "//www.player.twitch.tv"] s

/-- Matcher for `rxDisplayNone`-style patterns `word1\s*:\s*word2`
(case-insensitive), used by `isProbablyVisible`.  `probe l` checks a match
starting at `l`; the outer search tries every position. -/
def matchesStyleRule (w1 w2 : String) (s : String) : Bool :=
  let probe : List Char → Bool := fun l =>
    let l1 := l.drop w1.data.length
    if w1.data.isPrefixOf l then
      match l1.dropWhile isGoRegexSpace with
      | ':' :: l2 => w2.data.isPrefixOf (l2.dropWhile isGoRegexSpace)
      | _ => false
    else false
  let rec search : List Char → Bool
    | [] => probe []
    | c :: rest => probe (c :: rest) || search rest
  search (lowerChars s)

example : matchesStyleRule "display" "none" "color:red;display : none" = true := by decide
example : matchesStyleRule "display" "none" "display:block" = false := by decide
example : isUnlikelyCandidates "my-sidebar x" = true := by decide
example : maybeItsACandidate "sidebar" = false := by decide
example : normalizeSpacesGo "a  b \t c" = "a b c" := by decide
example : countCommas "a,b，c" = 2 := by decide

/-! ## The DOM model -/

/-- A DOM node: an element with a tag name, attribute list and child nodes, a
text node, or the document node wrapping the root element (Go's
`html.Node` with `ElementNode`, `TextNode` and `DocumentNode` types;
comment nodes are removed before every pass relevant here). -/
inductive HNode where
  | elem (tag : String) (attrs : List (String × String)) (kids : List HNode)
  | txt (data : String)
  | doc (kids : List HNode)

namespace HNode

/-- Child node list. -/
def childNodes : HNode → List HNode
  | .elem _ _ ks => ks
  | .txt _ => []
  | .doc ks => ks

/-- Model of `dom.TagName`: the tag for elements, `""` otherwise. -/
def tagName : HNode → String
  | .elem t _ _ => t
  | _ => ""

/-- True for element nodes. -/
def isElem : HNode → Bool
  | .elem _ _ _ => true
  | _ => false

mutual
/-- Model of `dom.TextContent`: concatenated data of all text descendants. -/
def textContent : HNode → String
  | .elem _ _ ks => textContentList ks
  | .txt s => s
  | .doc ks => textContentList ks

def textContentList : List HNode → String
  | [] => ""
  | k :: ks => textContent k ++ textContentList ks
end

/-- Model of `dom.GetAttribute`: value of the first attribute with the given
key, or `""`. -/
def getAttr (k : String) : HNode → String
  | .elem _ attrs _ => (attrs.lookup k).getD ""
  | _ => ""

/-- Model of `dom.HasAttribute`. -/
def hasAttr (k : String) : HNode → Bool
  | .elem _ attrs _ => attrs.any (fun a => a.1 = k)
  | _ => false

/-- Replace the value of the first binding of `k`, or append the binding. -/
def setAttrList (k v : String) : List (String × String) → List (String × String)
  | [] => [(k, v)]
  | a :: rest => if a.1 = k then (k, v) :: rest else a :: setAttrList k v rest

/-- Model of `dom.SetAttribute` (no effect on non-elements). -/
def setAttr (k v : String) : HNode → HNode
  | .elem t attrs ks => .elem t (setAttrList k v attrs) ks
  | n => n

/-- Model of `dom.ClassName`. -/
def className (n : HNode) : String := getAttr "class" n

/-- Model of `dom.ID`. -/
def idAttr (n : HNode) : String := getAttr "id" n

/-- Model of `dom.Children`: element children only. -/
def children (n : HNode) : List HNode := n.childNodes.filter isElem

/-- Model of `dom.FirstElementChild`. -/
def firstElementChild (n : HNode) : Option HNode := (children n).head?

mutual
/-- Elements of the subtree rooted at `n` (including `n` when it is a matching
element) whose tag equals `tag`, or all elements when `tag = "*"`, in
document (preorder) order. -/
def matchingElems (tag : String) : HNode → List HNode
  | .elem t a ks =>
    (if t = tag ∨ tag = "*" then [.elem t a ks] else []) ++ matchingElemsList tag ks
  | .txt _ => []
  | .doc ks => matchingElemsList tag ks

def matchingElemsList (tag : String) : List HNode → List HNode
  | [] => []
  | k :: ks => matchingElems tag k ++ matchingElemsList tag ks
end

/-- Model of `dom.GetElementsByTagName`: matching descendants of `root`,
excluding `root` itself, in document order. -/
def getElementsByTagName (root : HNode) (tag : String) : List HNode :=
  matchingElemsList tag root.childNodes

/-- Model of `getAllNodesWithTag` from `parser.go`. -/
def getAllNodesWithTag (n : HNode) (tags : List String) : List HNode :=
  tags.foldl (fun acc t => acc ++ getElementsByTagName n t) []

end HNode

open HNode

/-- Model of `getInnerText(node, true)` from `parser.go`: text content,
trimmed, with whitespace runs normalized. -/
def innerTextGo (n : HNode) : String := normalizeSpacesGo (trimGo (textContent n))

/-- Model of `getLinkDensity` from `parser.go`: character count inside `<a>`
descendants (weighted 0.3 for `#`-fragment hrefs) over total character
count.  Scores are modelled as rationals in place of Go's float64. -/
def getLinkDensity (n : HNode) : ℚ :=
  let textLength := charCountGo (innerTextGo n)
  if textLength = 0 then 0
  else
    let linkLength := (getElementsByTagName n "a").foldl
      (fun acc link =>
        let href := trimGo (getAttr "href" link)
        let isHash : Bool := match href.data with
          | '#' :: _ :: _ => true
          | _ => false
        let coefficient : ℚ := if href ≠ "" ∧ isHash then 3/10 else 1
        acc + (charCountGo (innerTextGo link) : ℚ) * coefficient) 0
    linkLength / (textLength : ℚ)

/-- Model of `getTextDensity` from `parser.go`. -/
def getTextDensity (n : HNode) (tags : List String) : ℚ :=
  let textLength := charCountGo (innerTextGo n)
  if textLength = 0 then 0
  else
    let childrenLength := (getAllNodesWithTag n tags).foldl
      (fun acc c => acc + charCountGo (innerTextGo c)) 0
    (childrenLength : ℚ) / (textLength : ℚ)

/-- Model of `isProbablyVisible` from `parser.go`. -/
def isProbablyVisible (n : HNode) : Bool :=
  let nodeStyle := getAttr "style" n
  let nodeAriaHidden := getAttr "aria-hidden" n
  let cls := getAttr "class" n
  (nodeStyle = "" ∨ ¬ matchesStyleRule "display" "none" nodeStyle) ∧
  (nodeStyle = "" ∨ ¬ matchesStyleRule "visibility" "hidden" nodeStyle) ∧
  ¬ hasAttr "hidden" n ∧
  (nodeAriaHidden = "" ∨ nodeAriaHidden ≠ "true" ∨ containsSub "fallback-image" cls)

/-- Model of `hasAncestorTag` from `parser.go` lines 1793-1808, over the
ancestor chain of a node listed nearest-first.  Note the source compares
`depth > maxDepth` after having examined the parent, so for `maxDepth = 3`
the four nearest ancestors are inspected. -/
def hasAncestorTagGo (tag : String) (maxDepth : Int) (filt : Option (HNode → Bool)) :
    List HNode → Nat → Bool
  | [], _ => false
  | anc :: rest, depth =>
    let filtPass : Bool := match filt with
      | none => true
      | some f => f anc
    if maxDepth > 0 ∧ (depth : Int) > maxDepth then false
    else if tagName anc = tag ∧ filtPass then true
    else hasAncestorTagGo tag maxDepth filt rest (depth + 1)

example : textContent (.elem "p" [] [.txt "a", .elem "b" [] [.txt "c"]]) = "ac" := rfl
unseal Rat.add Rat.mul Rat.inv Rat.sub in
example : getLinkDensity (.elem "p" [] [.txt "ab", .elem "a" [("href", "x")] [.txt "cd"]]) = 1/2 := by decide
example :
    hasAncestorTagGo "table" 3 none
      [.elem "div" [] [], .elem "div" [] [], .elem "div" [] [], .elem "table" [] []] 0 = true := by
  decide

/-- Model of `getClassWeight` from `parser.go`: +-25 for the positive and
negative vocabularies, applied independently to the class and the id, and 0
when the `useWeightClasses` flag is off. -/
def getClassWeight (useWeightClasses : Bool) (n : HNode) : Int :=
  if ¬ useWeightClasses then 0
  else
    let wClass : Int :=
      if className n ≠ "" then
        (if isNegativeClass (className n) then -25 else 0) +
        (if isPositiveClass (className n) then 25 else 0)
      else 0
    let wId : Int :=
      if idAttr n ≠ "" then
        (if isNegativeClass (idAttr n) then -25 else 0) +
        (if isPositiveClass (idAttr n) then 25 else 0)
      else 0
    wClass + wId

/-! ## C6: the unlikely-candidate removal step of the grabber's prep walk
(`parser.go` lines 827-836). -/

/-- The removal decision of `grabArticle`'s prep walk for an element with the
given class+id match string, tag name, and chain of ancestors (nearest
first), with the `stripUnlikelys` flag on; translated from `parser.go`
lines 828-832. -/
def unlikelyCandidateRemoval (matchString : String) (nodeTagName : String)
    (ancs : List HNode) : Bool :=
  isUnlikelyCandidates matchString ∧ ¬ maybeItsACandidate matchString ∧
  ¬ hasAncestorTagGo "table" 3 none ancs 0 ∧
  ¬ hasAncestorTagGo "code" 3 none ancs 0 ∧
  nodeTagName ≠ "body" ∧ nodeTagName ≠ "a"

/-- C6's removal condition as the claim words it: a `<table>` or `<code>`
among the three nearest ancestors prevents removal and deeper ancestors do
not. -/
def c6ClaimedRemoval (matchString : String) (nodeTagName : String)
    (ancs : List HNode) : Bool :=
  isUnlikelyCandidates matchString ∧ ¬ maybeItsACandidate matchString ∧
  ¬ (ancs.take 3).any (fun a => tagName a = "table" ∨ tagName a = "code") ∧
  nodeTagName ≠ "body" ∧ nodeTagName ≠ "a"

/-- An unlikely-candidate `<div class="sidebar">` whose only `<table>`
ancestor is the fourth-nearest one. -/
def c6Ancestors : List HNode :=
  [.elem "div" [] [], .elem "div" [] [], .elem "div" [] [],
   .elem "table" [] [], .elem "body" [] [], .elem "html" [] []]

/-- C6 counterexample: with class+id `"sidebar "`, tag `div`, and a `<table>`
ancestor at depth 4, the claim says the element is dropped (no table or code
among the three nearest ancestors), but the code keeps it, because
`hasAncestorTag` with `maxDepth = 3` inspects the four nearest ancestors. -/
theorem c6_counterexample :
    c6ClaimedRemoval "sidebar " "div" c6Ancestors = true ∧
    unlikelyCandidateRemoval "sidebar " "div" c6Ancestors = false := by
  constructor
  · decide
  · decide

/-- `hasAncestorTag` with `maxDepth = 3`, started at depth `d`, sees exactly
the first `4 - d` ancestors. -/
theorem hasAncestorTag3_take (t : String) (ancs : List HNode) (d : Nat) :
    hasAncestorTagGo t 3 none ancs d =
      ((ancs.take (4 - d)).any (fun a => tagName a = t)) := by
  induction ancs generalizing d with
  | nil => simp [hasAncestorTagGo]
  | cons a rest ih =>
    by_cases hd : 4 ≤ d
    · have h4 : 4 - d = 0 := by omega
      have hgt : ((3:Int) > 0 ∧ (d : Int) > 3) := by constructor <;> [decide; exact_mod_cast (by omega : 3 < (d:Int))]
      simp [hasAncestorTagGo, h4]
      intro h; omega
    · have h4 : 4 - d = (4 - (d+1)) + 1 := by omega
      by_cases hm : tagName a = t
      · simp [hasAncestorTagGo, hm, h4]
        omega
      · rw [hasAncestorTagGo]
        have hng : ¬ ((3:Int) > 0 ∧ (d : Int) > 3) := by
          rintro ⟨-, h⟩
          have : (3:Int) < d := h
          omega
        simp only [hng, if_false, hm]
        rw [ih (d+1), h4]
        simp [hm]

/-- C6 amended: with `stripUnlikelys` on and the class+id matching the
unlikely- but not the maybe-candidate vocabulary, the element is dropped
exactly when it is not `<body>` or `<a>` and none of its FOUR nearest
ancestors is a `<table>` or `<code>` (the `depth > maxDepth` test of
`hasAncestorTag` runs after the parent at distance `maxDepth + 1` has been
examined). -/
theorem c6_unlikely_removal (matchString nodeTagName : String) (ancs : List HNode)
    (hu : isUnlikelyCandidates matchString = true)
    (hm : maybeItsACandidate matchString = false) :
    unlikelyCandidateRemoval matchString nodeTagName ancs = true ↔
      ((ancs.take 4).any (fun a => tagName a = "table") = false ∧
       (ancs.take 4).any (fun a => tagName a = "code") = false ∧
       nodeTagName ≠ "body" ∧ nodeTagName ≠ "a") := by
  unfold unlikelyCandidateRemoval
  rw [hasAncestorTag3_take, hasAncestorTag3_take]
  simp [hu, hm]

/-- Witness for C6's amended theorem at a concrete input. -/
theorem c6_unlikely_removal_witness :
    isUnlikelyCandidates "sidebar " = true ∧
    maybeItsACandidate "sidebar " = false ∧
    (unlikelyCandidateRemoval "sidebar " "div" [HNode.elem "body" [] []] = true ↔
      (([HNode.elem "body" [] []].take 4).any (fun a => tagName a = "table") = false ∧
       ([HNode.elem "body" [] []].take 4).any (fun a => tagName a = "code") = false ∧
       ("div" : String) ≠ "body" ∧ ("div" : String) ≠ "a")) :=
  ⟨by decide, by decide, c6_unlikely_removal "sidebar " "div" _ (by decide) (by decide)⟩

/-! ## C2: the retry loop of `grabArticle` (`parser.go` lines 764-1250 for the
loop skeleton, lines 1194-1249 for the retry gate; flags initialised in
`ParseDocument`, `parser-parse.go` lines 38-42).

One iteration of the loop (clone, prep walk, scoring, candidate selection,
sibling aggregation, `prepArticle`, envelope) is a function of the current
flags and of the parser state that survives retries (`articleByline` is set
by `checkByline` and never reset between attempts), producing the candidate
article subtree and its inner-text character count; it is abstracted here as
`attempt : GrabFlags → σ → α × Nat × σ`.  The loop itself is translated
literally. -/

/-- The three behavioural flags of the grabber (`flags` in `parser.go`). -/
structure GrabFlags where
  stripUnlikelys : Bool
  useWeightClasses : Bool
  cleanConditionally : Bool
deriving DecidableEq

/-- One step of the retry ladder: clear the first still-set flag in the order
`stripUnlikelys`, `useWeightClasses`, `cleanConditionally` (the
`else if` chain of `parser.go` lines 1206-1223); `none` when all three are
already cleared. -/
def clearNextFlag (f : GrabFlags) : Option GrabFlags :=
  if f.stripUnlikelys then some { f with stripUnlikelys := false }
  else if f.useWeightClasses then some { f with useWeightClasses := false }
  else if f.cleanConditionally then some { f with cleanConditionally := false }
  else none

/-- Insertion step for the descending sort on saved text lengths. -/
def insertByLen {α : Type} (x : α × Nat) : List (α × Nat) → List (α × Nat)
  | [] => [x]
  | y :: rest => if x.2 > y.2 then x :: y :: rest else y :: insertByLen x rest

/-- Model of `sort.Slice(ps.attempts, textLength desc)`: a sort placing an
attempt of maximal text length first (Go's sort is unstable, so only the
head's length and membership are used in the theorems below). -/
def sortByLenDesc {α : Type} : List (α × Nat) → List (α × Nat)
  | [] => []
  | x :: rest => insertByLen x (sortByLenDesc rest)

/-- The retry loop of `grabArticle`, fuel-structured (the fuel `4` bounds the
number of iterations, which the flag ladder already guarantees).  Returns
the loop's result together with the flag configuration used by each
attempt, in order. -/
def grabRetryAux {α σ : Type} (attempt : GrabFlags → σ → α × Nat × σ) (ct : Nat) :
    Nat → GrabFlags → σ → List (α × Nat) → Option α × List GrabFlags
  | 0, _, _, _ => (none, [])
  | fuel + 1, f, s, attempts =>
    let r := attempt f s
    let articleContent := r.1
    let textLength := r.2.1
    if ct ≤ textLength then (some articleContent, [f])
    else
      match clearNextFlag f with
      | some f' =>
        let rec' := grabRetryAux attempt ct fuel f' r.2.2 (attempts ++ [(articleContent, textLength)])
        (rec'.1, f :: rec'.2)
      | none =>
        let attempts' := attempts ++ [(articleContent, textLength)]
        match sortByLenDesc attempts' with
        | [] => (none, [f])
        | best :: _ => (if best.2 = 0 then none else some best.1, [f])

/-- `grabArticle`'s loop: flags start all true (`parser-parse.go` lines
38-42), the saved-attempts list starts empty. -/
def grabArticleRetry {α σ : Type} (attempt : GrabFlags → σ → α × Nat × σ) (ct : Nat)
    (s0 : σ) : Option α × List GrabFlags :=
  grabRetryAux attempt ct 4 ⟨true, true, true⟩ s0 []

/-- The four flag configurations in the order the loop visits them. -/
def flagSequence : List GrabFlags :=
  [⟨true, true, true⟩, ⟨false, true, true⟩, ⟨false, false, true⟩,
   ⟨false, false, false⟩]

/-- The four attempt outcomes (subtree and text length), threading the
persistent parser state through the attempts in flag order. -/
def attemptOutcomes {α σ : Type} (attempt : GrabFlags → σ → α × Nat × σ) (s0 : σ) :
    List (α × Nat) :=
  let r1 := attempt ⟨true, true, true⟩ s0
  let r2 := attempt ⟨false, true, true⟩ r1.2.2
  let r3 := attempt ⟨false, false, true⟩ r2.2.2
  let r4 := attempt ⟨false, false, false⟩ r3.2.2
  [(r1.1, r1.2.1), (r2.1, r2.2.1), (r3.1, r3.2.1), (r4.1, r4.2.1)]

/-- Index of the first attempt whose text length reaches the threshold. -/
def firstSuccessIdx {α : Type} (ct : Nat) : List (α × Nat) → Option Nat
  | [] => none
  | o :: rest => if ct ≤ o.2 then some 0 else (firstSuccessIdx ct rest).map (· + 1)

/-- Greatest text length among a list of attempts. -/
def maxLen {α : Type} (l : List (α × Nat)) : Nat := l.foldr (fun o m => max o.2 m) 0

/-- The descending insertion sort either maps `[]` to `[]`, or places first
an element of the input with maximal text length. -/
theorem sortByLenDesc_spec {α : Type} (l : List (α × Nat)) :
    (sortByLenDesc l = [] ∧ l = []) ∨
    ∃ b t, sortByLenDesc l = b :: t ∧ b ∈ l ∧ ∀ o ∈ l, o.2 ≤ b.2 := by
  induction l with
  | nil => exact Or.inl ⟨rfl, rfl⟩
  | cons x rest ih =>
    right
    rcases ih with ⟨hs, hr⟩ | ⟨b, t, hs, hmem, hmax⟩
    · subst hr
      exact ⟨x, [], by simp [sortByLenDesc, hs, insertByLen], by simp, by simp⟩
    · by_cases hc : x.2 > b.2
      · refine ⟨x, b :: t, by simp [sortByLenDesc, hs, insertByLen, hc], by simp, ?_⟩
        intro o ho
        rcases List.mem_cons.mp ho with rfl | ho
        · exact Nat.le_refl _
        · exact Nat.le_trans (hmax o ho) (Nat.le_of_lt hc)
      · refine ⟨b, insertByLen x t, by simp [sortByLenDesc, hs, insertByLen, hc],
          List.mem_cons_of_mem _ hmem, ?_⟩
        intro o ho
        rcases List.mem_cons.mp ho with rfl | ho
        · omega
        · exact hmax o ho

/-- The greatest saved length is attained by the head the sort places first. -/
theorem sortByLenDesc_head_maxLen {α : Type} (l : List (α × Nat)) (b : α × Nat)
    (t : List (α × Nat)) (hs : sortByLenDesc l = b :: t) : b.2 = maxLen l := by
  rcases sortByLenDesc_spec l with ⟨h1, -⟩ | ⟨b', t', hs', hmem, hmax⟩
  · rw [h1] at hs; cases hs
  · rw [hs'] at hs
    cases hs
    have h1 : maxLen l ≤ b.2 := by
      clear hs' hmem
      induction l with
      | nil => simp [maxLen]
      | cons y ys ihy =>
        simp only [maxLen, List.foldr] at *
        have hy := hmax y (by simp)
        have := ihy (fun o ho => hmax o (List.mem_cons_of_mem _ ho))
        omega
    have h2 : b.2 ≤ maxLen l := by
      clear hs' hmax h1
      induction l with
      | nil => simp at hmem
      | cons y ys ihy =>
        simp only [maxLen, List.foldr] at *
        rcases List.mem_cons.mp hmem with rfl | hm
        · omega
        · have := ihy hm
          omega
    omega

/-- C2: the retry loop starts from all three flags set and clears exactly one
per failed attempt in the order `stripUnlikelys`, `useWeightClasses`,
`cleanConditionally` (trace equal to a prefix of `flagSequence`, hence at
most four attempts); the first attempt whose inner-text character count
reaches `CharThresholds` is returned as is; when all four attempts fall
short, every attempt has been saved and the loop returns a saved attempt of
greatest text length, returning null exactly when that greatest length is
zero. -/
theorem c2_retry_loop {α σ : Type} (attempt : GrabFlags → σ → α × Nat × σ)
    (ct : Nat) (s0 : σ) :
    match firstSuccessIdx ct (attemptOutcomes attempt s0) with
    | some i =>
        (grabArticleRetry attempt ct s0).2 = flagSequence.take (i + 1) ∧
        (grabArticleRetry attempt ct s0).1 =
          ((attemptOutcomes attempt s0)[i]?).map (·.1)
    | none =>
        (grabArticleRetry attempt ct s0).2 = flagSequence ∧
        ((grabArticleRetry attempt ct s0).1 = none ↔
          maxLen (attemptOutcomes attempt s0) = 0) ∧
        (∀ x, (grabArticleRetry attempt ct s0).1 = some x →
          ∃ o ∈ attemptOutcomes attempt s0, o.1 = x ∧
            o.2 = maxLen (attemptOutcomes attempt s0)) := by
  by_cases h1 : ct ≤ (attempt ⟨true, true, true⟩ s0).2.1
  · simp [attemptOutcomes, firstSuccessIdx, h1, grabArticleRetry, grabRetryAux,
      flagSequence]
  by_cases h2 : ct ≤ (attempt ⟨false, true, true⟩ (attempt ⟨true, true, true⟩ s0).2.2).2.1
  · simp [attemptOutcomes, firstSuccessIdx, h1, h2, grabArticleRetry, grabRetryAux,
      clearNextFlag, flagSequence]
  by_cases h3 : ct ≤ (attempt ⟨false, false, true⟩
      (attempt ⟨false, true, true⟩ (attempt ⟨true, true, true⟩ s0).2.2).2.2).2.1
  · simp [attemptOutcomes, firstSuccessIdx, h1, h2, h3, grabArticleRetry,
      grabRetryAux, clearNextFlag, flagSequence]
  by_cases h4 : ct ≤ (attempt ⟨false, false, false⟩ (attempt ⟨false, false, true⟩
      (attempt ⟨false, true, true⟩ (attempt ⟨true, true, true⟩ s0).2.2).2.2).2.2).2.1
  · simp [attemptOutcomes, firstSuccessIdx, h1, h2, h3, h4, grabArticleRetry,
      grabRetryAux, clearNextFlag, flagSequence]
  · have houts : firstSuccessIdx ct (attemptOutcomes attempt s0) = none := by
      simp [attemptOutcomes, firstSuccessIdx, h1, h2, h3, h4]
    rw [houts]
    rcases hs : sortByLenDesc (attemptOutcomes attempt s0) with - | ⟨best, t⟩
    · rcases sortByLenDesc_spec (attemptOutcomes attempt s0) with ⟨-, h⟩ | ⟨b, t, hbt, -, -⟩
      · simp [attemptOutcomes] at h
      · rw [hbt] at hs; cases hs
    · have hbm := sortByLenDesc_head_maxLen _ _ _ hs
      have hmem : best ∈ attemptOutcomes attempt s0 := by
        rcases sortByLenDesc_spec (attemptOutcomes attempt s0) with ⟨hnil, -⟩ |
          ⟨b, t', hbt, hmem', -⟩
        · rw [hnil] at hs; cases hs
        · rw [hbt] at hs
          injection hs with hh hh2
          rw [← hh]
          exact hmem'
      have hrun : grabArticleRetry attempt ct s0 =
          ((if best.2 = 0 then none else some best.1 : Option α),
           [⟨true, true, true⟩, ⟨false, true, true⟩, ⟨false, false, true⟩,
            ⟨false, false, false⟩]) := by
        simp only [attemptOutcomes] at hs
        simp only [grabArticleRetry, grabRetryAux, clearNextFlag]
        simp [h1, h2, h3, h4, hs]
      rw [hrun]
      refine ⟨rfl, ?_, ?_⟩
      · rw [← hbm]
        by_cases hz : best.2 = 0 <;> simp [hz]
      · intro x hx
        by_cases hz : best.2 = 0
        · simp [hz] at hx
        · simp [hz] at hx
          exact ⟨best, hmem, hx, hbm⟩

/-! ## C3: the `readability-page-1` envelope (`parser.go` lines 1166-1192)
combined with the retry gate (lines 1194-1249).

The phases before the envelope (clone, prep walk, scoring, candidate
selection, sibling aggregation, `prepArticle`) are abstracted as
`body : GrabFlags → σ → (Bool × HNode) × σ` returning the
`neededToCreateTopCandidate` flag and the article container right after
`prepArticle`.  In the source the container is always a freshly created
`<div>`, and in the synthesised-top-candidate case its child nodes are
either nothing (when `cleanConditionally` removed the synthesised
candidate) or the single synthesised `<div>`; these two code-evident facts
appear as the hypotheses of the amended theorem. -/

/-- Apply `f` to the first element node of a child list. -/
def updFirstElem (f : HNode → HNode) : List HNode → List HNode
  | [] => []
  | k :: ks => if isElem k then f k :: ks else k :: updFirstElem f ks

/-- Replace the child-node list of a node. -/
def withKids (n : HNode) (ks : List HNode) : HNode :=
  match n with
  | .elem t a _ => .elem t a ks
  | .txt s => .txt s
  | .doc _ => .doc ks

/-- The envelope step of `grabArticle` (`parser.go` lines 1166-1192): when
the top candidate was synthesised, assign `id="readability-page-1"` and
`class="page"` to the first element child if it is a `<div>`; otherwise
wrap all children of the article container in a new `<div>` carrying those
attributes. -/
def applyEnvelope (needed : Bool) (ac : HNode) : HNode :=
  if needed then
    match firstElementChild ac with
    | some fc =>
      if tagName fc = "div" then
        withKids ac (updFirstElem
          (fun c => setAttr "class" "page" (setAttr "id" "readability-page-1" c))
          ac.childNodes)
      else ac
    | none => ac
  else
    withKids ac
      [.elem "div" [("id", "readability-page-1"), ("class", "page")] ac.childNodes]

/-- The retry loop of `grabArticle` around the envelope step, fuel-structured
exactly like `grabRetryAux`; the text length measured by the retry gate is
the inner text of the enveloped container (`parser.go` line 1202). -/
def grabEnvAux {σ : Type} (body : GrabFlags → σ → (Bool × HNode) × σ) (ct : Nat) :
    Nat → GrabFlags → σ → List (HNode × Nat) → Option HNode
  | 0, _, _, _ => none
  | fuel + 1, f, s, attempts =>
    let r := body f s
    let articleContent := applyEnvelope r.1.1 r.1.2
    let textLength := charCountGo (innerTextGo articleContent)
    if ct ≤ textLength then some articleContent
    else
      match clearNextFlag f with
      | some f' => grabEnvAux body ct fuel f' r.2 (attempts ++ [(articleContent, textLength)])
      | none =>
        let attempts' := attempts ++ [(articleContent, textLength)]
        match sortByLenDesc attempts' with
        | [] => none
        | best :: _ => if best.2 = 0 then none else some best.1

/-- `grabArticle` with the pre-envelope phases abstracted. -/
def grabArticleEnv {σ : Type} (body : GrabFlags → σ → (Bool × HNode) × σ) (ct : Nat)
    (s0 : σ) : Option HNode :=
  grabEnvAux body ct 4 ⟨true, true, true⟩ s0 []

/-- The invariant claimed by C3: some child element carries
`id="readability-page-1"` and `class="page"`. -/
def hasEnvelopeChild (n : HNode) : Bool :=
  (children n).any (fun c =>
    getAttr "id" c = "readability-page-1" ∧ getAttr "class" c = "page")

/-- C3 counterexample: with `CharThresholds = 0` (the zero value of the
exported `Parser.CharThresholds` field) and a document whose `<body>` is
empty, the pre-envelope phases synthesise a top candidate from the body and
`cleanConditionally` then removes it, so `prepArticle` leaves an empty
container (`needed = true`, no first element child); the envelope assigns
nothing, the retry gate accepts the attempt because `0 ≤ 0`, and
`grabArticle` returns a non-null subtree with no child at all, let alone
one with `id="readability-page-1"` and `class="page"`. -/
theorem c3_counterexample :
    grabArticleEnv (fun _ s => ((true, HNode.elem "div" [] []), s)) 0 () =
      some (HNode.elem "div" [] []) ∧
    hasEnvelopeChild (HNode.elem "div" [] []) = false := by
  constructor
  · rfl
  · rfl

theorem getAttrList_setAttrList_same (k v : String) (l : List (String × String)) :
    ((setAttrList k v l).lookup k).getD "" = v := by
  induction l with
  | nil => simp [setAttrList, List.lookup]
  | cons a rest ih =>
    by_cases h : a.1 = k
    · simp [setAttrList, h, List.lookup]
    · simp only [setAttrList, h, if_false, List.lookup]
      have : (k == a.1) = false := by
        simp [BEq.beq]
        exact fun he => h he.symm
      simp [this, ih]

theorem getAttr_setAttr_same (k v : String) (t : String) (a : List (String × String))
    (ks : List HNode) :
    getAttr k (setAttr k v (.elem t a ks)) = v := by
  simp [getAttr, setAttr, getAttrList_setAttrList_same]

theorem getAttr_setAttr_other (k k' v : String) (hkk : k ≠ k') (t : String)
    (a : List (String × String)) (ks : List HNode) :
    getAttr k (setAttr k' v (.elem t a ks)) = getAttr k (.elem t a ks) := by
  simp only [getAttr, setAttr]
  congr 1
  induction a with
  | nil =>
    have hne : (k == k') = false := by
      simp
      exact hkk
    simp [setAttrList, List.lookup, hne]
  | cons x rest ih =>
    by_cases h : x.1 = k'
    · simp only [setAttrList, h, if_true, List.lookup]
      have h1 : (k == k') = false := by
        simp
        exact hkk
      have h2 : (k == x.1) = false := by
        simp [h]
        exact hkk
      simp [h1, h2]
    · simp only [setAttrList, h, if_false, List.lookup]
      cases hx : (k == x.1) <;> simp [ih]

/-- Every attempt either carries the envelope child or has no text at all,
under the two structural facts about the pre-envelope phases. -/
theorem applyEnvelope_spec (needed : Bool) (ac : HNode)
    (hElem : ac.isElem = true)
    (hneeded : needed = true → ∀ c ∈ ac.childNodes, ∃ a ks, c = HNode.elem "div" a ks) :
    hasEnvelopeChild (applyEnvelope needed ac) = true ∨
    charCountGo (innerTextGo (applyEnvelope needed ac)) = 0 := by
  cases ac with
  | txt s => simp [isElem] at hElem
  | doc ks => simp [isElem] at hElem
  | elem t a ks =>
    by_cases hn : needed
    · subst hn
      have hkids := hneeded rfl
      cases ks with
      | nil =>
        right
        simp [applyEnvelope, firstElementChild, children, childNodes, innerTextGo,
          textContent, textContentList, trimGo, trimChars, normalizeSpacesGo,
          normalizeChars, normalizeAux, charCountGo]
      | cons c rest =>
        left
        obtain ⟨ca, cks, rfl⟩ := hkids c (by simp [childNodes])
        simp only [applyEnvelope, firstElementChild, children, childNodes]
        have hfilter : (HNode.elem "div" ca cks :: rest).filter isElem =
            HNode.elem "div" ca cks :: rest.filter isElem := by
          simp [List.filter, isElem]
        rw [hfilter]
        simp only [List.head?, tagName, if_pos rfl]
        simp only [updFirstElem, isElem, if_pos rfl, withKids]
        simp only [hasEnvelopeChild, children, childNodes]
        have : isElem (setAttr "class" "page"
            (setAttr "id" "readability-page-1" (HNode.elem "div" ca cks))) = true := by
          simp [setAttr, isElem]
        simp only [List.filter, this]
        simp only [List.any_cons, Bool.or_eq_true]
        left
        have h1 : getAttr "id" (setAttr "class" "page"
            (setAttr "id" "readability-page-1" (HNode.elem "div" ca cks))) =
            "readability-page-1" := by
          rw [show setAttr "id" "readability-page-1" (HNode.elem "div" ca cks) =
              HNode.elem "div" (setAttrList "id" "readability-page-1" ca) cks from rfl]
          rw [getAttr_setAttr_other "id" "class" "page" (by decide)]
          exact getAttrList_setAttrList_same "id" "readability-page-1" ca
        have h2 : getAttr "class" (setAttr "class" "page"
            (setAttr "id" "readability-page-1" (HNode.elem "div" ca cks))) = "page" := by
          rw [show setAttr "id" "readability-page-1" (HNode.elem "div" ca cks) =
              HNode.elem "div" (setAttrList "id" "readability-page-1" ca) cks from rfl]
          exact getAttr_setAttr_same "class" "page" _ _ _
        simp [h1, h2]
    · left
      simp only [Bool.not_eq_true] at hn
      subst hn
      simp [applyEnvelope, withKids, hasEnvelopeChild, children, childNodes,
        List.filter, isElem, getAttr, List.lookup]

/-- Loop part of C3's amended proof. -/
theorem grabEnvAux_envelope {σ : Type} (body : GrabFlags → σ → (Bool × HNode) × σ)
    (ct : Nat) (hct : 1 ≤ ct)
    (hElem : ∀ f s, (body f s).1.2.isElem = true)
    (hneeded : ∀ f s, (body f s).1.1 = true →
      ∀ c ∈ (body f s).1.2.childNodes, ∃ a ks, c = HNode.elem "div" a ks) :
    ∀ (fuel : Nat) (f : GrabFlags) (s : σ) (attempts : List (HNode × Nat)),
      (∀ o ∈ attempts, hasEnvelopeChild o.1 = true ∨ o.2 = 0) →
      ∀ x, grabEnvAux body ct fuel f s attempts = some x →
        hasEnvelopeChild x = true := by
  intro fuel
  induction fuel with
  | zero => intro f s attempts hinv x hx; simp [grabEnvAux] at hx
  | succ fuel ih =>
    intro f s attempts hinv x hx
    have hstep := applyEnvelope_spec (body f s).1.1 (body f s).1.2 (hElem f s)
      (fun h => hneeded f s h)
    simp only [grabEnvAux] at hx
    by_cases hth : ct ≤ charCountGo (innerTextGo (applyEnvelope (body f s).1.1 (body f s).1.2))
    · rw [if_pos hth] at hx
      injection hx with hx
      subst hx
      rcases hstep with h | h
      · exact h
      · omega
    · rw [if_neg hth] at hx
      rcases hcf : clearNextFlag f with - | f'
      · rw [hcf] at hx
        have hx' : (match sortByLenDesc (attempts ++
            [(applyEnvelope (body f s).1.1 (body f s).1.2,
              charCountGo (innerTextGo (applyEnvelope (body f s).1.1 (body f s).1.2)))]) with
            | [] => (none : Option HNode)
            | best :: _ => if best.2 = 0 then none else some best.1) = some x := hx
        rcases hsort : sortByLenDesc (attempts ++
            [(applyEnvelope (body f s).1.1 (body f s).1.2,
              charCountGo (innerTextGo (applyEnvelope (body f s).1.1 (body f s).1.2)))]) with
          - | ⟨best, t⟩
        · rw [hsort] at hx'; cases hx'
        · rw [hsort] at hx'
          have hx2 : (if best.2 = 0 then (none : Option HNode) else some best.1) = some x := hx'
          rcases sortByLenDesc_spec (attempts ++
              [(applyEnvelope (body f s).1.1 (body f s).1.2,
                charCountGo (innerTextGo (applyEnvelope (body f s).1.1 (body f s).1.2)))]) with
            ⟨hnil, -⟩ | ⟨b, t', hbt, hmem, -⟩
          · rw [hnil] at hsort; cases hsort
          · have hmemb : best ∈ (attempts ++
                [(applyEnvelope (body f s).1.1 (body f s).1.2,
                  charCountGo (innerTextGo (applyEnvelope (body f s).1.1 (body f s).1.2)))]) := by
              rw [hbt] at hsort
              injection hsort with hb ht
              rw [← hb]
              exact hmem
            by_cases hz : best.2 = 0
            · rw [if_pos hz] at hx2; cases hx2
            · rw [if_neg hz] at hx2
              injection hx2 with hx2
              subst hx2
              rcases List.mem_append.mp hmemb with hm | hm
              · rcases hinv best hm with h | h
                · exact h
                · exact absurd h hz
              · simp only [List.mem_singleton] at hm
                subst hm
                rcases hstep with h | h
                · exact h
                · exact absurd h hz
      · rw [hcf] at hx
        have hx' : grabEnvAux body ct fuel f' (body f s).2 (attempts ++
            [(applyEnvelope (body f s).1.1 (body f s).1.2,
              charCountGo (innerTextGo (applyEnvelope (body f s).1.1 (body f s).1.2)))]) =
            some x := hx
        refine ih f' (body f s).2 _ ?_ x hx'
        intro o ho
        rcases List.mem_append.mp ho with hm | hm
        · exact hinv o hm
        · simp only [List.mem_singleton] at hm
          subst hm
          exact hstep

/-- C3 amended: whenever `CharThresholds` is at least 1 (as with every
configuration produced by `NewParser`, whose default is 500), a non-null
subtree returned by `grabArticle` has a child element with
`id="readability-page-1"` and `class="page"` -- both when the top candidate
had to be synthesised from the body (hypothesis `hneeded`: in that case the
article container holds nothing but synthesised `<div>` children, possibly
none) and when a saved earlier attempt is returned after the retry loop
exhausts its flags.  With `CharThresholds = 0` the invariant fails, see the
counterexample. -/
theorem c3_envelope {σ : Type} (body : GrabFlags → σ → (Bool × HNode) × σ)
    (ct : Nat) (s0 : σ) (hct : 1 ≤ ct)
    (hElem : ∀ f s, (body f s).1.2.isElem = true)
    (hneeded : ∀ f s, (body f s).1.1 = true →
      ∀ c ∈ (body f s).1.2.childNodes, ∃ a ks, c = HNode.elem "div" a ks) :
    ∀ x, grabArticleEnv body ct s0 = some x → hasEnvelopeChild x = true :=
  fun x hx =>
    grabEnvAux_envelope body ct hct hElem hneeded 4 ⟨true, true, true⟩ s0 []
      (by intro o ho; cases ho) x hx

set_option maxRecDepth 20000 in
/-- Witness for C3's amended theorem: a sibling-aggregation attempt (the
`needed = false` branch) whose wrapped content passes the 500-character
default threshold. -/
theorem c3_envelope_witness :
    hasEnvelopeChild
      (HNode.elem "div" []
        [HNode.elem "div" [("id", "readability-page-1"), ("class", "page")]
          [HNode.txt (String.mk (List.replicate 500 'a'))]]) = true :=
  c3_envelope
    (fun _ s => ((false,
      HNode.elem "div" [] [HNode.txt (String.mk (List.replicate 500 'a'))]), s))
    500 () (by decide) (fun _ _ => rfl) (fun _ _ h => by cases h) _ (by rfl)

/-! ## C8 and C10: `ParseDocument` (`parser-parse.go` lines 27-136).

After cloning, `ParseDocument` counts elements and fails when the count
exceeds a positive `MaxElemsToParse`; every later step
(`unwrapNoscriptImages`, JSON-LD harvesting, `removeScripts`,
`prepDocument`, `getArticleMetadata`, `grabArticle`, `postProcessContent`)
is a DOM transformation or metadata read whose Go signature can produce no
error, so they are abstracted as total functions here, and `ParseDocument`
has no further error return. -/

/-- Number of elements in the document: `len(dom.GetElementsByTagName(doc, "*"))`. -/
def countElements (doc : HNode) : Nat := (getElementsByTagName doc "*").length

mutual
/-- HTML serialisation of a node (attribute and text escaping elided; the
claims under study never inspect the serialised string). -/
def outerHTML : HNode → String
  | .elem t a ks =>
    "<" ++ t ++ (a.foldl (fun acc kv => acc ++ " " ++ kv.1 ++ "=\"" ++ kv.2 ++ "\"") "") ++
    ">" ++ outerHTMLList ks ++ "</" ++ t ++ ">"
  | .txt s => s
  | .doc ks => outerHTMLList ks

def outerHTMLList : List HNode → String
  | [] => ""
  | k :: ks => outerHTML k ++ outerHTMLList ks
end

/-- Model of `dom.InnerHTML`. -/
def innerHTML (n : HNode) : String := outerHTMLList n.childNodes

/-- The fields of the `Article` record that C8 and C10 constrain. -/
structure ArticleModel where
  content : String
  textContent : String
  length : Nat
  node : Option HNode

/-- Model of `ParseDocument` (`parser-parse.go` lines 27-136): clone (a deep
copy, which for a tree value is the value itself), the `MaxElemsToParse`
gate, then the error-free pipeline: `prePhases` covers
`unwrapNoscriptImages` through `getArticleMetadata`, `grab` is
`grabArticle`, `post` is `postProcessContent`.  The error message stands
for `fmt.Errorf("documents too large: %d elements", numTags)`. -/
def parseDocumentModel (maxElems : Nat) (prePhases : HNode → HNode)
    (grab : HNode → Option HNode) (post : HNode → HNode) (doc : HNode) :
    Except String ArticleModel :=
  let working := doc
  if 0 < maxElems ∧ maxElems < countElements working then
    .error "documents too large"
  else
    let prepped := prePhases working
    match grab prepped with
    | none => .ok { content := "", textContent := "", length := 0, node := none }
    | some articleContent =>
      let processed := post articleContent
      let finalTextContent := trimGo (textContent processed)
      .ok { content := innerHTML processed,
            textContent := finalTextContent,
            length := charCountGo finalTextContent,
            node := firstElementChild processed }

/-- C8: with `MaxElemsToParse = N > 0`, a document of exactly `N` elements
passes the gate and `ParseDocument` succeeds, a document of `N + 1`
elements fails with the input-too-large error and no article content; with
`MaxElemsToParse = 0` no size limit is enforced. -/
theorem c8_max_elems_gate (N : Nat) (hN : 0 < N) (prePhases : HNode → HNode)
    (grab : HNode → Option HNode) (post : HNode → HNode) (doc docLarge : HNode)
    (hdoc : countElements doc = N) (hlarge : countElements docLarge = N + 1) :
    (∃ a, parseDocumentModel N prePhases grab post doc = .ok a) ∧
    parseDocumentModel N prePhases grab post docLarge = .error "documents too large" ∧
    (∀ d, ∃ a, parseDocumentModel 0 prePhases grab post d = .ok a) := by
  refine ⟨?_, ?_, ?_⟩
  · have hgate : ¬ (0 < N ∧ N < countElements doc) := by omega
    simp only [parseDocumentModel, if_neg hgate]
    rcases grab (prePhases doc) with - | ac
    · exact ⟨_, rfl⟩
    · exact ⟨_, rfl⟩
  · have hgate : 0 < N ∧ N < countElements docLarge := by omega
    simp [parseDocumentModel, hgate]
  · intro d
    have hgate : ¬ ((0:Nat) < 0 ∧ 0 < countElements d) := by omega
    simp only [parseDocumentModel, if_neg hgate]
    rcases grab (prePhases d) with - | ac
    · exact ⟨_, rfl⟩
    · exact ⟨_, rfl⟩

/-- Witness for C8 at `N = 1`: `<html></html>` has exactly one element,
`<html><body></body></html>` has two. -/
theorem c8_max_elems_gate_witness :
    (∃ a, parseDocumentModel 1 id (fun _ => none) id (.doc [.elem "html" [] []]) = .ok a) ∧
    parseDocumentModel 1 id (fun _ => none) id
      (.doc [.elem "html" [] [.elem "body" [] []]]) = .error "documents too large" ∧
    (∀ d, ∃ a, parseDocumentModel 0 id (fun _ => none) id d = .ok a) :=
  c8_max_elems_gate 1 (by decide) id (fun _ => none) id
    (.doc [.elem "html" [] []]) (.doc [.elem "html" [] [.elem "body" [] []]])
    (by decide) (by decide)

/-- C10: whenever the document passes the `MaxElemsToParse` gate,
`ParseDocument` returns a nil error; in particular when `grabArticle`
finds no readable content the result is still `ok`, with empty `Content`
and `TextContent`, `Length` 0 and a nil `Node`, not an `Unreadable`
error. -/
theorem c10_no_unreadable_error (maxElems : Nat) (prePhases : HNode → HNode)
    (grab : HNode → Option HNode) (post : HNode → HNode) (doc : HNode)
    (hgate : maxElems = 0 ∨ countElements doc ≤ maxElems) :
    (∃ a, parseDocumentModel maxElems prePhases grab post doc = .ok a) ∧
    (grab (prePhases doc) = none →
      parseDocumentModel maxElems prePhases grab post doc =
        .ok { content := "", textContent := "", length := 0, node := none }) := by
  have hg : ¬ (0 < maxElems ∧ maxElems < countElements doc) := by omega
  constructor
  · simp only [parseDocumentModel, if_neg hg]
    rcases grab (prePhases doc) with - | ac
    · exact ⟨_, rfl⟩
    · exact ⟨_, rfl⟩
  · intro hnone
    simp [parseDocumentModel, if_neg hg, hnone]

/-- Witness for C10: a one-element document with no extractable content. -/
theorem c10_no_unreadable_error_witness :
    (∃ a, parseDocumentModel 0 id (fun _ => none) id (.doc [.elem "html" [] []]) = .ok a) ∧
    ((fun _ => (none : Option HNode)) (id (HNode.doc [.elem "html" [] []])) = none →
      parseDocumentModel 0 id (fun _ => none) id (.doc [.elem "html" [] []]) =
        .ok { content := "", textContent := "", length := 0, node := none }) :=
  c10_no_unreadable_error 0 id (fun _ => none) id (.doc [.elem "html" [] []])
    (Or.inl rfl)

/-! ## C4: the paragraph-scoring phase (`parser.go` lines 904-964 and
`initializeNode`, lines 626-642).

Nodes of the working document are addressed by paths (child indices from
the root), so that the per-node score bookkeeping (a side table in place of
the `data-readability-score` attribute, whose `%.4f` rounding is below the
granularity of the claim) and ancestor chains (`getNodeAncestors`) can be
expressed over the immutable tree. -/

/-- A path addresses the node reached by following child indices. -/
def nodeAt : HNode → List Nat → Option HNode
  | n, [] => some n
  | n, i :: p => match n.childNodes[i]? with
    | some c => nodeAt c p
    | none => none

/-- Proper-prefix chain of a path, nearest ancestor first (the `node.Parent`
chain of `getNodeAncestors`), fuel-structured on the path length. -/
def ancestorChainAux : Nat → List Nat → List (List Nat)
  | 0, _ => []
  | _ + 1, [] => []
  | fuel + 1, p => p.dropLast :: ancestorChainAux fuel p.dropLast

/-- All ancestors of the node at `p`, nearest first. -/
def ancestorChain (p : List Nat) : List (List Nat) := ancestorChainAux p.length p

/-- Model of `getNodeAncestors` (`parser.go` lines 746-759): the parent chain,
cut at `maxDepth` when positive. -/
def getNodeAncestorsP (p : List Nat) (maxDepth : Nat) : List (List Nat) :=
  if 0 < maxDepth then (ancestorChain p).take maxDepth else ancestorChain p

/-- The score side table (standing for the `data-readability-score`
bookkeeping attribute). -/
def ScoreTable : Type := List (List Nat × ℚ)

/-- Score lookup (`getContentScore`): 0 when absent. -/
def getScoreP (tbl : ScoreTable) (p : List Nat) : ℚ :=
  ((tbl.find? (fun e => e.1 = p)).map (·.2)).getD 0

/-- Score presence (`hasContentScore`). -/
def hasScoreP (tbl : ScoreTable) (p : List Nat) : Bool :=
  tbl.any (fun e => e.1 = p)

/-- Score update (`setContentScore`). -/
def setScoreP : ScoreTable → List Nat → ℚ → ScoreTable
  | [], p, q => [(p, q)]
  | e :: rest, p, q => if e.1 = p then (p, q) :: rest else e :: setScoreP rest p q

/-- Model of `initializeNode` (`parser.go` lines 626-642): class weight plus
the tag-based base score. -/
def initializeNodeScore (uwc : Bool) (n : HNode) : ℚ :=
  let base : Int :=
    if tagName n = "div" then 5
    else if tagName n = "pre" ∨ tagName n = "td" ∨ tagName n = "blockquote" then 3
    else if tagName n = "address" ∨ tagName n = "ol" ∨ tagName n = "ul" ∨
      tagName n = "dl" ∨ tagName n = "dd" ∨ tagName n = "dt" ∨ tagName n = "li" ∨
      tagName n = "form" then -3
    else if tagName n = "h1" ∨ tagName n = "h2" ∨ tagName n = "h3" ∨
      tagName n = "h4" ∨ tagName n = "h5" ∨ tagName n = "h6" ∨ tagName n = "th" then -5
    else 0
  ((getClassWeight uwc n + base : Int) : ℚ)

/-- The ancestor guard of the scoring loop (`parser.go` line 937): the
ancestor must have a nonempty tag name (be an element) and its own parent
must exist and be an element node. -/
def ancEligible (doc : HNode) (q : List Nat) : Bool :=
  match nodeAt doc q with
  | none => false
  | some anc =>
    let parentElem : Bool :=
      match q with
      | [] => false
      | _ :: _ =>
        match nodeAt doc q.dropLast with
        | some par => par.isElem
        | none => false
    tagName anc ≠ "" ∧ parentElem

/-- The element guard of the scoring loop (`parser.go` line 910): the scored
element must have a parent with a nonempty tag name. -/
def elementScoreGuard (doc : HNode) (p : List Nat) : Bool :=
  match p with
  | [] => false
  | _ :: _ =>
    match nodeAt doc p.dropLast with
    | some par => tagName par ≠ ""
    | none => false

/-- Score divider by ancestor level (`parser.go` lines 950-958). -/
def levelDivider (level : Nat) : Nat :=
  if level = 0 then 1 else if level = 1 then 2 else level * 3

/-- The ancestor loop of the scoring phase (`parser.go` lines 936-963):
initialise an eligible ancestor on first sight, record it as a candidate,
then add `contentScore / divider`. -/
def scoreAncestors (doc : HNode) (uwc : Bool) (cs : Nat) :
    List (List Nat) → Nat → ScoreTable × List (List Nat) → ScoreTable × List (List Nat)
  | [], _, st => st
  | q :: rest, level, (tbl, cands) =>
    let st' :=
      if ancEligible doc q then
        match nodeAt doc q with
        | none => (tbl, cands)
        | some anc =>
          let tbl1 := if ¬ hasScoreP tbl q then setScoreP tbl q (initializeNodeScore uwc anc) else tbl
          let cands1 := if ¬ hasScoreP tbl q then cands ++ [q] else cands
          let newScore := getScoreP tbl1 q + (cs : ℚ) / (levelDivider level : ℚ)
          (setScoreP tbl1 q newScore, cands1)
      else (tbl, cands)
    scoreAncestors doc uwc cs rest (level + 1) st'

/-- The per-element body of the scoring phase (`parser.go` lines 909-964):
guard on the parent, skip elements of fewer than 25 code points of inner
text, compute `contentScore = 1 + commas + min 3 (floor (chars/100))`, and
distribute it over the ancestors up to depth 5. -/
def scoreElementGo (doc : HNode) (uwc : Bool) (p : List Nat)
    (st : ScoreTable × List (List Nat)) : ScoreTable × List (List Nat) :=
  match nodeAt doc p with
  | none => st
  | some elt =>
    if ¬ elementScoreGuard doc p then st
    else
      let innerText := innerTextGo elt
      if charCountGo innerText < 25 then st
      else
        let ancestors := getNodeAncestorsP p 5
        if ancestors.isEmpty then st
        else
          let contentScore := 1 + countCommas innerText + min ((charCountGo innerText) / 100) 3
          scoreAncestors doc uwc contentScore ancestors 0 st

/-- Initialisation value of the node at a path. -/
def initAt (doc : HNode) (uwc : Bool) (q : List Nat) : ℚ :=
  match nodeAt doc q with
  | some anc => initializeNodeScore uwc anc
  | none => 0

/-- The document of the C4 counterexample: a 26-character paragraph directly
inside `<body>`. -/
def c4Doc : HNode :=
  .doc [.elem "html" [] [.elem "body" [] [.elem "p" [] [.txt "abcdefghijklmnopqrstuvwxyz"]]]]

/-- C4 counterexample: in `c4Doc` the scored `<p>` sits at depth 3, so
`<html>` (path `[0]`) is among its ancestors up to depth 5 and is an
element, yet the scoring loop never initialises it or adds it to the
candidate set, because its parent is the document node and the loop skips
ancestors whose parent is not an element (`parser.go` line 937); only
`<body>` (path `[0, 0]`) becomes a candidate. -/
theorem c4_counterexample :
    (scoreElementGo c4Doc true [0, 0, 0] ([], [])).2 = [[0, 0]] ∧
    ([0] ∈ getNodeAncestorsP [0, 0, 0] 5) ∧
    nodeAt c4Doc [0] =
      some (.elem "html" [] [.elem "body" [] [.elem "p" [] [.txt "abcdefghijklmnopqrstuvwxyz"]]]) ∧
    ¬ [0] ∈ (scoreElementGo c4Doc true [0, 0, 0] ([], [])).2 := by
  refine ⟨?_, by decide, rfl, ?_⟩
  · rfl
  · intro h
    rw [show (scoreElementGo c4Doc true [0, 0, 0] ([], [])).2 = [[0, 0]] from rfl] at h
    simp at h

theorem hasScoreP_setScoreP_same (tbl : ScoreTable) (q : List Nat) (v : ℚ) :
    hasScoreP (setScoreP tbl q v) q = true := by
  induction tbl with
  | nil => simp [setScoreP, hasScoreP]
  | cons e rest ih =>
    by_cases h : e.1 = q
    · simp [setScoreP, hasScoreP, h]
    · simp only [setScoreP, h, if_false, hasScoreP, List.any_cons]
      simp only [hasScoreP] at ih
      simp [ih]

theorem hasScoreP_setScoreP_ne (tbl : ScoreTable) (q q' : List Nat) (v : ℚ)
    (h : q' ≠ q) : hasScoreP (setScoreP tbl q v) q' = hasScoreP tbl q' := by
  induction tbl with
  | nil =>
    simp [setScoreP, hasScoreP]
    exact fun he => h he.symm
  | cons e rest ih =>
    by_cases he : e.1 = q
    · simp only [setScoreP, he, if_true, hasScoreP, List.any_cons]
    · simp only [setScoreP, he, if_false, hasScoreP, List.any_cons]
      simp only [hasScoreP] at ih
      rw [ih]

theorem getScoreP_setScoreP_same (tbl : ScoreTable) (q : List Nat) (v : ℚ) :
    getScoreP (setScoreP tbl q v) q = v := by
  induction tbl with
  | nil => simp [setScoreP, getScoreP, List.find?]
  | cons e rest ih =>
    by_cases h : e.1 = q
    · simp only [setScoreP, h, if_true, getScoreP]
      rw [List.find?_cons_of_pos _ (by simp)]
      simp
    · simp only [setScoreP, h, if_false, getScoreP]
      rw [List.find?_cons_of_neg _ (by simp [h])]
      simpa [getScoreP] using ih

theorem getScoreP_setScoreP_ne (tbl : ScoreTable) (q q' : List Nat) (v : ℚ)
    (h : q' ≠ q) : getScoreP (setScoreP tbl q v) q' = getScoreP tbl q' := by
  induction tbl with
  | nil =>
    simp only [setScoreP, getScoreP]
    rw [List.find?_cons_of_neg _ (by simp; exact fun he => h he.symm)]
  | cons e rest ih =>
    by_cases he : e.1 = q
    · simp only [setScoreP, he, if_true, getScoreP]
      rw [List.find?_cons_of_neg _ (by simp; exact fun hx => h hx.symm)]
      rw [List.find?_cons_of_neg _ (by simp; rw [he]; exact fun hx => h hx.symm)]
    · simp only [setScoreP, he, if_false, getScoreP]
      by_cases hx : e.1 = q'
      · rw [List.find?_cons_of_pos _ (by simp [hx]), List.find?_cons_of_pos _ (by simp [hx])]
      · rw [List.find?_cons_of_neg _ (by simp [hx]), List.find?_cons_of_neg _ (by simp [hx])]
        simpa [getScoreP] using ih

theorem ancestorChainAux_len : ∀ (fuel : Nat) (p q : List Nat),
    q ∈ ancestorChainAux fuel p → q.length < p.length := by
  intro fuel
  induction fuel with
  | zero => intro p q h; simp [ancestorChainAux] at h
  | succ fuel ih =>
    intro p q h
    cases p with
    | nil => simp [ancestorChainAux] at h
    | cons i p' =>
      simp only [ancestorChainAux, List.mem_cons] at h
      rcases h with rfl | h
      · simp [List.length_dropLast]
      · have := ih _ _ h
        have hd : (i :: p').dropLast.length = p'.length := by
          simp [List.length_dropLast]
        have hc : (i :: p').length = p'.length + 1 := by simp
        omega

theorem ancestorChain_pairwise (p : List Nat) :
    (ancestorChain p).Pairwise (fun a b => (a : List Nat) ≠ b) := by
  unfold ancestorChain
  generalize hfuel : p.length = fuel
  clear hfuel
  induction fuel generalizing p with
  | zero => simp [ancestorChainAux]
  | succ fuel ih =>
    cases p with
    | nil => simp [ancestorChainAux]
    | cons i p' =>
      simp only [ancestorChainAux]
      refine List.Pairwise.cons ?_ (ih _)
      intro q hq
      have := ancestorChainAux_len fuel _ q hq
      intro he
      rw [he] at this
      omega

/-- The ancestors of a node are pairwise distinct paths. -/
theorem getNodeAncestorsP_pairwise (p : List Nat) (d : Nat) :
    (getNodeAncestorsP p d).Pairwise (fun a b => (a : List Nat) ≠ b) := by
  unfold getNodeAncestorsP
  by_cases h : 0 < d
  · simp only [h, if_true]
    exact List.Pairwise.sublist (List.take_sublist _ _) (ancestorChain_pairwise p)
  · simp only [h, if_false]
    exact ancestorChain_pairwise p

theorem pathGetElemMem {α : Type} : ∀ (l : List α) (i : Nat) (a : α),
    l[i]? = some a → a ∈ l := by
  intro l
  induction l with
  | nil => intro i a h; simp at h
  | cons x xs ih =>
    intro i a h
    cases i with
    | zero =>
      simp [List.getElem?_cons_zero] at h
      simp [h]
    | succ i =>
      simp only [List.getElem?_cons_succ] at h
      exact List.mem_cons_of_mem _ (ih i a h)

/-- Characterisation of the ancestor loop: candidates are extended, in
order, by exactly the eligible not-yet-scored ancestors; scores at paths
outside the ancestor list are untouched; and each eligible ancestor at
loop index `i` ends with its prior (or first-sight initialisation) score
plus `contentScore / divider (level + i)`. -/
theorem scoreAncestors_spec (doc : HNode) (uwc : Bool) (cs : Nat) :
    ∀ (qs : List (List Nat)) (level : Nat) (tbl : ScoreTable) (cands : List (List Nat)),
      qs.Pairwise (fun a b => (a : List Nat) ≠ b) →
      ((scoreAncestors doc uwc cs qs level (tbl, cands)).2 =
        cands ++ qs.filter (fun q => ancEligible doc q ∧ ¬ hasScoreP tbl q)) ∧
      (∀ q', q' ∉ qs →
        getScoreP (scoreAncestors doc uwc cs qs level (tbl, cands)).1 q' = getScoreP tbl q' ∧
        hasScoreP (scoreAncestors doc uwc cs qs level (tbl, cands)).1 q' = hasScoreP tbl q') ∧
      (∀ (i : Nat) (qi : List Nat), qs[i]? = some qi → ancEligible doc qi = true →
        getScoreP (scoreAncestors doc uwc cs qs level (tbl, cands)).1 qi =
          (if hasScoreP tbl qi then getScoreP tbl qi else initAt doc uwc qi) +
          (cs : ℚ) / (levelDivider (level + i) : ℚ)) := by
  intro qs
  induction qs with
  | nil =>
    intro level tbl cands hpw
    refine ⟨by simp [scoreAncestors], ?_, ?_⟩
    · intro q' hq'; exact ⟨rfl, rfl⟩
    · intro i qi h; simp at h
  | cons q qs' ih =>
    intro level tbl cands hpw
    have hq : ∀ x ∈ qs', q ≠ x := fun x hx => (List.pairwise_cons.mp hpw).1 x hx
    have hpw' := (List.pairwise_cons.mp hpw).2
    by_cases he : ancEligible doc q
    · have hanc : ∃ anc, nodeAt doc q = some anc := by
        unfold ancEligible at he
        rcases hn : nodeAt doc q with - | anc
        · rw [hn] at he; simp at he
        · exact ⟨anc, rfl⟩
      obtain ⟨anc, hanc⟩ := hanc
      have hstep : scoreAncestors doc uwc cs (q :: qs') level (tbl, cands) =
          scoreAncestors doc uwc cs qs' (level + 1)
            (setScoreP (if ¬ hasScoreP tbl q then setScoreP tbl q (initializeNodeScore uwc anc) else tbl)
              q ((getScoreP (if ¬ hasScoreP tbl q then setScoreP tbl q (initializeNodeScore uwc anc) else tbl) q) +
                 (cs : ℚ) / (levelDivider level : ℚ)),
             if ¬ hasScoreP tbl q then cands ++ [q] else cands) := by
        simp only [scoreAncestors, he, if_true, hanc]
      set tbl1 := if ¬ hasScoreP tbl q then setScoreP tbl q (initializeNodeScore uwc anc) else tbl with htbl1
      set newScore := (getScoreP tbl1 q) + (cs : ℚ) / (levelDivider level : ℚ) with hns
      set tbl2 := setScoreP tbl1 q newScore with htbl2
      set cands1 := if ¬ hasScoreP tbl q then cands ++ [q] else cands with hcands1
      obtain ⟨ihc, ihf, ihs⟩ := ih (level + 1) tbl2 cands1 hpw'
      have hframe1 : ∀ x ∈ qs', hasScoreP tbl2 x = hasScoreP tbl x := by
        intro x hx
        have hne : x ≠ q := fun hxe => (hq x hx) hxe.symm
        rw [htbl2, hasScoreP_setScoreP_ne _ _ _ _ hne, htbl1]
        by_cases hb : hasScoreP tbl q
        · simp [hb]
        · simp [hb, hasScoreP_setScoreP_ne _ _ _ _ hne]
      have hframe2 : ∀ x, x ≠ q →
          getScoreP tbl2 x = getScoreP tbl x ∧ hasScoreP tbl2 x = hasScoreP tbl x := by
        intro x hne
        constructor
        · rw [htbl2, getScoreP_setScoreP_ne _ _ _ _ hne, htbl1]
          by_cases hb : hasScoreP tbl q
          · simp [hb]
          · simp [hb, getScoreP_setScoreP_ne _ _ _ _ hne]
        · rw [htbl2, hasScoreP_setScoreP_ne _ _ _ _ hne, htbl1]
          by_cases hb : hasScoreP tbl q
          · simp [hb]
          · simp [hb, hasScoreP_setScoreP_ne _ _ _ _ hne]
      refine ⟨?_, ?_, ?_⟩
      · rw [hstep, ihc]
        have hfc : qs'.filter (fun x => ancEligible doc x ∧ ¬ hasScoreP tbl2 x) =
            qs'.filter (fun x => ancEligible doc x ∧ ¬ hasScoreP tbl x) := by
          apply List.filter_congr
          intro x hx
          rw [hframe1 x hx]
        rw [hfc]
        by_cases hb : hasScoreP tbl q
        · simp only [hcands1, hb, not_true, if_neg (by simp : ¬ ¬ True = True)]
          have : (fun x => decide (ancEligible doc x = true ∧ ¬ hasScoreP tbl x = true)) q = false := by
            simp [hb]
          simp [List.filter, he, hb]
        · have : (fun x => decide (ancEligible doc x = true ∧ ¬ hasScoreP tbl x = true)) q = true := by
            simp [he, hb]
          simp [hcands1, List.filter, he, hb]
      · intro q' hq'
        have hq'q : q' ≠ q := by
          intro hx
          exact hq' (by rw [hx]; exact List.mem_cons_self _ _)
        have hq's : q' ∉ qs' := fun hx => hq' (List.mem_cons_of_mem _ hx)
        rw [hstep]
        obtain ⟨hf1, hf2⟩ := ihf q' hq's
        obtain ⟨hg1, hg2⟩ := hframe2 q' hq'q
        exact ⟨by rw [hf1, hg1], by rw [hf2, hg2]⟩
      · intro i qi hgi hei
        rw [hstep]
        cases i with
        | zero =>
          have hqi : qi = q := by
            simp [List.getElem?_cons_zero] at hgi
            exact hgi.symm
          subst hqi
          have hqn : qi ∉ qs' := by
            intro hx
            exact (hq qi hx) rfl
          obtain ⟨hf1, -⟩ := ihf qi hqn
          rw [hf1, htbl2, getScoreP_setScoreP_same, hns]
          congr 1
          rw [htbl1]
          by_cases hb : hasScoreP tbl qi
          · simp [hb]
          · rw [if_pos hb, if_neg hb, getScoreP_setScoreP_same]
            simp [initAt, hanc]
        | succ i =>
          have hgi' : qs'[i]? = some qi := by
            simpa [List.getElem?_cons_succ] using hgi
          have hx := ihs i qi hgi' hei
          have hmem : qi ∈ qs' := pathGetElemMem qs' i qi hgi'
          have hne : qi ≠ q := fun hxe => (hq _ hmem) hxe.symm
          obtain ⟨hg1, hg2⟩ := hframe2 _ hne
          rw [hx, hg1, hg2]
          have harith : level + 1 + i = level + (i + 1) := by omega
          rw [harith]
    · have hstep : scoreAncestors doc uwc cs (q :: qs') level (tbl, cands) =
          scoreAncestors doc uwc cs qs' (level + 1) (tbl, cands) := by
        simp [scoreAncestors, he]
      obtain ⟨ihc, ihf, ihs⟩ := ih (level + 1) tbl cands hpw'
      refine ⟨?_, ?_, ?_⟩
      · rw [hstep, ihc]
        have : (fun x => decide (ancEligible doc x = true ∧ ¬ hasScoreP tbl x = true)) q = false := by
          simp [he]
        simp [List.filter, he]
      · intro q' hq'
        rw [hstep]
        exact ihf q' (fun hx => hq' (List.mem_cons_of_mem _ hx))
      · intro i qi hgi hei
        rw [hstep]
        cases i with
        | zero =>
          have hqi : qi = q := by
            simp [List.getElem?_cons_zero] at hgi
            exact hgi.symm
          subst hqi
          exact absurd hei (by simp [he])
        | succ i =>
          have hgi' : qs'[i]? = some qi := by
            simpa [List.getElem?_cons_succ] using hgi
          have hx := ihs i qi hgi' hei
          rw [hx]
          have harith : level + 1 + i = level + (i + 1) := by omega
          rw [harith]

/-- C4 amended: an enqueued element with at least 25 code points of
normalised inner text contributes `1 + commas + min 3 (floor (chars/100))`;
each of its ancestors up to depth 5 THAT IS AN ELEMENT WITH AN ELEMENT
PARENT (this excludes `<html>`, whose parent is the document node, and the
document itself) is on first sight initialised with the tag base score plus
class weight and appended to the candidate set, and then receives the
contribution divided by 1 for the parent, 2 for the grandparent and
`level * 3` beyond; elements with fewer than 25 code points contribute
nothing. -/
theorem c4_paragraph_scoring (doc : HNode) (uwc : Bool) (p : List Nat)
    (tbl : ScoreTable) (cands : List (List Nat)) (elt : HNode)
    (helt : nodeAt doc p = some elt) :
    (charCountGo (innerTextGo elt) < 25 →
      scoreElementGo doc uwc p (tbl, cands) = (tbl, cands)) ∧
    (elementScoreGuard doc p = true → 25 ≤ charCountGo (innerTextGo elt) →
      ((scoreElementGo doc uwc p (tbl, cands)).2 =
        cands ++ (getNodeAncestorsP p 5).filter
          (fun q => ancEligible doc q ∧ ¬ hasScoreP tbl q)) ∧
      (∀ (i : Nat) (qi : List Nat), (getNodeAncestorsP p 5)[i]? = some qi →
        ancEligible doc qi = true →
        getScoreP (scoreElementGo doc uwc p (tbl, cands)).1 qi =
          (if hasScoreP tbl qi then getScoreP tbl qi else initAt doc uwc qi) +
          ((1 + countCommas (innerTextGo elt) +
            min ((charCountGo (innerTextGo elt)) / 100) 3 : Nat) : ℚ) /
            (levelDivider i : ℚ))) := by
  constructor
  · intro hlt
    simp only [scoreElementGo, helt]
    by_cases hg : elementScoreGuard doc p
    · simp [hg, if_pos hlt]
    · simp [hg]
  · intro hg hge
    have hnlt : ¬ charCountGo (innerTextGo elt) < 25 := by omega
    by_cases hemp : (getNodeAncestorsP p 5).isEmpty
    · have hnil : getNodeAncestorsP p 5 = [] := by
        cases hx : getNodeAncestorsP p 5 with
        | nil => rfl
        | cons a t => rw [hx] at hemp; simp [List.isEmpty] at hemp
      have hid : scoreElementGo doc uwc p (tbl, cands) = (tbl, cands) := by
        simp [scoreElementGo, helt, hg, hnlt, hemp]
      refine ⟨?_, ?_⟩
      · rw [hid, hnil]
        simp
      · intro i qi hqi
        rw [hnil] at hqi
        simp at hqi
    · have hrun : scoreElementGo doc uwc p (tbl, cands) =
          scoreAncestors doc uwc
            (1 + countCommas (innerTextGo elt) +
              min ((charCountGo (innerTextGo elt)) / 100) 3)
            (getNodeAncestorsP p 5) 0 (tbl, cands) := by
        simp [scoreElementGo, helt, hg, hnlt, hemp]
      obtain ⟨hc, -, hs⟩ := scoreAncestors_spec doc uwc
        (1 + countCommas (innerTextGo elt) + min ((charCountGo (innerTextGo elt)) / 100) 3)
        (getNodeAncestorsP p 5) 0 tbl cands (getNodeAncestorsP_pairwise p 5)
      refine ⟨by rw [hrun, hc], ?_⟩
      intro i qi hqi hei
      have := hs i qi hqi hei
      rw [hrun, this]
      have h0 : 0 + i = i := by omega
      rw [h0]

/-- Witness for C4's amended theorem, at the counterexample document: the
`<p>`'s 26-character text contributes `1`, `<body>` (the parent, an element
with element parent `<html>`) is initialised and becomes the sole
candidate. -/
theorem c4_paragraph_scoring_witness :
    ((scoreElementGo c4Doc true [0, 0, 0] ([], [])).2 =
      [] ++ (getNodeAncestorsP [0, 0, 0] 5).filter
        (fun q => ancEligible c4Doc q ∧ ¬ hasScoreP [] q)) :=
  ((c4_paragraph_scoring c4Doc true [0, 0, 0] [] []
      (.elem "p" [] [.txt "abcdefghijklmnopqrstuvwxyz"]) rfl).2
    (by decide) (by decide)).1

/-! ## C5: the conditional cleaner (`parser.go` lines 1996-2105). -/

/-- Model of `isReadabilityDataTable` from `parser.go` line 2258: the mark is
the presence of the `data-readability-table` attribute. -/
def isReadabilityDataTable (n : HNode) : Bool := hasAttr "data-readability-table" n

/-- The values of an element's attributes, in order. -/
def attrValues : HNode → List String
  | .elem _ a _ => a.map Prod.snd
  | _ => []

/-- The `isList` computation of `cleanConditionally` (`parser.go` lines
2017-2027): true for the `ul`/`ol` sweeps, and also when the total inner-text
length of `ul`/`ol` descendants exceeds 0.9 of the node's inner-text length. -/
def isListGo (tag : String) (node : HNode) : Bool :=
  if tag = "ul" ∨ tag = "ol" then true
  else
    decide ((9 : ℚ) / 10 <
      (((getAllNodesWithTag node ["ul", "ol"]).foldl
        (fun acc l => acc + charCountGo (innerTextGo l)) 0 : ℚ)) /
      (charCountGo (innerTextGo node) : ℚ))

/-- The early-keep of `cleanConditionally`'s embed loop (`parser.go` lines
2055-2069), with the default `rxVideos` filter: some `object`/`embed`/`iframe`
descendant has an attribute value matching the video filter, or is an
`object` whose inner HTML matches it. -/
def videoEmbedKeep (node : HNode) : Bool :=
  (getAllNodesWithTag node ["object", "embed", "iframe"]).any fun embed =>
    (attrValues embed).any matchesVideos ∨
    (tagName embed = "object" ∧ matchesVideos (innerHTML embed))

/-- The `haveToRemove` disjunction of `cleanConditionally` (`parser.go` lines
2076-2082), with the node's ancestor chain (nearest first) passed
explicitly.  Go's `li` variable is `float64(count - 100)`, modelled as the
integer count minus 100; `math.Floor(p/3)` is natural division. -/
def haveToRemoveGo (uwc : Bool) (tag : String) (ancs : List HNode) (node : HNode) : Bool :=
  decide (
    (1 < (getElementsByTagName node "img").length ∧
      ((getElementsByTagName node "p").length : ℚ) /
        ((getElementsByTagName node "img").length : ℚ) < 1/2 ∧
      ¬ hasAncestorTagGo "figure" 3 none ancs 0) ∨
    (¬ isListGo tag node ∧
      ((getElementsByTagName node "p").length : Int) <
        ((getElementsByTagName node "li").length : Int) - 100) ∨
    ((getElementsByTagName node "p").length / 3 <
      (getElementsByTagName node "input").length) ∨
    (¬ isListGo tag node ∧
      getTextDensity node ["h1", "h2", "h3", "h4", "h5", "h6"] < 9/10 ∧
      charCountGo (innerTextGo node) < 25 ∧
      ((getElementsByTagName node "img").length = 0 ∨
        2 < (getElementsByTagName node "img").length) ∧
      ¬ hasAncestorTagGo "figure" 3 none ancs 0) ∨
    (¬ isListGo tag node ∧ getClassWeight uwc node < 25 ∧
      1/5 < getLinkDensity node) ∨
    (25 ≤ getClassWeight uwc node ∧ 1/2 < getLinkDensity node) ∨
    ((getAllNodesWithTag node ["object", "embed", "iframe"]).length = 1 ∧
      charCountGo (innerTextGo node) < 75) ∨
    1 < (getAllNodesWithTag node ["object", "embed", "iframe"]).length)

/-- The per-node removal decision of `cleanConditionally` with the flag on
(`parser.go` lines 2011-2103), translated branch by branch: data-table and
ancestor early keeps, negative class weight removal, the ten-comma guard,
the video-embed early keep, `haveToRemove`, and the list-of-images
exception. -/
def cleanCondRemoveOn (uwc : Bool) (tag : String) (ancs : List HNode) (node : HNode) : Bool :=
  if tag = "table" ∧ isReadabilityDataTable node = true then false
  else if hasAncestorTagGo "table" (-1) (some isReadabilityDataTable) ancs 0 = true then false
  else if hasAncestorTagGo "code" 3 none ancs 0 = true then false
  else if getClassWeight uwc node < 0 then true
  else if countChar ',' (innerTextGo node) < 10 then
    if videoEmbedKeep node = true then false
    else if isListGo tag node = true ∧ haveToRemoveGo uwc tag ancs node = true then
      if ((children node).any fun c => 1 < (children c).length) = true then
        haveToRemoveGo uwc tag ancs node
      else if (getElementsByTagName node "img").length =
          (getElementsByTagName node "li").length then false
      else haveToRemoveGo uwc tag ancs node
    else haveToRemoveGo uwc tag ancs node
  else false

/-- The removal decision including the `cleanConditionally` flag guard
(`parser.go` lines 1997-1999): with the flag off nothing is removed. -/
def cleanCondRemove (flagCC uwc : Bool) (tag : String) (ancs : List HNode)
    (node : HNode) : Bool :=
  if flagCC then cleanCondRemoveOn uwc tag ancs node else false

/-- The removal predicate as the claim states it: no comma guard, no
video-embed early keep, `isList` from the tag only, embeds counted after
discarding video-matching ones, and the list exception for lists whose
every `li` has a single image child. -/
def c5ClaimedRemove (uwc : Bool) (tag : String) (ancs : List HNode) (node : HNode) : Bool :=
  decide (
    ((1 < (getElementsByTagName node "img").length ∧
        ((getElementsByTagName node "p").length : ℚ) /
          ((getElementsByTagName node "img").length : ℚ) < 1/2 ∧
        ¬ hasAncestorTagGo "figure" 3 none ancs 0) ∨
      (¬ (tag = "ul" ∨ tag = "ol") ∧
        ((getElementsByTagName node "p").length : Int) <
          ((getElementsByTagName node "li").length : Int) - 100) ∨
      ((getElementsByTagName node "p").length / 3 <
        (getElementsByTagName node "input").length) ∨
      (¬ (tag = "ul" ∨ tag = "ol") ∧
        getTextDensity node ["h1", "h2", "h3", "h4", "h5", "h6"] < 9/10 ∧
        charCountGo (innerTextGo node) < 25 ∧
        ((getElementsByTagName node "img").length = 0 ∨
          2 < (getElementsByTagName node "img").length) ∧
        ¬ hasAncestorTagGo "figure" 3 none ancs 0) ∨
      (¬ (tag = "ul" ∨ tag = "ol") ∧ getClassWeight uwc node < 25 ∧
        1/5 < getLinkDensity node) ∨
      (25 ≤ getClassWeight uwc node ∧ 1/2 < getLinkDensity node) ∨
      (((getAllNodesWithTag node ["object", "embed", "iframe"]).filter
          (fun e => ¬ (attrValues e).any matchesVideos)).length = 1 ∧
        charCountGo (innerTextGo node) < 75) ∨
      1 < ((getAllNodesWithTag node ["object", "embed", "iframe"]).filter
          (fun e => ¬ (attrValues e).any matchesVideos)).length) ∧
    ¬ ((tag = "ul" ∨ tag = "ol") ∧
      (getElementsByTagName node "li").all
        (fun li => match children li with
          | [c] => tagName c = "img"
          | _ => false) = true))

/-- A `<div>` whose inner text holds ten commas and 32 code points, with two
image children and no paragraphs. -/
def c5Node : HNode :=
  .elem "div" []
    [.txt "aa,aa,aa,aa,aa,aa,aa,aa,aa,aa,aa",
     .elem "img" [] [], .elem "img" [] []]

unseal Rat.add Rat.mul Rat.inv Rat.sub in
/-- C5 counterexample: `c5Node` satisfies every precondition of the claim
(not a data table, no ancestors at all, class weight 0) and triggers the
claim's first removal condition (two images, no paragraphs, no figure), so
the claim removes it; but its inner text holds ten commas, so the source's
`getCharCount(node, ",") < 10` guard keeps it. -/
theorem c5_counterexample :
    cleanCondRemove true true "div" [] c5Node = false ∧
    c5ClaimedRemove true "div" [] c5Node = true ∧
    isReadabilityDataTable c5Node = false ∧
    getClassWeight true c5Node = 0 ∧
    countChar ',' (innerTextGo c5Node) = 10 ∧
    25 ≤ charCountGo (innerTextGo c5Node) := by
  decide

/-- The amended removal predicate, stated flatly: fewer than ten commas, no
video-matching embed, the `haveToRemove` disjunction (with the source's
`isList`, which also covers >0.9 list-text ratio, and with all embeds
counted), and not the list exception (a list none of whose element children
has more than one element child, with as many images as `li` elements). -/
def c5AmendedRemove (uwc : Bool) (tag : String) (ancs : List HNode) (node : HNode) : Bool :=
  decide (countChar ',' (innerTextGo node) < 10) &&
  !videoEmbedKeep node &&
  haveToRemoveGo uwc tag ancs node &&
  !(isListGo tag node &&
    !((children node).any fun c => 1 < (children c).length) &&
    decide ((getElementsByTagName node "img").length =
      (getElementsByTagName node "li").length))

/-- C5 amended: with the `cleanConditionally` flag off nothing is removed;
with it on, a node of a handled sweep that is not a marked data table, not
inside a marked data table, not inside `<code>` (within the FOUR nearest
ancestors — `hasAncestorTag` with maxDepth 3 also examines the ancestor at
distance 4), and has class weight ≥ 0, is removed if and only if its inner
text has fewer than ten commas, AND it contains no embed matching the video
filter, AND at least one of the claim's conditions holds (with `isList`
also true when the list-text ratio exceeds 0.9, and with every embed
counted), AND it is not a list kept by the image-list exception. -/
theorem c5_clean_conditionally (uwc : Bool) (tag : String) (ancs : List HNode)
    (node : HNode)
    (hdt : ¬ (tag = "table" ∧ isReadabilityDataTable node = true))
    (hinT : hasAncestorTagGo "table" (-1) (some isReadabilityDataTable) ancs 0 = false)
    (hinC : hasAncestorTagGo "code" 3 none ancs 0 = false)
    (hw : 0 ≤ getClassWeight uwc node) :
    cleanCondRemove false uwc tag ancs node = false ∧
    cleanCondRemove true uwc tag ancs node = c5AmendedRemove uwc tag ancs node := by
  refine ⟨by simp [cleanCondRemove], ?_⟩
  have hflag : cleanCondRemove true uwc tag ancs node =
      cleanCondRemoveOn uwc tag ancs node := by
    simp [cleanCondRemove]
  rw [hflag, cleanCondRemoveOn]
  rw [if_neg hdt, if_neg (by simp [hinT]), if_neg (by simp [hinC]),
    if_neg (by omega)]
  by_cases hcomma : countChar ',' (innerTextGo node) < 10
  · rw [if_pos hcomma]
    by_cases hvid : videoEmbedKeep node = true
    · simp [c5AmendedRemove, hvid]
    · rw [if_neg hvid]
      by_cases hisl : isListGo tag node = true <;>
        by_cases hhtr : haveToRemoveGo uwc tag ancs node = true <;>
        by_cases hany : ((children node).any fun c => 1 < (children c).length) = true <;>
        by_cases him : (getElementsByTagName node "img").length =
          (getElementsByTagName node "li").length <;>
        simp [c5AmendedRemove, hcomma, hvid, hisl, hhtr, hany, him]
  · rw [if_neg hcomma]
    simp [c5AmendedRemove, hcomma]

/-- Witness for C5's amended theorem at `c5Node` (both sides evaluate to
`false`: the comma guard blocks removal). -/
theorem c5_clean_conditionally_witness :
    cleanCondRemove false true "div" [] c5Node = false ∧
    cleanCondRemove true true "div" [] c5Node = c5AmendedRemove true "div" [] c5Node :=
  c5_clean_conditionally true "div" [] c5Node (by decide) (by decide) (by decide)
    (by decide)

/-! ## C7: the quick readability check (`parser-check.go` lines 24-96). -/

mutual

/-- The node collector of `CheckDocument` (`parser-check.go` lines 42-61):
`<p>` and `<pre>` elements are collected by path, and a `<br>` whose parent
is a `<div>` contributes the parent's path; every node's children are
visited in order. -/
def checkCollect : String → List Nat → HNode → List (List Nat)
  | parentTag, p, .elem t _ ks =>
    (if t = "p" ∨ t = "pre" then [p]
     else if t = "br" ∧ parentTag = "div" then [p.dropLast]
     else []) ++ checkCollectKids t p 0 ks
  | _, _, .txt _ => []
  | _, p, .doc ks => checkCollectKids "" p 0 ks

/-- Children traversal for `checkCollect`, tracking child indices. -/
def checkCollectKids (t : String) (p : List Nat) : Nat → List HNode → List (List Nat)
  | _, [] => []
  | i, k :: ks => checkCollect t (p ++ [i]) k ++ checkCollectKids t p (i + 1) ks

end

/-- First-occurrence deduplication, the role of `CheckDocument`'s `nodeDict`
map. -/
def dedupAux : List (List Nat) → List (List Nat) → List (List Nat)
  | _, [] => []
  | seen, p :: ps => if p ∈ seen then dedupAux seen ps else p :: dedupAux (p :: seen) ps

/-- The deduplicated node list of `CheckDocument`. -/
def checkNodeList (doc : HNode) : List (List Nat) := dedupAux [] (checkCollect "" [] doc)

/-- Trimmed text length of the node at a path (`strings.TrimSpace` of the
text content, not normalised, as in `parser-check.go` lines 83-84). -/
def checkTextLen (doc : HNode) (q : List Nat) : Nat :=
  match nodeAt doc q with
  | none => 0
  | some node => charCountGo (trimGo (textContent node))

/-- The skip conditions of `CheckDocument`'s callback (`parser-check.go`
lines 69-87), negated: the node is probably visible, its class+id does not
match `worker.go`'s unlikely-candidates vocabulary without matching its
maybe-candidate vocabulary, it is not a `<p>` with an `<li>` ancestor at any
depth, and its trimmed text has at least 140 code points. -/
def checkEligible (doc : HNode) (q : List Nat) : Bool :=
  match nodeAt doc q with
  | none => false
  | some node =>
    decide (isProbablyVisible node = true ∧
      ¬ (wkUnlikelyCandidates (className node ++ " " ++ idAttr node) = true ∧
         wkOkMaybeItsACandidate (className node ++ " " ++ idAttr node) = false) ∧
      ¬ (tagName node = "p" ∧
         hasAncestorTagGo "li" (-1) none
           ((ancestorChain q).filterMap (nodeAt doc)) 0 = true) ∧
      140 ≤ checkTextLen doc q)

/-- The scanning loop of `CheckDocument` (`parser-check.go` lines 67-95):
eligible nodes add `sqrt(textLen - 140)` to the accumulator and the scan
stops with `true` as soon as the accumulator exceeds 20. -/
def checkLoop (doc : HNode) : List (List Nat) → ℝ → Prop
  | [], _ => False
  | q :: qs, acc =>
    if checkEligible doc q = true then
      (20 < acc + Real.sqrt ((checkTextLen doc q : ℝ) - 140)) ∨
        checkLoop doc qs (acc + Real.sqrt ((checkTextLen doc q : ℝ) - 140))
    else checkLoop doc qs acc

/-- Model of `CheckDocument`. -/
def checkDocumentGo (doc : HNode) : Prop := checkLoop doc (checkNodeList doc) 0

mutual

/-- The collector as the claim states it: `<p>`, `<pre>` AND `<article>`
elements, plus `<div>` parents of `<br>`. -/
def c7Collect : String → List Nat → HNode → List (List Nat)
  | parentTag, p, .elem t _ ks =>
    (if t = "p" ∨ t = "pre" ∨ t = "article" then [p]
     else if t = "br" ∧ parentTag = "div" then [p.dropLast]
     else []) ++ c7CollectKids t p 0 ks
  | _, _, .txt _ => []
  | _, p, .doc ks => c7CollectKids "" p 0 ks

/-- Children traversal for `c7Collect`. -/
def c7CollectKids (t : String) (p : List Nat) : Nat → List HNode → List (List Nat)
  | _, [] => []
  | i, k :: ks => c7Collect t (p ++ [i]) k ++ c7CollectKids t p (i + 1) ks

end

/-- The claim's node list. -/
def c7NodeList (doc : HNode) : List (List Nat) := dedupAux [] (c7Collect "" [] doc)

/-- The claim's eligibility: as `checkEligible` but with the vocabularies of
the spec's section 4.1, whose maybe-candidate list includes `content`. -/
def c7ClaimedEligible (doc : HNode) (q : List Nat) : Bool :=
  match nodeAt doc q with
  | none => false
  | some node =>
    decide (isProbablyVisible node = true ∧
      ¬ (isUnlikelyCandidates (className node ++ " " ++ idAttr node) = true ∧
         maybeItsACandidate (className node ++ " " ++ idAttr node) = false) ∧
      ¬ (tagName node = "p" ∧
         hasAncestorTagGo "li" (-1) none
           ((ancestorChain q).filterMap (nodeAt doc)) 0 = true) ∧
      140 ≤ checkTextLen doc q)

/-- The claim's scanning loop. -/
def c7Loop (doc : HNode) : List (List Nat) → ℝ → Prop
  | [], _ => False
  | q :: qs, acc =>
    if c7ClaimedEligible doc q = true then
      (20 < acc + Real.sqrt ((checkTextLen doc q : ℝ) - 140)) ∨
        c7Loop doc qs (acc + Real.sqrt ((checkTextLen doc q : ℝ) - 140))
    else c7Loop doc qs acc

/-- The check as the claim states it. -/
def c7Claimed (doc : HNode) : Prop := c7Loop doc (c7NodeList doc) 0

/-- A document whose only content is a single `<article>` holding 541
characters. -/
def c7Doc : HNode :=
  .doc [.elem "html" [] [.elem "body" []
    [.elem "article" [] [.txt ⟨List.replicate 541 'a'⟩]]]]

set_option maxRecDepth 20000 in
/-- C7 counterexample: on a document whose sole text container is a single
`<article>` of 541 characters, the claim's check succeeds (the article is
collected and `sqrt(541 - 140) > 20`), but `CheckDocument` collects nothing
— its finder looks only for `p`, `pre` and `div`-parents of `br` — and
returns false. -/
theorem c7_counterexample :
    ¬ checkDocumentGo c7Doc ∧ c7Claimed c7Doc := by
  constructor
  · have h : checkNodeList c7Doc = [] := by decide
    unfold checkDocumentGo
    rw [h]
    simp [checkLoop]
  · have hlist : c7NodeList c7Doc = [[0, 0, 0]] := by decide
    have helig : c7ClaimedEligible c7Doc [0, 0, 0] = true := by decide
    have hlen : checkTextLen c7Doc [0, 0, 0] = 541 := by decide
    unfold c7Claimed
    rw [hlist]
    unfold c7Loop
    rw [if_pos helig]
    left
    rw [hlen]
    have hsq : (20 : ℝ) < Real.sqrt 401 := by
      have h400 : (20 : ℝ) ^ 2 < 401 := by norm_num
      exact (Real.lt_sqrt (by norm_num)).mpr h400
    have : ((541 : Nat) : ℝ) - 140 = 401 := by norm_num
    rw [this]
    linarith

/-- Each step of the scan adds a non-negative square root, so the
accumulator never decreases along the fold. -/
theorem checkFoldLe (doc : HNode) : ∀ (qs : List (List Nat)) (acc : ℝ),
    acc ≤ qs.foldl (fun a q => a + Real.sqrt ((checkTextLen doc q : ℝ) - 140)) acc := by
  intro qs
  induction qs with
  | nil => intro acc; simp
  | cons q t ih =>
    intro acc
    have h1 : acc ≤ acc + Real.sqrt ((checkTextLen doc q : ℝ) - 140) := by
      have := Real.sqrt_nonneg ((checkTextLen doc q : ℝ) - 140)
      linarith
    have h2 := ih (acc + Real.sqrt ((checkTextLen doc q : ℝ) - 140))
    simp only [List.foldl_cons]
    exact le_trans h1 h2

/-- The early-exit scan, started at an accumulator of at most 20, succeeds
exactly when the total over the eligible nodes exceeds 20. -/
theorem checkLoop_iff (doc : HNode) : ∀ (qs : List (List Nat)) (acc : ℝ), acc ≤ 20 →
    (checkLoop doc qs acc ↔
      20 < (qs.filter (checkEligible doc)).foldl
        (fun a q => a + Real.sqrt ((checkTextLen doc q : ℝ) - 140)) acc) := by
  intro qs
  induction qs with
  | nil =>
    intro acc hacc
    simp only [checkLoop, List.filter_nil, List.foldl_nil]
    constructor
    · intro h; exact h.elim
    · intro h; linarith
  | cons q t ih =>
    intro acc hacc
    by_cases he : checkEligible doc q = true
    · simp only [checkLoop, if_pos he, List.filter_cons, he, if_true, List.foldl_cons]
      by_cases hgt : 20 < acc + Real.sqrt ((checkTextLen doc q : ℝ) - 140)
      · constructor
        · intro _
          have := checkFoldLe doc (t.filter (checkEligible doc))
            (acc + Real.sqrt ((checkTextLen doc q : ℝ) - 140))
          linarith
        · intro _
          exact Or.inl hgt
      · have hle : acc + Real.sqrt ((checkTextLen doc q : ℝ) - 140) ≤ 20 := by linarith
        constructor
        · rintro (h | h)
          · exact absurd h hgt
          · exact (ih _ hle).mp h
        · intro h
          exact Or.inr ((ih _ hle).mpr h)
    · have he' : checkEligible doc q = false := by
        cases hx : checkEligible doc q
        · rfl
        · exact absurd hx he
      simp only [checkLoop, if_neg he, List.filter_cons, he', if_false, Bool.false_eq_true]
      exact ih acc hacc

/-- C7 amended: `CheckDocument` collects only `<p>`, `<pre>` and `<div>`
parents of a direct `<br>` child (NOT `<article>`), skips invisible nodes,
nodes whose class+id matches `worker.go`'s unlikely-candidates vocabulary
without matching its maybe-candidate vocabulary (which does NOT include
`content`), `<p>` nodes inside `<li>`, and nodes with fewer than 140 trimmed
code points; it returns true if and only if the sum of
`sqrt(textLen - 140)` over the remaining nodes exceeds 20 — the early exit
of the scan does not change the outcome because every addend is
non-negative. -/
theorem c7_check_document (doc : HNode) :
    checkDocumentGo doc ↔
      20 < ((checkNodeList doc).filter (checkEligible doc)).foldl
        (fun a q => a + Real.sqrt ((checkTextLen doc q : ℝ) - 140)) 0 :=
  checkLoop_iff doc (checkNodeList doc) 0 (by norm_num)

/-! ## C1: `ParseDocument` never mutates the caller's DOM
(`parser-parse.go` lines 27-50).

The DOM heap is modelled as an arena of nodes addressed by index; `dom.Clone
(doc, true)` deep-copies a subtree by appending fresh nodes, and the rest of
the pipeline is an arbitrary program of node mutations.  The caller's tree
is the arena prefix existing before the call. -/

/-- A heap node: tag, attributes, child pointers and text. -/
structure ANode where
  tag : String
  attrs : List (String × String)
  kids : List Nat
  text : String

/-- The node heap. -/
abbrev Arena : Type := List ANode

/-- Clone every node of a pointer list in order, threading the arena. -/
def cloneKidsAux (f : Arena → Nat → Arena × Nat) : Arena → List Nat → Arena × List Nat
  | ar, [] => (ar, [])
  | ar, k :: ks =>
    let r := f ar k
    let rs := cloneKidsAux f r.1 ks
    (rs.1, r.2 :: rs.2)

/-- Model of `dom.Clone(node, deep=true)` (`parser-parse.go` line 29): the
subtree at `i` is copied bottom-up, each copy appended as a fresh node; the
returned pointer is the fresh root.  Dangling pointers and exhausted fuel
yield a fresh empty node, so cloning only ever appends. -/
def cloneAux : Nat → Arena → Nat → Arena × Nat
  | 0, ar, _ => (ar ++ [⟨"", [], [], ""⟩], ar.length)
  | fuel + 1, ar, i =>
    match ar[i]? with
    | none => (ar ++ [⟨"", [], [], ""⟩], ar.length)
    | some a =>
      let r := cloneKidsAux (cloneAux fuel) ar a.kids
      (r.1 ++ [⟨a.tag, a.attrs, r.2, a.text⟩], r.1.length)

/-- In-place update of the node at index `i`. -/
def setNode : Arena → Nat → (ANode → ANode) → Arena
  | [], _, _ => []
  | a :: ar, 0, f => f a :: ar
  | a :: ar, i + 1, f => a :: setNode ar i f

/-- A DOM mutation: attribute write, text write, child-list write, or fresh
allocation. -/
inductive Mut where
  | setAttr (i : Nat) (k v : String)
  | setText (i : Nat) (s : String)
  | setKids (i : Nat) (ks : List Nat)
  | alloc (a : ANode)

/-- A mutation stays inside the region at or above index `n`. -/
def mutOk (n : Nat) : Mut → Prop
  | .setAttr i _ _ => n ≤ i
  | .setText i _ => n ≤ i
  | .setKids i _ => n ≤ i
  | .alloc _ => True

/-- Apply one mutation to the heap. -/
def applyMut (ar : Arena) : Mut → Arena
  | .setAttr i k v => setNode ar i (fun a => { a with attrs := setAttrList k v a.attrs })
  | .setText i s => setNode ar i (fun a => { a with text := s })
  | .setKids i ks => setNode ar i (fun a => { a with kids := ks })
  | .alloc a => ar ++ [a]

/-- Run a mutation program. -/
def runMuts : Arena → List Mut → Arena
  | ar, [] => ar
  | ar, m :: ms => runMuts (applyMut ar m) ms

/-- Model of `ParseDocument`'s heap discipline (`parser-parse.go` lines
27-50): clone the input subtree, then either fail the size gate
(`MaxElemsToParse`) or run the extraction pipeline — an arbitrary mutation
program computed from the cloned root — on the heap.  The returned pair is
the heap after the call and the outcome. -/
def parseDocumentArena (maxElems : Nat) (size : Arena → Nat → Nat)
    (program : Arena → Nat → List Mut) (ar : Arena) (root : Nat) :
    Arena × Except String Nat :=
  if 0 < maxElems ∧
      maxElems < size (cloneAux ar.length ar root).1 (cloneAux ar.length ar root).2 then
    ((cloneAux ar.length ar root).1, .error "documents too large")
  else
    (runMuts (cloneAux ar.length ar root).1
      (program (cloneAux ar.length ar root).1 (cloneAux ar.length ar root).2),
     .ok (cloneAux ar.length ar root).2)

/-- `cloneKidsAux` only appends to the arena whenever its worker does. -/
theorem cloneKidsAux_extends (f : Arena → Nat → Arena × Nat)
    (hf : ∀ (ar : Arena) (k : Nat), ∃ ext, (f ar k).1 = ar ++ ext) :
    ∀ (ks : List Nat) (ar : Arena), ∃ ext, (cloneKidsAux f ar ks).1 = ar ++ ext := by
  intro ks
  induction ks with
  | nil => intro ar; exact ⟨[], by simp [cloneKidsAux]⟩
  | cons k t ih =>
    intro ar
    obtain ⟨e1, he1⟩ := hf ar k
    obtain ⟨e2, he2⟩ := ih (f ar k).1
    refine ⟨e1 ++ e2, ?_⟩
    show (cloneKidsAux f (f ar k).1 t).1 = ar ++ (e1 ++ e2)
    rw [he2, he1, List.append_assoc]

/-- Cloning only appends: the original arena is a prefix of the result. -/
theorem cloneAux_extends : ∀ (fuel : Nat) (ar : Arena) (i : Nat),
    ∃ ext, (cloneAux fuel ar i).1 = ar ++ ext := by
  intro fuel
  induction fuel with
  | zero => intro ar i; exact ⟨[⟨"", [], [], ""⟩], rfl⟩
  | succ n ih =>
    intro ar i
    cases hx : ar[i]? with
    | none => exact ⟨[⟨"", [], [], ""⟩], by simp [cloneAux, hx]⟩
    | some a =>
      obtain ⟨e, he⟩ := cloneKidsAux_extends (cloneAux n) (fun ar k => ih ar k) a.kids ar
      refine ⟨e ++ [⟨a.tag, a.attrs, (cloneKidsAux (cloneAux n) ar a.kids).2, a.text⟩], ?_⟩
      simp [cloneAux, hx, he]

/-- The cloned root is a fresh pointer, at or above the original length. -/
theorem cloneAux_root_ge (fuel : Nat) (ar : Arena) (i : Nat) :
    ar.length ≤ (cloneAux fuel ar i).2 := by
  cases fuel with
  | zero => simp [cloneAux]
  | succ n =>
    cases hx : ar[i]? with
    | none => simp [cloneAux, hx]
    | some a =>
      obtain ⟨e, he⟩ :=
        cloneKidsAux_extends (cloneAux n) (fun ar k => cloneAux_extends n ar k) a.kids ar
      simp [cloneAux, hx, he]

/-- `setNode` leaves the heap length unchanged. -/
theorem setNode_length : ∀ (ar : Arena) (i : Nat) (f : ANode → ANode),
    (setNode ar i f).length = ar.length := by
  intro ar
  induction ar with
  | nil => intro i f; rfl
  | cons a t ih =>
    intro i f
    cases i with
    | zero => rfl
    | succ m => simp [setNode, ih m f]

/-- An update at index `i` leaves every prefix of length at most `i`
unchanged. -/
theorem setNode_take : ∀ (ar : Arena) (i : Nat) (f : ANode → ANode) (n : Nat), n ≤ i →
    (setNode ar i f).take n = ar.take n := by
  intro ar
  induction ar with
  | nil => intro i f n _; simp [setNode]
  | cons a t ih =>
    intro i f n h
    cases i with
    | zero =>
      have : n = 0 := Nat.le_zero.mp h
      simp [this]
    | succ m =>
      cases n with
      | zero => simp
      | succ n' => simp [setNode, ih m f n' (by omega)]

/-- One in-bounds-respecting mutation preserves the protected prefix and
never shrinks the heap below it. -/
theorem applyMut_take (n : Nat) (ar : Arena) (m : Mut) (hok : mutOk n m)
    (hn : n ≤ ar.length) :
    (applyMut ar m).take n = ar.take n ∧ n ≤ (applyMut ar m).length := by
  cases m with
  | setAttr i k v =>
    exact ⟨setNode_take ar i _ n hok, by rw [applyMut, setNode_length]; exact hn⟩
  | setText i s =>
    exact ⟨setNode_take ar i _ n hok, by rw [applyMut, setNode_length]; exact hn⟩
  | setKids i ks =>
    exact ⟨setNode_take ar i _ n hok, by rw [applyMut, setNode_length]; exact hn⟩
  | alloc a =>
    refine ⟨List.take_append_of_le_length hn, ?_⟩
    simp [applyMut]
    omega

/-- A whole mutation program confined to the region above `n` preserves the
prefix below `n`. -/
theorem runMuts_take (n : Nat) : ∀ (ms : List Mut) (ar : Arena), n ≤ ar.length →
    (∀ m ∈ ms, mutOk n m) →
    (runMuts ar ms).take n = ar.take n ∧ n ≤ (runMuts ar ms).length := by
  intro ms
  induction ms with
  | nil => intro ar hn _; exact ⟨rfl, hn⟩
  | cons m t ih =>
    intro ar hn hall
    obtain ⟨h1, h2⟩ := applyMut_take n ar m (hall m (by simp)) hn
    obtain ⟨h3, h4⟩ := ih (applyMut ar m) h2 (fun m' hm' => hall m' (by simp [hm']))
    exact ⟨h3.trans h1, h4⟩

/-- C1: for every pipeline program whose mutations stay inside the cloned
region (every target at or above the caller's heap length — `dom.Clone` only
appends fresh nodes, so everything `ParseDocument` works on lives there),
the caller's tree — the heap prefix existing before the call — is identical
after the call returns, both on the size-gate error path and on success;
moreover the root handed to the pipeline is a fresh node, never one of the
caller's. -/
theorem c1_parse_document_frame (maxElems : Nat) (size : Arena → Nat → Nat)
    (program : Arena → Nat → List Mut) (ar : Arena) (root : Nat)
    (hp : ∀ (a : Arena) (r : Nat), ∀ m ∈ program a r, mutOk ar.length m) :
    (parseDocumentArena maxElems size program ar root).1.take ar.length = ar ∧
    (∀ r, (parseDocumentArena maxElems size program ar root).2 = .ok r →
      ar.length ≤ r) := by
  obtain ⟨ext, hext⟩ := cloneAux_extends ar.length ar root
  have hc1len : ar.length ≤ (cloneAux ar.length ar root).1.length := by
    rw [hext]
    simp
  have htake : (cloneAux ar.length ar root).1.take ar.length = ar := by
    rw [hext, List.take_append_of_le_length (le_refl _), List.take_length]
  unfold parseDocumentArena
  by_cases hg : 0 < maxElems ∧
      maxElems < size (cloneAux ar.length ar root).1 (cloneAux ar.length ar root).2
  · rw [if_pos hg]
    refine ⟨htake, ?_⟩
    intro r hr
    simp at hr
  · rw [if_neg hg]
    refine ⟨?_, ?_⟩
    · have h := runMuts_take ar.length
        (program (cloneAux ar.length ar root).1 (cloneAux ar.length ar root).2)
        (cloneAux ar.length ar root).1 hc1len (hp _ _)
      rw [h.1, htake]
    · intro r hr
      simp only [Except.ok.injEq] at hr
      rw [← hr]
      exact cloneAux_root_ge ar.length ar root

/-- Witness for C1 on a one-node caller heap and the empty pipeline. -/
theorem c1_parse_document_frame_witness :
    (parseDocumentArena 0 (fun _ _ => 0) (fun _ _ => ([] : List Mut))
      [⟨"div", [], [], ""⟩] 0).1.take 1 = [⟨"div", [], [], ""⟩] :=
  (c1_parse_document_frame 0 (fun _ _ => 0) (fun _ _ => []) [⟨"div", [], [], ""⟩] 0
    (fun _ _ m hm => by simp at hm)).1

/-! ## C9: URI resolution and the absolute-URI rewriting pass
(`utils.go` lines 67-97, `parser.go` lines 255-319).

`net/url` is outside this repository, so the URL type and its parse /
serialise / resolve operations are modelled from the spec ("URL resolution
resolves relative URIs against the base, preserving `#fragment` URIs
unchanged and returning `data:` URIs unchanged"): a URL is a scheme, a host
and a tail (path, query and fragment merged), serialised as
`scheme://host` followed by the tail; strings holding a space fail to
parse; resolution keeps a scheme-ful reference, and otherwise inherits the
base's scheme and host, using the reference tail when it is rooted and
merging it onto the base's last directory otherwise (rooting the result, as
`net/url`'s `resolvePath` does). -/

/-- ASCII letters, the scheme alphabet of the model. -/
def isSchemeChar (c : Char) : Bool :=
  ('a' ≤ c ∧ c ≤ 'z') ∨ ('A' ≤ c ∧ c ≤ 'Z')

/-- A character a host may hold. -/
def hostChar (c : Char) : Bool := c ≠ '/' ∧ c ≠ ' '

/-- Not a slash. -/
def notSlash (c : Char) : Bool := c ≠ '/'

/-- Not a space. -/
def notSpace (c : Char) : Bool := c ≠ ' '

/-- Modelled from the spec: a URL record. -/
structure URLm where
  scheme : List Char
  host : List Char
  tail : List Char
deriving DecidableEq

/-- Does the character list start with `/`? -/
def headIsSlash : List Char → Bool
  | [] => false
  | c :: _ => c = '/'

/-- Does the character list start with `://`? -/
def isSchemeSep : List Char → Bool
  | a :: b :: c :: _ => a = ':' ∧ b = '/' ∧ c = '/'
  | _ => false

/-- Does the string start with `#` (`strings.HasPrefix(uri, "#")`)? -/
def isHashPrefix : List Char → Bool
  | [] => false
  | c :: _ => c = '#'

/-- Does the string start with `data:`? -/
def isDataPrefix : List Char → Bool
  | a :: b :: c :: d :: e :: _ => a = 'd' ∧ b = 'a' ∧ c = 't' ∧ d = 'a' ∧ e = ':'
  | _ => false

/-- Modelled from the spec: split a character list into scheme, host and
tail.  A `scheme://` head is recognised when a nonempty run of scheme
letters precedes `://`; everything else is all tail. -/
def parseChars (l : List Char) : URLm :=
  if l.takeWhile isSchemeChar ≠ [] ∧
      isSchemeSep (l.drop (l.takeWhile isSchemeChar).length) then
    { scheme := l.takeWhile isSchemeChar
      host := ((l.drop (l.takeWhile isSchemeChar).length).drop 3).takeWhile notSlash
      tail := ((l.drop (l.takeWhile isSchemeChar).length).drop 3).dropWhile notSlash }
  else { scheme := [], host := [], tail := l }

/-- Modelled from the spec: parse a URL string; strings holding a space
fail to parse. -/
def parseURL (u : String) : Option URLm :=
  if u.data.all notSpace then some (parseChars u.data) else none

/-- Modelled from the spec: serialise a URL; a URL with no scheme renders
as its tail alone. -/
def toStringU (u : URLm) : List Char :=
  (if u.scheme ≠ [] then u.scheme ++ ':' :: '/' :: '/' :: u.host else []) ++ u.tail

/-- The prefix of a path through its last slash (empty when slash-free). -/
def lastSlashPrefix (l : List Char) : List Char :=
  (l.reverse.dropWhile notSlash).reverse

/-- Modelled from the spec: merge a relative tail onto the base tail's
directory, always producing a rooted result as `net/url`'s `resolvePath`
does. -/
def mergeTail (bt t : List Char) : List Char :=
  if headIsSlash (lastSlashPrefix bt ++ t) then lastSlashPrefix bt ++ t
  else '/' :: (lastSlashPrefix bt ++ t)

/-- Modelled from the spec: `base.ResolveReference(ref)` — a scheme-ful
reference is kept; otherwise scheme and host come from the base, and the
tail is the reference's when rooted, else the merge. -/
def resolveRef (b t : URLm) : URLm :=
  if t.scheme ≠ [] then t
  else { scheme := b.scheme, host := b.host,
         tail := if headIsSlash t.tail then t.tail else mergeTail b.tail t.tail }

/-- Model of `toAbsoluteURI` from `utils.go` lines 67-97: empty, `#`- and
`data:`-prefixed strings are returned as they are; a string that parses
with both scheme and host is already absolute and returned as it is; a
string that fails to parse is returned as it is; anything else is resolved
against the base and serialised.  (The Go code tries `ParseRequestURI` for
the absoluteness test and `Parse` for resolution; the model uses its single
parser for both.) -/
def toAbsoluteURI (uri : String) (base : Option URLm) : String :=
  match base with
  | none => uri
  | some b =>
    if uri = "" then uri
    else if isHashPrefix uri.data then uri
    else if isDataPrefix uri.data then uri
    else match parseURL uri with
      | none => uri
      | some t =>
        if t.scheme ≠ [] ∧ t.host ≠ [] then uri
        else ⟨toStringU (resolveRef b t)⟩

/-- A base produced by a URL parse: scheme letters only, a host without
slash or space, a tail without space. -/
def validU (b : URLm) : Bool :=
  b.scheme.all isSchemeChar && b.host.all hostChar && b.tail.all notSpace

/-- `takeWhile` passes over a block that satisfies the predicate. -/
theorem takeWhileApp (p : Char → Bool) : ∀ (xs ys : List Char),
    (∀ c ∈ xs, p c = true) → (xs ++ ys).takeWhile p = xs ++ ys.takeWhile p := by
  intro xs
  induction xs with
  | nil => intro ys _; simp
  | cons c cs ih =>
    intro ys h
    have hc : p c = true := h c (by simp)
    simp only [List.cons_append, List.takeWhile_cons, hc, if_true]
    rw [ih ys (fun d hd => h d (by simp [hd]))]

/-- `dropWhile` passes over a block that satisfies the predicate. -/
theorem dropWhileApp (p : Char → Bool) : ∀ (xs ys : List Char),
    (∀ c ∈ xs, p c = true) → (xs ++ ys).dropWhile p = ys.dropWhile p := by
  intro xs
  induction xs with
  | nil => intro ys _; simp
  | cons c cs ih =>
    intro ys h
    have hc : p c = true := h c (by simp)
    simp only [List.cons_append, List.dropWhile_cons, hc, if_true]
    exact ih ys (fun d hd => h d (by simp [hd]))

/-- Everything `takeWhile` keeps satisfies the predicate. -/
theorem all_takeWhile (p : Char → Bool) : ∀ (l : List Char),
    (l.takeWhile p).all p = true := by
  intro l
  induction l with
  | nil => rfl
  | cons c cs ih =>
    by_cases hc : p c = true
    · simp [List.takeWhile_cons, hc, ih]
    · simp [List.takeWhile_cons, hc]

/-- `dropWhile` yields nothing or a head refuting the predicate. -/
theorem dropWhile_head (p : Char → Bool) : ∀ (l : List Char),
    l.dropWhile p = [] ∨
      ∃ c cs, l.dropWhile p = c :: cs ∧ p c = false := by
  intro l
  induction l with
  | nil => exact Or.inl rfl
  | cons c cs ih =>
    by_cases hc : p c = true
    · simpa [List.dropWhile_cons, hc] using ih
    · exact Or.inr ⟨c, cs, by simp [List.dropWhile_cons, hc], by
        cases hx : p c
        · rfl
        · exact absurd hx hc⟩

/-- Fields of a parsed URL: letter scheme, slash- and space-free host,
space-free tail, and a rooted-or-empty tail whenever a scheme is present. -/
theorem parseURL_inv (u : String) (t : URLm) (h : parseURL u = some t) :
    t.scheme.all isSchemeChar = true ∧ t.host.all hostChar = true ∧
    t.tail.all notSpace = true ∧
    (t.scheme ≠ [] → (headIsSlash t.tail = true ∨ t.tail = [])) := by
  unfold parseURL at h
  by_cases hs : u.data.all notSpace = true
  · rw [if_pos hs] at h
    have ht : t = parseChars u.data := by
      injection h with h'
      exact h'.symm
    have hmem : ∀ c ∈ u.data, notSpace c = true := by
      intro c hc
      exact (List.all_eq_true.mp hs) c hc
    rw [ht]
    unfold parseChars
    by_cases hcond : u.data.takeWhile isSchemeChar ≠ [] ∧
        isSchemeSep (u.data.drop (u.data.takeWhile isSchemeChar).length) = true
    · rw [if_pos hcond]
      refine ⟨all_takeWhile _ _, ?_, ?_, ?_⟩
      · rw [List.all_eq_true]
        intro c hc
        have hc1 : notSlash c = true := by
          have := (List.all_eq_true.mp (all_takeWhile notSlash
            ((u.data.drop (u.data.takeWhile isSchemeChar).length).drop 3))) c hc
          exact this
        have hc2 : c ∈ u.data := by
          have s1 : ((u.data.drop (u.data.takeWhile isSchemeChar).length).drop 3).takeWhile
              notSlash ⊆ (u.data.drop (u.data.takeWhile isSchemeChar).length).drop 3 :=
            (List.takeWhile_sublist _).subset
          have s2 : (u.data.drop (u.data.takeWhile isSchemeChar).length).drop 3 ⊆
              u.data.drop (u.data.takeWhile isSchemeChar).length :=
            (List.drop_sublist _ _).subset
          have s3 : u.data.drop (u.data.takeWhile isSchemeChar).length ⊆ u.data :=
            (List.drop_sublist _ _).subset
          exact s3 (s2 (s1 hc))
        have hc3 : notSpace c = true := hmem c hc2
        simp [hostChar]
        simp [notSlash] at hc1
        simp [notSpace] at hc3
        exact ⟨hc1, hc3⟩
      · rw [List.all_eq_true]
        intro c hc
        have hc2 : c ∈ u.data := by
          have s1 : ((u.data.drop (u.data.takeWhile isSchemeChar).length).drop 3).dropWhile
              notSlash ⊆ (u.data.drop (u.data.takeWhile isSchemeChar).length).drop 3 :=
            (List.dropWhile_sublist _).subset
          have s2 : (u.data.drop (u.data.takeWhile isSchemeChar).length).drop 3 ⊆
              u.data.drop (u.data.takeWhile isSchemeChar).length :=
            (List.drop_sublist _ _).subset
          have s3 : u.data.drop (u.data.takeWhile isSchemeChar).length ⊆ u.data :=
            (List.drop_sublist _ _).subset
          exact s3 (s2 (s1 hc))
        exact hmem c hc2
      · intro _
        rcases dropWhile_head notSlash
            ((u.data.drop (u.data.takeWhile isSchemeChar).length).drop 3) with hnil | ⟨c, cs, hcc, hpc⟩
        · exact Or.inr hnil
        · left
          rw [hcc]
          have : c = '/' := by
            simp [notSlash] at hpc
            exact hpc
          rw [this]
          rfl
    · rw [if_neg hcond]
      refine ⟨rfl, rfl, hs, ?_⟩
      intro hne
      exact absurd rfl hne
  · rw [if_neg hs] at h
    exact absurd h (by simp)

/-- Parsing the canonical serialisation `s://h ++ T` of a scheme-ful URL
recovers its fields. -/
theorem parseChars_canonical (s h T : List Char) (hs0 : s ≠ [])
    (hs : s.all isSchemeChar = true) (hh : h.all hostChar = true)
    (hT : headIsSlash T = true ∨ T = []) :
    parseChars (s ++ ':' :: '/' :: '/' :: (h ++ T)) = ⟨s, h, T⟩ := by
  have hsmem : ∀ c ∈ s, isSchemeChar c = true := List.all_eq_true.mp hs
  have hhmem : ∀ c ∈ h, notSlash c = true := by
    intro c hc
    have := (List.all_eq_true.mp hh) c hc
    simp [hostChar] at this
    simp [notSlash]
    exact this.1
  have htw : (s ++ ':' :: '/' :: '/' :: (h ++ T)).takeWhile isSchemeChar = s := by
    rw [takeWhileApp isSchemeChar s _ hsmem]
    simp [List.takeWhile_cons, isSchemeChar]
  have hdr : (s ++ ':' :: '/' :: '/' :: (h ++ T)).drop s.length =
      ':' :: '/' :: '/' :: (h ++ T) := List.drop_left s _
  have hTtw : T.takeWhile notSlash = [] := by
    rcases hT with h1 | h1
    · cases T with
      | nil => rfl
      | cons c cs =>
        simp [headIsSlash] at h1
        simp [List.takeWhile_cons, notSlash, h1]
    · rw [h1]
      rfl
  have hTdw : T.dropWhile notSlash = T := by
    rcases hT with h1 | h1
    · cases T with
      | nil => rfl
      | cons c cs =>
        simp [headIsSlash] at h1
        simp [List.dropWhile_cons, notSlash, h1]
    · rw [h1]
      rfl
  unfold parseChars
  rw [htw, hdr]
  rw [if_pos ⟨hs0, by simp [isSchemeSep]⟩]
  have hhost : ((':' :: '/' :: '/' :: (h ++ T)).drop 3).takeWhile notSlash = h := by
    show (h ++ T).takeWhile notSlash = h
    rw [takeWhileApp notSlash h T hhmem, hTtw, List.append_nil]
  have htail : ((':' :: '/' :: '/' :: (h ++ T)).drop 3).dropWhile notSlash = T := by
    show (h ++ T).dropWhile notSlash = T
    rw [dropWhileApp notSlash h T hhmem, hTdw]
  rw [hhost, htail]

/-- Parsing a rooted tail yields a scheme-less URL with that tail. -/
theorem parseChars_rooted (T : List Char) (hT : headIsSlash T = true) :
    parseChars T = ⟨[], [], T⟩ := by
  cases T with
  | nil => simp [headIsSlash] at hT
  | cons c cs =>
    simp [headIsSlash] at hT
    have : isSchemeChar c = false := by
      rw [hT]
      decide
    unfold parseChars
    rw [List.takeWhile_cons, if_neg (by simp [this])]

/-- A merged tail is always rooted. -/
theorem mergeTail_rooted (bt t : List Char) : headIsSlash (mergeTail bt t) = true := by
  unfold mergeTail
  by_cases h : headIsSlash (lastSlashPrefix bt ++ t) = true
  · rw [if_pos h]
    exact h
  · rw [if_neg h]
    simp [headIsSlash]

/-- The last-slash prefix keeps any character-wise property. -/
theorem all_lastSlashPrefix (p : Char → Bool) (l : List Char) (h : l.all p = true) :
    (lastSlashPrefix l).all p = true := by
  rw [List.all_eq_true] at h ⊢
  intro c hc
  apply h
  unfold lastSlashPrefix at hc
  have h1 : c ∈ l.reverse.dropWhile notSlash := List.mem_reverse.mp hc
  have h2 : c ∈ l.reverse := (List.dropWhile_sublist _).subset h1
  exact List.mem_reverse.mp h2

/-- Merging preserves a character-wise property that holds of `/`. -/
theorem all_mergeTail (p : Char → Bool) (hp : p '/' = true) (bt t : List Char)
    (hbt : bt.all p = true) (ht : t.all p = true) :
    (mergeTail bt t).all p = true := by
  have hpre : (lastSlashPrefix bt ++ t).all p = true := by
    simp [List.all_append, all_lastSlashPrefix p bt hbt, ht]
  unfold mergeTail
  by_cases h : headIsSlash (lastSlashPrefix bt ++ t) = true
  · rw [if_pos h]
    exact hpre
  · rw [if_neg h]
    simp [List.all_cons, hp, hpre]

/-- Scheme letters are not spaces. -/
theorem notSpace_of_scheme (s : List Char) (h : s.all isSchemeChar = true) :
    s.all notSpace = true := by
  rw [List.all_eq_true] at h ⊢
  intro c hc
  have hcs := h c hc
  simp [notSpace]
  intro he
  rw [he] at hcs
  exact absurd hcs (by decide)

/-- Host characters are not spaces. -/
theorem notSpace_of_host (hl : List Char) (hh : hl.all hostChar = true) :
    hl.all notSpace = true := by
  rw [List.all_eq_true] at hh ⊢
  intro c hc
  have hcs := hh c hc
  simp [hostChar] at hcs
  simp [notSpace]
  exact hcs.2

/-- `toAbsoluteURI` either returns its input, or resolves a parsed
non-absolute URL against the base. -/
theorem toAbs_cases (u : String) (b : URLm) :
    toAbsoluteURI u (some b) = u ∨
    ∃ t, parseURL u = some t ∧ ¬ (t.scheme ≠ [] ∧ t.host ≠ []) ∧
      toAbsoluteURI u (some b) = ⟨toStringU (resolveRef b t)⟩ := by
  simp only [toAbsoluteURI]
  by_cases h1 : u = ""
  · rw [if_pos h1]
    exact Or.inl rfl
  · rw [if_neg h1]
    by_cases h2 : isHashPrefix u.data = true
    · rw [if_pos h2]
      exact Or.inl rfl
    · rw [if_neg h2]
      by_cases h3 : isDataPrefix u.data = true
      · rw [if_pos h3]
        exact Or.inl rfl
      · rw [if_neg h3]
        cases hp : parseURL u with
        | none => exact Or.inl rfl
        | some t =>
          show (if t.scheme ≠ [] ∧ t.host ≠ [] then u
              else (⟨toStringU (resolveRef b t)⟩ : String)) = u ∨
            ∃ t', some t = some t' ∧ ¬ (t'.scheme ≠ [] ∧ t'.host ≠ []) ∧
              (if t.scheme ≠ [] ∧ t.host ≠ [] then u
                else (⟨toStringU (resolveRef b t)⟩ : String)) =
                ⟨toStringU (resolveRef b t')⟩
          by_cases habs : t.scheme ≠ [] ∧ t.host ≠ []
          · rw [if_pos habs]
            exact Or.inl rfl
          · rw [if_neg habs]
            exact Or.inr ⟨t, rfl, habs, rfl⟩

/-- A resolved-and-serialised URL is a fixed point of `toAbsoluteURI`. -/
theorem toAbs_fixed (b t : URLm) (hb : validU b = true)
    (ts : t.scheme.all isSchemeChar = true) (th : t.host.all hostChar = true)
    (tt : t.tail.all notSpace = true)
    (trt : t.scheme ≠ [] → (headIsSlash t.tail = true ∨ t.tail = []))
    (hna : ¬ (t.scheme ≠ [] ∧ t.host ≠ [])) :
    toAbsoluteURI ⟨toStringU (resolveRef b t)⟩ (some b) =
      ⟨toStringU (resolveRef b t)⟩ := by
  simp only [validU, Bool.and_eq_true] at hb
  obtain ⟨⟨hbs, hbh⟩, hbt⟩ := hb
  by_cases hts : t.scheme = []
  · obtain ⟨T, hRdef, hTr, hTsp⟩ :
        ∃ T, resolveRef b t = ⟨b.scheme, b.host, T⟩ ∧ headIsSlash T = true ∧
          T.all notSpace = true := by
      refine ⟨if headIsSlash t.tail = true then t.tail else mergeTail b.tail t.tail,
        ?_, ?_, ?_⟩
      · unfold resolveRef
        rw [if_neg (fun h => h hts)]
      · by_cases hh : headIsSlash t.tail = true
        · rw [if_pos hh]
          exact hh
        · rw [if_neg hh]
          exact mergeTail_rooted _ _
      · by_cases hh : headIsSlash t.tail = true
        · rw [if_pos hh]
          exact tt
        · rw [if_neg hh]
          exact all_mergeTail notSpace (by decide) _ _ hbt tt
    by_cases hbsch : b.scheme = []
    · have hl : toStringU (resolveRef b t) = T := by
        rw [hRdef]
        unfold toStringU
        rw [if_neg (fun h => h hbsch)]
        simp
      rw [hl]
      rcases toAbs_cases ⟨T⟩ b with he | ⟨t', hp', hna', he⟩
      · exact he
      · have hpc : parseURL ⟨T⟩ = some (parseChars T) := by
          unfold parseURL
          rw [if_pos hTsp]
        rw [hpc, parseChars_rooted T hTr] at hp'
        have ht' : t' = ⟨[], [], T⟩ := by
          injection hp' with h'
          exact h'.symm
        rw [he, ht']
        have hres : resolveRef b ⟨[], [], T⟩ = ⟨b.scheme, b.host, T⟩ := by
          unfold resolveRef
          rw [if_neg (by simp)]
          rw [if_pos hTr]
        rw [hres]
        unfold toStringU
        rw [if_neg (fun h => h hbsch)]
        simp
    · have hl : toStringU (resolveRef b t) =
          b.scheme ++ ':' :: '/' :: '/' :: (b.host ++ T) := by
        rw [hRdef]
        unfold toStringU
        rw [if_pos hbsch]
        simp
      rw [hl]
      rcases toAbs_cases ⟨b.scheme ++ ':' :: '/' :: '/' :: (b.host ++ T)⟩ b with
        he | ⟨t', hp', hna', he⟩
      · exact he
      · have hsp : (b.scheme ++ ':' :: '/' :: '/' :: (b.host ++ T)).all notSpace = true := by
          simp [List.all_append, List.all_cons, notSpace_of_scheme _ hbs,
            notSpace_of_host _ hbh, hTsp]
          decide
        have hpc : parseURL ⟨b.scheme ++ ':' :: '/' :: '/' :: (b.host ++ T)⟩ =
            some (parseChars (b.scheme ++ ':' :: '/' :: '/' :: (b.host ++ T))) := by
          unfold parseURL
          rw [if_pos hsp]
        rw [hpc, parseChars_canonical b.scheme b.host T hbsch hbs hbh (Or.inl hTr)] at hp'
        have ht' : t' = ⟨b.scheme, b.host, T⟩ := by
          injection hp' with h'
          exact h'.symm
        rw [he, ht']
        have hres : resolveRef b ⟨b.scheme, b.host, T⟩ = ⟨b.scheme, b.host, T⟩ := by
          unfold resolveRef
          rw [if_pos hbsch]
        rw [hres]
        unfold toStringU
        rw [if_pos hbsch]
        simp
  · have hth0 : t.host = [] := by
      by_contra hc
      exact hna ⟨hts, hc⟩
    have hR : resolveRef b t = t := by
      unfold resolveRef
      rw [if_pos hts]
    rw [hR]
    have hl : toStringU t = t.scheme ++ ':' :: '/' :: '/' :: (t.host ++ t.tail) := by
      unfold toStringU
      rw [if_pos hts]
      simp
    rw [hl]
    rcases toAbs_cases ⟨t.scheme ++ ':' :: '/' :: '/' :: (t.host ++ t.tail)⟩ b with
      he | ⟨t', hp', hna', he⟩
    · exact he
    · have hsp : (t.scheme ++ ':' :: '/' :: '/' :: (t.host ++ t.tail)).all notSpace = true := by
        simp [List.all_append, List.all_cons, notSpace_of_scheme _ ts,
          notSpace_of_host _ th, tt]
        decide
      have hpc : parseURL ⟨t.scheme ++ ':' :: '/' :: '/' :: (t.host ++ t.tail)⟩ =
          some (parseChars (t.scheme ++ ':' :: '/' :: '/' :: (t.host ++ t.tail))) := by
        unfold parseURL
        rw [if_pos hsp]
      rw [hpc, parseChars_canonical t.scheme t.host t.tail hts ts th (trt hts)] at hp'
      have ht' : t' = ⟨t.scheme, t.host, t.tail⟩ := by
        injection hp' with h'
        exact h'.symm
      rw [he, ht']
      have hres : resolveRef b ⟨t.scheme, t.host, t.tail⟩ = ⟨t.scheme, t.host, t.tail⟩ := by
        unfold resolveRef
        rw [if_pos hts]
      rw [hres]
      unfold toStringU
      rw [if_pos hts]
      simp

/-- `toAbsoluteURI` is idempotent for a parsed base. -/
theorem toAbs_idem (u : String) (b : URLm) (hb : validU b = true) :
    toAbsoluteURI (toAbsoluteURI u (some b)) (some b) = toAbsoluteURI u (some b) := by
  rcases toAbs_cases u b with he | ⟨t, hp, hna, he⟩
  · rw [he]
    exact he
  · rw [he]
    obtain ⟨i1, i2, i3, i4⟩ := parseURL_inv u t hp
    exact toAbs_fixed b t hb i1 i2 i3 i4 hna

/-- Space test used by the srcset tokenizer. -/
def isSp (c : Char) : Bool := c = ' '

/-- Split a string into maximal runs of spaces and non-spaces (the simplified
model of `rxSrcsetURL`'s token structure: a srcset URL is a maximal
non-space run, `parser.go` line 311). -/
def splitRuns : List Char → List (List Char)
  | [] => []
  | c :: cs =>
    match splitRuns cs with
    | (d :: ds) :: rest =>
      if isSp c = isSp d then (c :: d :: ds) :: rest
      else [c] :: (d :: ds) :: rest
    | _ => [[c]]

/-- Concatenate runs back. -/
def joinRuns (rs : List (List Char)) : List Char := rs.foldr (fun r acc => r ++ acc) []

/-- The class of a run: true for a space run. -/
def runClass (r : List Char) : Bool :=
  match r with
  | [] => false
  | c :: _ => isSp c

/-- Well-formed run lists: runs are nonempty, class-uniform, and adjacent
runs alternate. -/
def GoodRuns : List (List Char) → Prop
  | [] => True
  | r :: rest => r ≠ [] ∧ (∀ c ∈ r, isSp c = runClass r) ∧
      (match rest with
       | [] => True
       | r' :: _ => runClass r' ≠ runClass r) ∧ GoodRuns rest

/-- `splitRuns` of a nonempty string is nonempty, with the first character
heading the first run. -/
theorem splitRuns_head (d : Char) (cs : List Char) :
    ∃ ds rest, splitRuns (d :: cs) = (d :: ds) :: rest := by
  cases hx : splitRuns cs with
  | nil => exact ⟨[], [], by simp [splitRuns, hx]⟩
  | cons r rest =>
    cases r with
    | nil => exact ⟨[], [], by simp [splitRuns, hx]⟩
    | cons e es =>
      by_cases hc : isSp d = isSp e
      · exact ⟨e :: es, rest, by simp [splitRuns, hx, hc]⟩
      · exact ⟨[], (e :: es) :: rest, by simp [splitRuns, hx, hc]⟩

/-- Runs produced by `splitRuns` are nonempty. -/
theorem splitRuns_ne_nil (l : List Char) : ∀ r ∈ splitRuns l, r ≠ [] := by
  induction l with
  | nil => intro r hr; simp [splitRuns] at hr
  | cons c cs ih =>
    intro r hr
    revert hr
    cases hx : splitRuns cs with
    | nil =>
      intro hr
      simp [splitRuns, hx] at hr
      rw [hr]
      simp
    | cons r0 rest =>
      cases r0 with
      | nil =>
        intro hr
        simp [splitRuns, hx] at hr
        rw [hr]
        simp
      | cons e es =>
        by_cases hc : isSp c = isSp e
        · intro hr
          simp only [splitRuns, hx, hc, if_true] at hr
          rcases List.mem_cons.mp hr with h | h
          · rw [h]; simp
          · exact ih r (by rw [hx]; exact List.mem_cons_of_mem _ h)
        · intro hr
          simp only [splitRuns, hx, hc, if_false] at hr
          rcases List.mem_cons.mp hr with h | h
          · rw [h]; simp
          · exact ih r (by rw [hx]; exact h)

/-- `splitRuns` splits without losing characters. -/
theorem splitRuns_join (l : List Char) : joinRuns (splitRuns l) = l := by
  induction l with
  | nil => rfl
  | cons c cs ih =>
    cases hx : splitRuns cs with
    | nil =>
      have hcs : cs = [] := by
        cases cs with
        | nil => rfl
        | cons d ds =>
          obtain ⟨es, rest, he⟩ := splitRuns_head d ds
          rw [he] at hx
          exact absurd hx (by simp)
      simp [splitRuns, hx, joinRuns, hcs]
    | cons r0 rest =>
      cases r0 with
      | nil =>
        exact absurd rfl (splitRuns_ne_nil cs [] (by rw [hx]; exact List.mem_cons_self _ _))
      | cons e es =>
        rw [hx] at ih
        by_cases hc : isSp c = isSp e
        · simp only [splitRuns, hx, hc, if_true]
          simp only [joinRuns, List.foldr_cons] at ih ⊢
          rw [← ih]
          simp
        · simp only [splitRuns, hx, hc, if_false]
          simp only [joinRuns, List.foldr_cons] at ih ⊢
          rw [← ih]
          simp

/-- Splitting a class-uniform block followed by an opposite-headed remainder
peels the block off as one run. -/
theorem splitRuns_block : ∀ (r l : List Char), r ≠ [] →
    (∀ c ∈ r, isSp c = runClass r) →
    (l = [] ∨ ∃ d l', l = d :: l' ∧ isSp d ≠ runClass r) →
    splitRuns (r ++ l) = r :: splitRuns l := by
  intro r
  induction r with
  | nil => intro l h; exact absurd rfl h
  | cons c r' ih =>
    intro l _ hclass hl
    have hcc : isSp c = runClass (c :: r') := hclass c (by simp)
    cases r' with
    | nil =>
      rcases hl with h1 | ⟨d, l', hld, hd⟩
      · rw [h1]
        simp [splitRuns]
      · rw [hld]
        obtain ⟨ds, rest, hsp⟩ := splitRuns_head d l'
        have hne : isSp c = isSp d → False := by
          intro he
          apply hd
          rw [← he, hcc]
        have hout : splitRuns ([c] ++ (d :: l')) =
            match splitRuns (d :: l') with
            | (e :: es) :: rest => if isSp c = isSp e then (c :: e :: es) :: rest
                else [c] :: (e :: es) :: rest
            | _ => [[c]] := rfl
        rw [hout, hsp]
        show (if isSp c = isSp d then (c :: d :: ds) :: rest
            else [c] :: (d :: ds) :: rest) = [c] :: (d :: ds) :: rest
        rw [if_neg hne]
    | cons c2 r'' =>
      have hc2 : isSp c2 = runClass (c :: c2 :: r'') := hclass c2 (by simp)
      have hrc : runClass (c2 :: r'') = runClass (c :: c2 :: r'') := by
        simp only [runClass]
        exact hc2
      have ih' := ih l (by simp) (fun d hd => by
          rw [hrc]
          exact hclass d (by simp [hd]))
        (by
          rcases hl with h1 | ⟨d, l', hld, hd⟩
          · exact Or.inl h1
          · exact Or.inr ⟨d, l', hld, by rw [hrc]; exact hd⟩)
      have hstep : (c :: c2 :: r'') ++ l = c :: ((c2 :: r'') ++ l) := by simp
      rw [hstep]
      have hout : splitRuns (c :: ((c2 :: r'') ++ l)) =
          match splitRuns ((c2 :: r'') ++ l) with
          | (e :: es) :: rest => if isSp c = isSp e then (c :: e :: es) :: rest
              else [c] :: (e :: es) :: rest
          | _ => [[c]] := rfl
      rw [hout, ih']
      show (if isSp c = isSp c2 then (c :: c2 :: r'') :: splitRuns l
          else [c] :: (c2 :: r'') :: splitRuns l) = (c :: c2 :: r'') :: splitRuns l
      rw [if_pos (by rw [hcc, hc2])]

/-- Unfolding equation for `splitRuns` on a cons. -/
theorem splitRuns_cons_eq (c : Char) (cs : List Char) :
    splitRuns (c :: cs) =
      match splitRuns cs with
      | (e :: es) :: rest => if isSp c = isSp e then (c :: e :: es) :: rest
          else [c] :: (e :: es) :: rest
      | _ => [[c]] := rfl

/-- `splitRuns` produces well-formed runs. -/
theorem splitRuns_good : ∀ (l : List Char), GoodRuns (splitRuns l) := by
  intro l
  induction l with
  | nil => exact trivial
  | cons c cs ih =>
    cases hx : splitRuns cs with
    | nil =>
      rw [splitRuns_cons_eq, hx]
      refine ⟨by simp, ?_, trivial, trivial⟩
      intro x hx2
      simp at hx2
      rw [hx2]
      rfl
    | cons r0 rest =>
      cases r0 with
      | nil =>
        exact absurd rfl (splitRuns_ne_nil cs [] (by rw [hx]; exact List.mem_cons_self _ _))
      | cons e es =>
        rw [hx] at ih
        obtain ⟨hne, hcl, hadj, hrest⟩ := ih
        by_cases hc : isSp c = isSp e
        · rw [splitRuns_cons_eq, hx]
          show GoodRuns (if isSp c = isSp e then (c :: e :: es) :: rest
            else [c] :: (e :: es) :: rest)
          rw [if_pos hc]
          refine ⟨by simp, ?_, ?_, hrest⟩
          · intro x hx2
            show isSp x = isSp c
            rcases List.mem_cons.mp hx2 with h | h
            · rw [h]
            · have h1 : isSp x = runClass (e :: es) := hcl x h
              have h2 : runClass (e :: es) = isSp e := rfl
              rw [h1, h2, hc]
          · cases rest with
            | nil => trivial
            | cons r2 rest2 =>
              show runClass r2 ≠ isSp c
              have h2 : runClass (e :: es) = isSp e := rfl
              rw [hc]
              rw [h2] at hadj
              exact hadj
        · rw [splitRuns_cons_eq, hx]
          show GoodRuns (if isSp c = isSp e then (c :: e :: es) :: rest
            else [c] :: (e :: es) :: rest)
          rw [if_neg hc]
          refine ⟨by simp, ?_, ?_, hne, hcl, hadj, hrest⟩
          · intro x hx2
            simp at hx2
            rw [hx2]
            rfl
          · show runClass (e :: es) ≠ runClass [c]
            have h2 : runClass (e :: es) = isSp e := rfl
            have h3 : runClass [c] = isSp c := rfl
            rw [h2, h3]
            exact fun h => hc h.symm

/-- Splitting the join of well-formed runs recovers them. -/
theorem splitRuns_alt : ∀ (rs : List (List Char)), GoodRuns rs →
    splitRuns (joinRuns rs) = rs := by
  intro rs
  induction rs with
  | nil => intro _; rfl
  | cons r rest ih =>
    intro hg
    obtain ⟨hne, hclass, hadj, hrest⟩ := hg
    have hj : joinRuns (r :: rest) = r ++ joinRuns rest := by
      simp [joinRuns]
    rw [hj]
    rw [splitRuns_block r (joinRuns rest) hne hclass ?_]
    · rw [ih hrest]
    · cases rest with
      | nil => exact Or.inl rfl
      | cons r2 rest2 =>
        have hg2 : r2 ≠ [] ∧ (∀ c ∈ r2, isSp c = runClass r2) := ⟨hrest.1, hrest.2.1⟩
        cases r2 with
        | nil => exact absurd rfl hg2.1
        | cons d ds =>
          refine Or.inr ⟨d, ds ++ joinRuns rest2, by simp [joinRuns], ?_⟩
          have hd : isSp d = runClass (d :: ds) := hg2.2 d (by simp)
          rw [hd]
          exact hadj

/-- Digit-or-dot, the descriptor body alphabet of `rxSrcsetURL`. -/
def isDigitDot (c : Char) : Bool := ('0' ≤ c ∧ c ≤ '9') ∨ c = '.'

/-- A srcset width/density descriptor (`[\d.]+[xw]`): a nonempty digit-dot
body followed by `x` or `w`. -/
def descriptorShaped (tok : List Char) : Bool :=
  match tok.reverse with
  | [] => false
  | last :: restRev => (last = 'x' ∨ last = 'w') ∧ restRev ≠ [] ∧ restRev.all isDigitDot

/-- Split one trailing comma off a srcset token (the `(\s*(?:,|$))` group of
`rxSrcsetURL`). -/
def stripComma (tok : List Char) : List Char × List Char :=
  match tok.reverse with
  | c :: restRev => if c = ',' then (restRev.reverse, [',']) else (tok, [])
  | [] => (tok, [])

/-- Rewrite one srcset token: descriptors are copied, URL tokens are
resolved (with any single trailing comma preserved). -/
def fixToken (b : URLm) (tok : List Char) : List Char :=
  if descriptorShaped tok = true then tok
  else (toAbsoluteURI ⟨(stripComma tok).1⟩ (some b)).data ++ (stripComma tok).2

/-- Rewrite one run: space runs are copied. -/
def transformRun (b : URLm) (r : List Char) : List Char :=
  if runClass r = true then r else fixToken b r

/-- Simplified model of `parser.go` lines 310-317: rewrite every srcset URL
token against the base, keeping whitespace and descriptors. -/
def srcsetFix (b : URLm) (s : List Char) : List Char :=
  joinRuns ((splitRuns s).map (transformRun b))

/-- The resolved serialisation holds no space and is nonempty. -/
theorem resolved_facts (b t : URLm) (hb : validU b = true)
    (ts : t.scheme.all isSchemeChar = true) (th : t.host.all hostChar = true)
    (tt : t.tail.all notSpace = true) :
    (toStringU (resolveRef b t)).all notSpace = true ∧
    toStringU (resolveRef b t) ≠ [] := by
  simp only [validU, Bool.and_eq_true] at hb
  obtain ⟨⟨hbs, hbh⟩, hbt⟩ := hb
  by_cases hts : t.scheme = []
  · have hR : resolveRef b t = ⟨b.scheme, b.host,
        if headIsSlash t.tail = true then t.tail else mergeTail b.tail t.tail⟩ := by
      unfold resolveRef
      rw [if_neg (fun h => h hts)]
    have hTsp : (if headIsSlash t.tail = true then t.tail
        else mergeTail b.tail t.tail).all notSpace = true := by
      by_cases hh : headIsSlash t.tail = true
      · rw [if_pos hh]
        exact tt
      · rw [if_neg hh]
        exact all_mergeTail notSpace (by decide) _ _ hbt tt
    rw [hR]
    unfold toStringU
    by_cases hbsch : b.scheme = []
    · rw [if_neg (fun h => h hbsch)]
      constructor
      · simpa using hTsp
      · simp only [List.nil_append]
        by_cases hh : headIsSlash t.tail = true
        · rw [if_pos hh]
          intro hnil
          rw [hnil] at hh
          simp [headIsSlash] at hh
        · rw [if_neg hh]
          have := mergeTail_rooted b.tail t.tail
          intro hnil
          rw [hnil] at this
          simp [headIsSlash] at this
    · rw [if_pos hbsch]
      constructor
      · simp [List.all_append, List.all_cons, notSpace_of_scheme _ hbs,
          notSpace_of_host _ hbh, hTsp]
        decide
      · simp [hbsch]
  · have hR : resolveRef b t = t := by
      unfold resolveRef
      rw [if_pos hts]
    rw [hR]
    unfold toStringU
    rw [if_pos hts]
    constructor
    · simp [List.all_append, List.all_cons, notSpace_of_scheme _ ts,
        notSpace_of_host _ th, tt]
      decide
    · simp [hts]

/-- `toAbsoluteURI` keeps strings space-free. -/
theorem toAbs_noSpace (u : String) (b : URLm) (hb : validU b = true)
    (hu : u.data.all notSpace = true) :
    (toAbsoluteURI u (some b)).data.all notSpace = true := by
  rcases toAbs_cases u b with he | ⟨t, hp, hna, he⟩
  · rw [he]
    exact hu
  · rw [he]
    obtain ⟨i1, i2, i3, _⟩ := parseURL_inv u t hp
    exact (resolved_facts b t hb i1 i2 i3).1

/-- `toAbsoluteURI` never empties a nonempty string. -/
theorem toAbs_ne_empty (u : String) (b : URLm) (hb : validU b = true)
    (hu : u ≠ "") : toAbsoluteURI u (some b) ≠ "" := by
  rcases toAbs_cases u b with he | ⟨t, hp, hna, he⟩
  · rw [he]
    exact hu
  · rw [he]
    obtain ⟨i1, i2, i3, _⟩ := parseURL_inv u t hp
    have hne := (resolved_facts b t hb i1 i2 i3).2
    intro hcontra
    exact hne (congrArg String.data hcontra)

/-- A nonempty string has a nonempty character list. -/
theorem ne_empty_data (u : String) (h : u ≠ "") : u.data ≠ [] := by
  intro hd
  apply h
  cases u with
  | mk d =>
    simp at hd
    rw [hd]

/-- The last element of an append with a nonempty right part. -/
theorem getLast?_append_ne (x y : List Char) (hy : y ≠ []) :
    (x ++ y).getLast? = y.getLast? := by
  induction x with
  | nil => rfl
  | cons a x' ih =>
    have hne : x' ++ y ≠ [] := by
      intro hnil
      rcases List.append_eq_nil.mp hnil with ⟨-, h2⟩
      exact hy h2
    cases hx : x' ++ y with
    | nil => exact absurd hx hne
    | cons e l =>
      have : (a :: x') ++ y = a :: e :: l := by
        rw [List.cons_append, hx]
      rw [this, List.getLast?_cons_cons, ← hx, ih]

/-- `dropWhile` keeps the last element when it keeps anything. -/
theorem getLast?_dropWhile (p : Char → Bool) : ∀ (l : List Char),
    l.dropWhile p ≠ [] → (l.dropWhile p).getLast? = l.getLast? := by
  intro l
  induction l with
  | nil => intro h; simp at h
  | cons c cs ih =>
    intro h
    by_cases hc : p c = true
    · rw [List.dropWhile_cons, if_pos hc] at h ⊢
      rw [ih h]
      have hcs : cs ≠ [] := by
        intro hnil
        rw [hnil] at h
        simp at h
      cases cs with
      | nil => exact absurd rfl hcs
      | cons d ds => rw [List.getLast?_cons_cons]
    · rw [List.dropWhile_cons, if_neg hc]

/-- `drop` keeps the last element when it keeps anything. -/
theorem getLast?_drop : ∀ (n : Nat) (l : List Char), l.drop n ≠ [] →
    (l.drop n).getLast? = l.getLast? := by
  intro n
  induction n with
  | zero => intro l _; simp
  | succ m ih =>
    intro l h
    cases l with
    | nil => simp at h
    | cons c cs =>
      rw [List.drop_succ_cons] at h ⊢
      rw [ih cs h]
      have hcs : cs ≠ [] := by
        intro hnil
        rw [hnil] at h
        simp at h
      cases cs with
      | nil => exact absurd rfl hcs
      | cons d ds => rw [List.getLast?_cons_cons]

/-- When `dropWhile` keeps nothing, `takeWhile` keeps everything. -/
theorem takeWhile_of_dropWhile_nil (p : Char → Bool) : ∀ (l : List Char),
    l.dropWhile p = [] → l.takeWhile p = l := by
  intro l
  induction l with
  | nil => intro _; rfl
  | cons c cs ih =>
    intro h
    by_cases hc : p c = true
    · rw [List.dropWhile_cons, if_pos hc] at h
      rw [List.takeWhile_cons, if_pos hc, ih h]
    · rw [List.dropWhile_cons, if_neg hc] at h
      exact absurd h (by simp)

/-- The resolved serialisation of a parsed URL ends with the same character
as the input whenever that position survives (in particular it never ends
with a comma the input did not end with). -/
theorem resolved_last (u : String) (b t : URLm) (hp : parseURL u = some t)
    (hu : u ≠ "") (hlast : u.data.getLast? ≠ some ',') :
    (toStringU (resolveRef b t)).getLast? ≠ some ',' := by
  have hdata : u.data ≠ [] := ne_empty_data u hu
  have hsp' : t = parseChars u.data := by
    unfold parseURL at hp
    by_cases hs : u.data.all notSpace = true
    · rw [if_pos hs] at hp
      injection hp with h'
      exact h'.symm
    · rw [if_neg hs] at hp
      exact absurd hp (by simp)
  by_cases hcond : u.data.takeWhile isSchemeChar ≠ [] ∧
      isSchemeSep (u.data.drop (u.data.takeWhile isSchemeChar).length) = true
  · have ht' : t = ⟨u.data.takeWhile isSchemeChar,
        ((u.data.drop (u.data.takeWhile isSchemeChar).length).drop 3).takeWhile notSlash,
        ((u.data.drop (u.data.takeWhile isSchemeChar).length).drop 3).dropWhile notSlash⟩ := by
      rw [hsp']
      unfold parseChars
      rw [if_pos hcond]
    have hdrpne : u.data.drop (u.data.takeWhile isSchemeChar).length ≠ [] := by
      intro hnil
      rw [hnil] at hcond
      exact absurd hcond.2 (by simp [isSchemeSep])
    have hdroplast : (u.data.drop (u.data.takeWhile isSchemeChar).length).getLast? =
        u.data.getLast? := getLast?_drop _ _ hdrpne
    have hR : resolveRef b t = t := by
      unfold resolveRef
      rw [if_pos (by rw [ht']; exact hcond.1)]
    rw [hR, ht']
    unfold toStringU
    rw [if_pos (by exact hcond.1)]
    by_cases htail : ((u.data.drop (u.data.takeWhile isSchemeChar).length).drop 3).dropWhile
        notSlash = []
    · rw [htail]
      have hhost : ((u.data.drop (u.data.takeWhile isSchemeChar).length).drop 3).takeWhile
          notSlash = (u.data.drop (u.data.takeWhile isSchemeChar).length).drop 3 :=
        takeWhile_of_dropWhile_nil notSlash _ htail
      rw [hhost]
      by_cases hhr : (u.data.drop (u.data.takeWhile isSchemeChar).length).drop 3 = []
      · rw [hhr]
        simp only [List.append_nil]
        have : u.data.takeWhile isSchemeChar ++ ':' :: '/' :: '/' :: ([] : List Char) =
            (u.data.takeWhile isSchemeChar ++ [':', '/']) ++ ['/'] := by simp
        rw [this, List.getLast?_concat]
        simp
      · have h3 : ((u.data.drop (u.data.takeWhile isSchemeChar).length).drop 3).getLast? =
            u.data.getLast? := by
          rw [getLast?_drop _ _ hhr, hdroplast]
        simp only [List.append_nil]
        have hshape : u.data.takeWhile isSchemeChar ++ ':' :: '/' :: '/' ::
            ((u.data.drop (u.data.takeWhile isSchemeChar).length).drop 3) =
            (u.data.takeWhile isSchemeChar ++ [':', '/', '/']) ++
              ((u.data.drop (u.data.takeWhile isSchemeChar).length).drop 3) := by simp
        rw [hshape, getLast?_append_ne _ _ hhr, h3]
        exact hlast
    · have h4 : (((u.data.drop (u.data.takeWhile isSchemeChar).length).drop 3).dropWhile
          notSlash).getLast? = u.data.getLast? := by
        rw [getLast?_dropWhile notSlash _ htail]
        have hhr : (u.data.drop (u.data.takeWhile isSchemeChar).length).drop 3 ≠ [] := by
          intro hnil
          rw [hnil] at htail
          exact htail rfl
        rw [getLast?_drop _ _ hhr, hdroplast]
      rw [getLast?_append_ne _ _ htail, h4]
      exact hlast
  · have ht' : t = ⟨[], [], u.data⟩ := by
      rw [hsp']
      unfold parseChars
      rw [if_neg hcond]
    have hR : resolveRef b t = ⟨b.scheme, b.host,
        if headIsSlash u.data = true then u.data else mergeTail b.tail u.data⟩ := by
      rw [ht']
      unfold resolveRef
      rw [if_neg (by simp)]
    have hT : (if headIsSlash u.data = true then u.data
        else mergeTail b.tail u.data).getLast? = u.data.getLast? ∧
        (if headIsSlash u.data = true then u.data
          else mergeTail b.tail u.data) ≠ [] := by
      by_cases hh : headIsSlash u.data = true
      · rw [if_pos hh]
        exact ⟨rfl, hdata⟩
      · rw [if_neg hh]
        constructor
        · unfold mergeTail
          by_cases hm : headIsSlash (lastSlashPrefix b.tail ++ u.data) = true
          · rw [if_pos hm]
            exact getLast?_append_ne _ _ hdata
          · rw [if_neg hm]
            have : ('/' :: (lastSlashPrefix b.tail ++ u.data)) =
                ['/'] ++ (lastSlashPrefix b.tail ++ u.data) := rfl
            rw [this, getLast?_append_ne _ _ (by simp [hdata]), getLast?_append_ne _ _ hdata]
        · intro hnil
          have := mergeTail_rooted b.tail u.data
          rw [hnil] at this
          simp [headIsSlash] at this
    rw [hR]
    unfold toStringU
    by_cases hbsch : b.scheme = []
    · rw [if_neg (fun h => h hbsch)]
      simp only [List.nil_append]
      rw [hT.1]
      exact hlast
    · rw [if_pos hbsch]
      rw [getLast?_append_ne _ _ hT.2, hT.1]
      exact hlast

/-- `stripComma` either returns the token (which then does not end with a
comma) or splits one trailing comma off. -/
theorem stripComma_cases (tok : List Char) :
    (stripComma tok = (tok, []) ∧ tok.getLast? ≠ some ',') ∨
    (∃ u', tok = u' ++ [','] ∧ stripComma tok = (u', [','])) := by
  cases hrev : tok.reverse with
  | nil =>
    left
    constructor
    · unfold stripComma
      rw [hrev]
    · have htok : tok = [] := by
        have := congrArg List.reverse hrev
        simpa using this
      rw [htok]
      simp
  | cons c rest =>
    have htok : tok = rest.reverse ++ [c] := by
      have := congrArg List.reverse hrev
      simpa using this
    by_cases hc : c = ','
    · right
      refine ⟨rest.reverse, ?_, ?_⟩
      · rw [htok, hc]
      · unfold stripComma
        rw [hrev]
        show (if c = ',' then (rest.reverse, [',']) else (tok, [])) = (rest.reverse, [','])
        rw [if_pos hc]
    · left
      constructor
      · unfold stripComma
        rw [hrev]
        show (if c = ',' then (rest.reverse, [',']) else (tok, [])) = (tok, [])
        rw [if_neg hc]
      · have h1 : tok.getLast? = some c := by
          rw [htok, List.getLast?_concat]
        rw [h1]
        intro hcon
        injection hcon with h2
        exact hc h2

/-- A token that does not end with a comma is not split. -/
theorem stripComma_eq_self (tok : List Char) (h : tok.getLast? ≠ some ',') :
    stripComma tok = (tok, []) := by
  rcases stripComma_cases tok with ⟨h1, _⟩ | ⟨u', hu', h2⟩
  · exact h1
  · exfalso
    apply h
    rw [hu', List.getLast?_concat]

/-- Nothing ending in a comma is descriptor-shaped. -/
theorem descriptorShaped_concat_comma (A : List Char) :
    descriptorShaped (A ++ [',']) = false := by
  unfold descriptorShaped
  rw [List.reverse_append]
  simp

/-- An inner character survives `dropLast`. -/
theorem mem_dropLast_append (x : List Char) (c : Char) (y : List Char) (hy : y ≠ []) :
    c ∈ (x ++ c :: y).dropLast := by
  induction x with
  | nil =>
    cases y with
    | nil => exact absurd rfl hy
    | cons d ys =>
      show c ∈ (c :: d :: ys).dropLast
      show c ∈ c :: (d :: ys).dropLast
      exact List.mem_cons_self _ _
  | cons a x' ih =>
    show c ∈ (a :: (x' ++ c :: y)).dropLast
    have hstep : (a :: (x' ++ c :: y)).dropLast = a :: (x' ++ c :: y).dropLast := by
      cases hx : x' ++ c :: y with
      | nil => exact absurd hx (by simp)
      | cons e l => rfl
    rw [hstep]
    exact List.mem_cons_of_mem a ih

/-- A list whose interior holds a non-digit-dot character is not
descriptor-shaped. -/
theorem descriptorShaped_false_of_mem (A : List Char) (c : Char)
    (hc : isDigitDot c = false) (hmem : c ∈ A.dropLast) :
    descriptorShaped A = false := by
  cases hrev : A.reverse with
  | nil =>
    unfold descriptorShaped
    rw [hrev]
  | cons last restRev =>
    have hA : A = restRev.reverse ++ [last] := by
      have := congrArg List.reverse hrev
      simpa using this
    have hdl : A.dropLast = restRev.reverse := by
      rw [hA, List.dropLast_concat]
    have hmem2 : c ∈ restRev := by
      rw [hdl] at hmem
      exact List.mem_reverse.mp hmem
    have hall : restRev.all isDigitDot = false := by
      cases hx : restRev.all isDigitDot
      · rfl
      · exfalso
        have h2 := (List.all_eq_true.mp hx) c hmem2
        rw [hc] at h2
        exact Bool.noConfusion h2
    unfold descriptorShaped
    rw [hrev]
    simp [hall]

/-- One srcset token rewrite is idempotent. -/
theorem fixToken_idem (b : URLm) (hb : validU b = true) (tok : List Char)
    (htok : tok ≠ []) :
    fixToken b (fixToken b tok) = fixToken b tok := by
  by_cases hd : descriptorShaped tok = true
  · simp [fixToken, hd]
  · rcases stripComma_cases tok with ⟨hsc, hlastne⟩ | ⟨u', hu', hsc⟩
    · have hout : fixToken b tok = (toAbsoluteURI ⟨tok⟩ (some b)).data := by
        simp [fixToken, hd, hsc]
      rw [hout]
      rcases toAbs_cases ⟨tok⟩ b with he | ⟨t, hp, hna, he⟩
      · rw [he]
        show fixToken b tok = tok
        rw [hout, he]
      · obtain ⟨i1, i2, i3, i4⟩ := parseURL_inv ⟨tok⟩ t hp
        have hAlast : (toStringU (resolveRef b t)).getLast? ≠ some ',' :=
          resolved_last ⟨tok⟩ b t hp
            (fun hcon => htok (congrArg String.data hcon)) hlastne
      -- descriptor shape is impossible for a resolved serialisation
        have hdesc : descriptorShaped (toStringU (resolveRef b t)) = false := by
          by_cases hts : t.scheme = []
          · have hR : resolveRef b t = ⟨b.scheme, b.host,
                if headIsSlash t.tail = true then t.tail
                else mergeTail b.tail t.tail⟩ := by
              unfold resolveRef
              rw [if_neg (fun h => h hts)]
            have hTr : headIsSlash (if headIsSlash t.tail = true then t.tail
                else mergeTail b.tail t.tail) = true := by
              by_cases hh : headIsSlash t.tail = true
              · rw [if_pos hh]
                exact hh
              · rw [if_neg hh]
                exact mergeTail_rooted _ _
            by_cases hbsch : b.scheme = []
            · have hA : toStringU (resolveRef b t) =
                  if headIsSlash t.tail = true then t.tail
                  else mergeTail b.tail t.tail := by
                rw [hR]
                unfold toStringU
                rw [if_neg (fun h => h hbsch)]
                simp
              rw [hA]
              cases hT : (if headIsSlash t.tail = true then t.tail
                  else mergeTail b.tail t.tail) with
              | nil => decide
              | cons c0 T' =>
                rw [hT] at hTr
                simp [headIsSlash] at hTr
                cases T' with
                | nil =>
                  rw [hTr]
                  decide
                | cons d ds =>
                  rw [hTr]
                  exact descriptorShaped_false_of_mem _ '/' (by decide)
                    (mem_dropLast_append [] '/' (d :: ds) (by simp))
            · have hA : toStringU (resolveRef b t) =
                  b.scheme ++ ':' :: ('/' :: '/' :: (b.host ++
                    (if headIsSlash t.tail = true then t.tail
                      else mergeTail b.tail t.tail))) := by
                rw [hR]
                unfold toStringU
                rw [if_pos hbsch]
                simp
              rw [hA]
              exact descriptorShaped_false_of_mem _ ':' (by decide)
                (mem_dropLast_append b.scheme ':' _ (by simp))
          · have hR : resolveRef b t = t := by
              unfold resolveRef
              rw [if_pos hts]
            have hA : toStringU (resolveRef b t) =
                t.scheme ++ ':' :: ('/' :: '/' :: (t.host ++ t.tail)) := by
              rw [hR]
              unfold toStringU
              rw [if_pos hts]
              simp
            rw [hA]
            exact descriptorShaped_false_of_mem _ ':' (by decide)
              (mem_dropLast_append t.scheme ':' _ (by simp))
        rw [he]
        show fixToken b (toStringU (resolveRef b t)) = toStringU (resolveRef b t)
        have hstrip := stripComma_eq_self _ hAlast
        have hidem := toAbs_idem ⟨tok⟩ b hb
        rw [he] at hidem
        simp [fixToken, hdesc, hstrip, hidem]
    · have hout : fixToken b tok = (toAbsoluteURI ⟨u'⟩ (some b)).data ++ [','] := by
        simp [fixToken, hd, hsc]
      rw [hout]
      have hdesc := descriptorShaped_concat_comma (toAbsoluteURI ⟨u'⟩ (some b)).data
      have hstrip : stripComma ((toAbsoluteURI ⟨u'⟩ (some b)).data ++ [',']) =
          ((toAbsoluteURI ⟨u'⟩ (some b)).data, [',']) := by
        unfold stripComma
        rw [List.reverse_append]
        simp
      have hidem := toAbs_idem ⟨u'⟩ b hb
      show fixToken b ((toAbsoluteURI ⟨u'⟩ (some b)).data ++ [',']) =
          (toAbsoluteURI ⟨u'⟩ (some b)).data ++ [',']
      simp only [fixToken, hdesc, hstrip]
      rw [if_neg (by simp)]
      show (toAbsoluteURI (toAbsoluteURI ⟨u'⟩ (some b)) (some b)).data ++ [','] =
          (toAbsoluteURI ⟨u'⟩ (some b)).data ++ [',']
      rw [hidem]

/-- A string with an empty character list is `""`. -/
theorem data_nil_eq_empty (s : String) (h : s.data = []) : s = "" := by
  cases s with
  | mk d =>
    simp at h
    rw [h]

/-- Token rewriting keeps tokens space-free. -/
theorem fixToken_noSpace (b : URLm) (hb : validU b = true) (tok : List Char)
    (hsp : tok.all notSpace = true) : (fixToken b tok).all notSpace = true := by
  by_cases hd : descriptorShaped tok = true
  · simp [fixToken, hd, hsp]
  · rcases stripComma_cases tok with ⟨hsc, _⟩ | ⟨u', hu', hsc⟩
    · have h1 := toAbs_noSpace ⟨tok⟩ b hb hsp
      simp [fixToken, hd, hsc, h1]
    · have hu'sp : u'.all notSpace = true := by
        rw [hu'] at hsp
        simp [List.all_append] at hsp
        exact List.all_eq_true.mpr hsp.1
      have h1 := toAbs_noSpace ⟨u'⟩ b hb hu'sp
      simp [fixToken, hd, hsc, List.all_append, h1]
      decide

/-- Token rewriting keeps tokens nonempty. -/
theorem fixToken_ne_nil (b : URLm) (hb : validU b = true) (tok : List Char)
    (htok : tok ≠ []) : fixToken b tok ≠ [] := by
  by_cases hd : descriptorShaped tok = true
  · simpa [fixToken, hd] using htok
  · rcases stripComma_cases tok with ⟨hsc, _⟩ | ⟨u', hu', hsc⟩
    · have hne := toAbs_ne_empty ⟨tok⟩ b hb
        (fun hcon => htok (congrArg String.data hcon))
      simp [fixToken, hd, hsc]
      intro hcon
      exact hne (data_nil_eq_empty _ hcon)
    · simp [fixToken, hd, hsc]

/-- Run rewriting preserves nonemptiness, class and class uniformity. -/
theorem transformRun_facts (b : URLm) (hb : validU b = true) (r : List Char)
    (hr : r ≠ []) (hcl : ∀ c ∈ r, isSp c = runClass r) :
    transformRun b r ≠ [] ∧ runClass (transformRun b r) = runClass r ∧
    (∀ c ∈ transformRun b r, isSp c = runClass r) := by
  by_cases hc : runClass r = true
  · have heq : transformRun b r = r := by simp [transformRun, hc]
    rw [heq]
    exact ⟨hr, rfl, hcl⟩
  · have hcf : runClass r = false := by
      cases hx : runClass r
      · rfl
      · exact absurd hx hc
    have hsp : r.all notSpace = true := by
      rw [List.all_eq_true]
      intro c hcm
      have h1 := hcl c hcm
      rw [hcf] at h1
      simp [isSp] at h1
      simp [notSpace]
      exact h1
    have heq : transformRun b r = fixToken b r := by simp [transformRun, hc]
    rw [heq]
    have hFne := fixToken_ne_nil b hb r hr
    have hFsp := fixToken_noSpace b hb r hsp
    have hmem : ∀ c ∈ fixToken b r, isSp c = runClass r := by
      intro c hcm
      have h2 := (List.all_eq_true.mp hFsp) c hcm
      simp [notSpace] at h2
      rw [hcf]
      simp [isSp]
      exact h2
    refine ⟨hFne, ?_, hmem⟩
    cases hx : fixToken b r with
    | nil => exact absurd hx hFne
    | cons c0 cs =>
      have h3 : isSp c0 = runClass r := hmem c0 (by rw [hx]; simp)
      rw [← h3]
      rfl

/-- Run rewriting preserves well-formedness. -/
theorem goodRuns_map (b : URLm) (hb : validU b = true) :
    ∀ (rs : List (List Char)), GoodRuns rs → GoodRuns (rs.map (transformRun b)) := by
  intro rs
  induction rs with
  | nil => intro _; exact trivial
  | cons r rest ih =>
    intro hg
    obtain ⟨hne, hcl, hadj, hrest⟩ := hg
    obtain ⟨f1, f2, f3⟩ := transformRun_facts b hb r hne hcl
    refine ⟨f1, ?_, ?_, ih hrest⟩
    · intro c hcm
      rw [f2]
      exact f3 c hcm
    · cases rest with
      | nil => exact trivial
      | cons r2 rest2 =>
        obtain ⟨hne2, hcl2, -, -⟩ := hrest
        obtain ⟨-, g2, -⟩ := transformRun_facts b hb r2 hne2 hcl2
        show runClass (transformRun b r2) ≠ runClass (transformRun b r)
        rw [f2, g2]
        exact hadj

/-- Member runs of a well-formed list are nonempty and class-uniform. -/
theorem goodRuns_mem : ∀ (rs : List (List Char)), GoodRuns rs →
    ∀ r ∈ rs, r ≠ [] ∧ ∀ c ∈ r, isSp c = runClass r := by
  intro rs
  induction rs with
  | nil => intro _ r hr; simp at hr
  | cons r0 rest ih =>
    intro hg r hr
    obtain ⟨hne, hcl, -, hrest⟩ := hg
    rcases List.mem_cons.mp hr with h | h
    · rw [h]
      exact ⟨hne, hcl⟩
    · exact ih hrest r h

/-- Run rewriting is idempotent. -/
theorem transformRun_idem (b : URLm) (hb : validU b = true) (r : List Char)
    (hr : r ≠ []) (hcl : ∀ c ∈ r, isSp c = runClass r) :
    transformRun b (transformRun b r) = transformRun b r := by
  by_cases hc : runClass r = true
  · simp [transformRun, hc]
  · have hcf : runClass r = false := by
      cases hx : runClass r
      · rfl
      · exact absurd hx hc
    obtain ⟨f1, f2, f3⟩ := transformRun_facts b hb r hr hcl
    have heq : transformRun b r = fixToken b r := by simp [transformRun, hc]
    rw [heq] at f2 ⊢
    have hstep : transformRun b (fixToken b r) = fixToken b (fixToken b r) := by
      simp [transformRun, f2, hcf]
    rw [hstep, fixToken_idem b hb r hr]

/-- The srcset rewrite is idempotent. -/
theorem srcsetFix_idem (b : URLm) (hb : validU b = true) (s : List Char) :
    srcsetFix b (srcsetFix b s) = srcsetFix b s := by
  unfold srcsetFix
  rw [splitRuns_alt _ (goodRuns_map b hb _ (splitRuns_good s))]
  congr 1
  rw [List.map_map]
  apply List.map_congr_left
  intro r hr
  obtain ⟨hne, hcl⟩ := goodRuns_mem _ (splitRuns_good s) r hr
  exact transformRun_idem b hb r hne hcl

/-- The srcset rewrite keeps nonempty strings nonempty. -/
theorem srcsetFix_ne_nil (b : URLm) (hb : validU b = true) (s : List Char)
    (hs : s ≠ []) : srcsetFix b s ≠ [] := by
  cases s with
  | nil => exact absurd rfl hs
  | cons c cs =>
    obtain ⟨ds, rest, hsp⟩ := splitRuns_head c cs
    have hg := splitRuns_good (c :: cs)
    rw [hsp] at hg
    obtain ⟨hne, hcl, -, -⟩ := hg
    obtain ⟨f1, -, -⟩ := transformRun_facts b hb (c :: ds) hne hcl
    unfold srcsetFix
    rw [hsp]
    intro hnil
    rcases List.append_eq_nil.mp (by simpa [joinRuns] using hnil) with ⟨h1, -⟩
    exact f1 h1

/-- Character-list prefix test. -/
def hasPrefixChars : List Char → List Char → Bool
  | [], _ => true
  | _ :: _, [] => false
  | p :: ps, c :: cs => p = c ∧ hasPrefixChars ps cs

/-- The characters of `javascript`. -/
def jsChars : List Char := ['j', 'a', 'v', 'a', 's', 'c', 'r', 'i', 'p', 't']

/-- `strings.HasPrefix(href, "javascript:")` (`parser.go` line 267). -/
def isJSPrefix (l : List Char) : Bool := hasPrefixChars (jsChars ++ [':']) l

/-- A successful prefix test decomposes the list. -/
theorem hasPrefixChars_eq : ∀ (ps l : List Char), hasPrefixChars ps l = true →
    ∃ l', l = ps ++ l' := by
  intro ps
  induction ps with
  | nil => intro l _; exact ⟨l, rfl⟩
  | cons p ps' ih =>
    intro l h
    cases l with
    | nil => exact absurd h (by simp [hasPrefixChars])
    | cons c cs =>
      have h' : p = c ∧ hasPrefixChars ps' cs = true := by
        simpa [hasPrefixChars] using h
      obtain ⟨l', hl'⟩ := ih cs h'.2
      exact ⟨l', by rw [hl', h'.1]; simp⟩

/-- The prefix test accepts its own decomposition. -/
theorem hasPrefixChars_self : ∀ (x : List Char) (c : Char) (r : List Char),
    hasPrefixChars (x ++ [c]) (x ++ c :: r) = true := by
  intro x
  induction x with
  | nil => intro c r; simp [hasPrefixChars]
  | cons a x' ih => intro c r; simp [hasPrefixChars, ih]

/-- The shape behind a positive `isSchemeSep`. -/
theorem isSchemeSep_shape (l : List Char) (h : isSchemeSep l = true) :
    ∃ w, l = ':' :: '/' :: '/' :: w := by
  cases l with
  | nil => exact absurd h (by simp [isSchemeSep])
  | cons a l1 =>
    cases l1 with
    | nil => exact absurd h (by simp [isSchemeSep])
    | cons b2 l2 =>
      cases l2 with
      | nil => exact absurd h (by simp [isSchemeSep])
      | cons c2 l3 =>
        have h' : a = ':' ∧ b2 = '/' ∧ c2 = '/' := by simpa [isSchemeSep] using h
        exact ⟨l3, by rw [h'.1, h'.2.1, h'.2.2]⟩

/-- Dropping the `takeWhile` prefix is `dropWhile`. -/
theorem drop_takeWhile_length (p : Char → Bool) : ∀ (l : List Char),
    l.drop (l.takeWhile p).length = l.dropWhile p := by
  intro l
  induction l with
  | nil => rfl
  | cons c cs ih =>
    by_cases hc : p c = true
    · rw [List.takeWhile_cons, if_pos hc, List.dropWhile_cons, if_pos hc]
      simpa using ih
    · rw [List.takeWhile_cons, if_neg hc, List.dropWhile_cons, if_neg hc]
      rfl

/-- For a base whose scheme is not `javascript`, resolution never produces a
`javascript:`-prefixed string from one that was not. -/
theorem toAbs_not_js (u : String) (b : URLm) (hb : validU b = true)
    (hbjs : b.scheme ≠ jsChars) (hujs : isJSPrefix u.data = false) :
    isJSPrefix (toAbsoluteURI u (some b)).data = false := by
  simp only [validU, Bool.and_eq_true] at hb
  obtain ⟨⟨hbs, hbh⟩, hbt⟩ := hb
  rcases toAbs_cases u b with he | ⟨t, hp, hna, he⟩
  · rw [he]
    exact hujs
  · rw [he]
    show isJSPrefix (toStringU (resolveRef b t)) = false
    obtain ⟨i1, i2, i3, i4⟩ := parseURL_inv u t hp
    cases hx : isJSPrefix (toStringU (resolveRef b t)) with
    | false => rfl
    | true =>
      exfalso
      obtain ⟨l', hl'⟩ := hasPrefixChars_eq _ _ hx
      have hl'' : toStringU (resolveRef b t) = jsChars ++ ':' :: l' := by
        rw [hl']
        simp
      have hsp' : t = parseChars u.data := by
        unfold parseURL at hp
        by_cases hs : u.data.all notSpace = true
        · rw [if_pos hs] at hp
          injection hp with h'
          exact h'.symm
        · rw [if_neg hs] at hp
          exact absurd hp (by simp)
      by_cases hts : t.scheme = []
      · have hR : resolveRef b t = ⟨b.scheme, b.host,
            if headIsSlash t.tail = true then t.tail
            else mergeTail b.tail t.tail⟩ := by
          unfold resolveRef
          rw [if_neg (fun h => h hts)]
        have hTr : headIsSlash (if headIsSlash t.tail = true then t.tail
            else mergeTail b.tail t.tail) = true := by
          by_cases hh : headIsSlash t.tail = true
          · rw [if_pos hh]
            exact hh
          · rw [if_neg hh]
            exact mergeTail_rooted _ _
        by_cases hbsch : b.scheme = []
        · have hA : toStringU (resolveRef b t) =
              if headIsSlash t.tail = true then t.tail
              else mergeTail b.tail t.tail := by
            rw [hR]
            unfold toStringU
            rw [if_neg (fun h => h hbsch)]
            simp
          rw [hA] at hl''
          rw [hl''] at hTr
          simp [jsChars, headIsSlash] at hTr
        · have hA : toStringU (resolveRef b t) =
              b.scheme ++ ':' :: ('/' :: '/' :: (b.host ++
                (if headIsSlash t.tail = true then t.tail
                  else mergeTail b.tail t.tail))) := by
            rw [hR]
            unfold toStringU
            rw [if_pos hbsch]
            simp
          have h1 : (toStringU (resolveRef b t)).takeWhile isSchemeChar = b.scheme := by
            rw [hA, takeWhileApp isSchemeChar _ _ (List.all_eq_true.mp hbs)]
            simp [List.takeWhile_cons]
            decide
          have h2 : (toStringU (resolveRef b t)).takeWhile isSchemeChar = jsChars := by
            rw [hl'', takeWhileApp isSchemeChar _ _ (by decide)]
            simp [List.takeWhile_cons]
            decide
          exact hbjs (h1.symm.trans h2)
      · have hR : resolveRef b t = t := by
          unfold resolveRef
          rw [if_pos hts]
        have hA : toStringU (resolveRef b t) =
            t.scheme ++ ':' :: ('/' :: '/' :: (t.host ++ t.tail)) := by
          rw [hR]
          unfold toStringU
          rw [if_pos hts]
          simp
        have h1 : (toStringU (resolveRef b t)).takeWhile isSchemeChar = t.scheme := by
          rw [hA, takeWhileApp isSchemeChar _ _ (List.all_eq_true.mp i1)]
          simp [List.takeWhile_cons]
          decide
        have h2 : (toStringU (resolveRef b t)).takeWhile isSchemeChar = jsChars := by
          rw [hl'', takeWhileApp isSchemeChar _ _ (by decide)]
          simp [List.takeWhile_cons]
          decide
        have hts2 : t.scheme = jsChars := h1.symm.trans h2
        have hcond : u.data.takeWhile isSchemeChar ≠ [] ∧
            isSchemeSep (u.data.drop (u.data.takeWhile isSchemeChar).length) = true := by
          by_contra hcon
          rw [hsp'] at hts
          unfold parseChars at hts
          rw [if_neg hcon] at hts
          exact hts rfl
        obtain ⟨w, hw⟩ := isSchemeSep_shape _ hcond.2
        have hscheme : u.data.takeWhile isSchemeChar = t.scheme := by
          rw [hsp']
          unfold parseChars
          rw [if_pos hcond]
        have hudata : u.data = t.scheme ++ ':' :: '/' :: '/' :: w := by
          have hsplit := List.takeWhile_append_dropWhile (p := isSchemeChar) (l := u.data)
          rw [← drop_takeWhile_length] at hsplit
          rw [← hsplit, hw, hscheme]
        have : isJSPrefix u.data = true := by
          rw [hudata, hts2]
          unfold isJSPrefix
          have := hasPrefixChars_self jsChars ':' ('/' :: '/' :: w)
          exact this
        rw [this] at hujs
        exact Bool.noConfusion hujs

/-- Attribute lookup on a raw attribute list (`dom.GetAttribute`). -/
def getAttrList (k : String) (l : List (String × String)) : String :=
  (l.lookup k).getD ""

/-- Key presence on a raw attribute list (`dom.HasAttribute`). -/
def hasKey (k : String) (l : List (String × String)) : Bool :=
  l.any (fun a => a.1 = k)

/-- Setting never removes a present key. -/
theorem hasKey_setAttrList (k k' v : String) : ∀ (l : List (String × String)),
    hasKey k l = true → hasKey k (setAttrList k' v l) = true := by
  intro l
  induction l with
  | nil => intro h; simp [hasKey] at h
  | cons a rest ih =>
    intro h
    by_cases ha : a.1 = k'
    · rw [setAttrList, if_pos ha]
      simp [hasKey] at h ⊢
      rcases h with h1 | h1
      · left
        rw [← ha, h1]
      · right
        exact h1
    · rw [setAttrList, if_neg ha]
      simp [hasKey] at h ⊢
      rcases h with h1 | h1
      · exact Or.inl h1
      · right
        have := ih (by simpa [hasKey] using h1)
        simpa [hasKey] using this

/-- A nonempty attribute value means the key is present. -/
theorem getAttrList_ne_hasKey (k : String) : ∀ (l : List (String × String)),
    getAttrList k l ≠ "" → hasKey k l = true := by
  intro l
  induction l with
  | nil => intro h; simp [getAttrList, List.lookup] at h
  | cons a rest ih =>
    intro h
    by_cases ha : k = a.1
    · simp [hasKey]
      exact Or.inl ha.symm
    · have hbeq : (k == a.1) = false := by
        simp
        exact ha
      rw [getAttrList, List.lookup, hbeq] at h
      have := ih h
      simp [hasKey] at this ⊢
      exact Or.inr this

/-- Setting a key, then reading another key. -/
theorem getAttrList_setAttrList_ne (k k' v : String) (hkk : k ≠ k')
    (l : List (String × String)) :
    getAttrList k (setAttrList k' v l) = getAttrList k l :=
  getAttr_setAttr_other k k' v hkk "x" l []

/-- Setting the same key and value twice. -/
theorem setAttrList_idem (k v : String) : ∀ (l : List (String × String)),
    setAttrList k v (setAttrList k v l) = setAttrList k v l := by
  intro l
  induction l with
  | nil => simp [setAttrList]
  | cons a rest ih =>
    by_cases ha : a.1 = k
    · rw [setAttrList, if_pos ha]
      rw [setAttrList, if_pos rfl]
    · rw [setAttrList, if_neg ha]
      rw [setAttrList, if_neg ha, ih]

/-- Sets of distinct keys commute when the inner key is present. -/
theorem setAttrList_comm (k k' v v' : String) (hkk : k ≠ k') :
    ∀ (l : List (String × String)), hasKey k' l = true →
    setAttrList k v (setAttrList k' v' l) = setAttrList k' v' (setAttrList k v l) := by
  intro l
  induction l with
  | nil => intro h; simp [hasKey] at h
  | cons a rest ih =>
    intro h
    have hk'k : ¬ (k' = k) := fun hc => hkk hc.symm
    by_cases ha' : a.1 = k'
    · have hak : ¬ a.1 = k := by
        rw [ha']
        exact hk'k
      simp [setAttrList, ha', hak, hk'k, hkk]
    · by_cases hak : a.1 = k
      · simp [setAttrList, ha', hak, hk'k, hkk]
      · have hrest : hasKey k' rest = true := by
          simp [hasKey] at h
          rcases h with h1 | h1
          · exact absurd h1 ha'
          · simpa [hasKey] using h1
        simp [setAttrList, ha', hak, ih hrest]

/-- The `src` update of `fixRelativeURIs` (`parser.go` lines 300-303): read
from the original attributes, rewrite when nonempty. -/
def srcStep (b : URLm) (attrs l : List (String × String)) : List (String × String) :=
  if getAttrList "src" attrs = "" then l
  else setAttrList "src" (toAbsoluteURI (getAttrList "src" attrs) (some b)) l

/-- The `poster` update (`parser.go` lines 305-308). -/
def posterStep (b : URLm) (attrs l : List (String × String)) : List (String × String) :=
  if getAttrList "poster" attrs = "" then l
  else setAttrList "poster" (toAbsoluteURI (getAttrList "poster" attrs) (some b)) l

/-- The `srcset` update (`parser.go` lines 310-317). -/
def srcsetStep (b : URLm) (attrs l : List (String × String)) : List (String × String) :=
  if getAttrList "srcset" attrs = "" then l
  else setAttrList "srcset" ⟨srcsetFix b (getAttrList "srcset" attrs).data⟩ l

/-- The full media-attribute rewrite of `fixRelativeURIs`. -/
def fixMediaAttrs (b : URLm) (attrs : List (String × String)) : List (String × String) :=
  srcsetStep b attrs (posterStep b attrs (srcStep b attrs attrs))

theorem srcStep_get_ne (b : URLm) (attrs : List (String × String)) (k : String)
    (hk : k ≠ "src") (l : List (String × String)) :
    getAttrList k (srcStep b attrs l) = getAttrList k l := by
  unfold srcStep
  by_cases hc : getAttrList "src" attrs = ""
  · rw [if_pos hc]
  · rw [if_neg hc]
    exact getAttrList_setAttrList_ne k "src" _ hk l

theorem posterStep_get_ne (b : URLm) (attrs : List (String × String)) (k : String)
    (hk : k ≠ "poster") (l : List (String × String)) :
    getAttrList k (posterStep b attrs l) = getAttrList k l := by
  unfold posterStep
  by_cases hc : getAttrList "poster" attrs = ""
  · rw [if_pos hc]
  · rw [if_neg hc]
    exact getAttrList_setAttrList_ne k "poster" _ hk l

theorem srcsetStep_get_ne (b : URLm) (attrs : List (String × String)) (k : String)
    (hk : k ≠ "srcset") (l : List (String × String)) :
    getAttrList k (srcsetStep b attrs l) = getAttrList k l := by
  unfold srcsetStep
  by_cases hc : getAttrList "srcset" attrs = ""
  · rw [if_pos hc]
  · rw [if_neg hc]
    exact getAttrList_setAttrList_ne k "srcset" _ hk l

theorem srcStep_hasKey (b : URLm) (attrs : List (String × String)) (k : String)
    (l : List (String × String)) (h : hasKey k l = true) :
    hasKey k (srcStep b attrs l) = true := by
  unfold srcStep
  by_cases hc : getAttrList "src" attrs = ""
  · rw [if_pos hc]
    exact h
  · rw [if_neg hc]
    exact hasKey_setAttrList k "src" _ l h

theorem posterStep_hasKey (b : URLm) (attrs : List (String × String)) (k : String)
    (l : List (String × String)) (h : hasKey k l = true) :
    hasKey k (posterStep b attrs l) = true := by
  unfold posterStep
  by_cases hc : getAttrList "poster" attrs = ""
  · rw [if_pos hc]
    exact h
  · rw [if_neg hc]
    exact hasKey_setAttrList k "poster" _ l h

theorem set_srcsetStep_comm (b : URLm) (attrs : List (String × String)) (k v : String)
    (hk : k ≠ "srcset") (l : List (String × String))
    (hpres : getAttrList "srcset" attrs ≠ "" → hasKey "srcset" l = true) :
    setAttrList k v (srcsetStep b attrs l) = srcsetStep b attrs (setAttrList k v l) := by
  unfold srcsetStep
  by_cases hc : getAttrList "srcset" attrs = ""
  · rw [if_pos hc, if_pos hc]
  · rw [if_neg hc, if_neg hc]
    exact setAttrList_comm k "srcset" v _ hk l (hpres hc)

theorem set_posterStep_comm (b : URLm) (attrs : List (String × String)) (k v : String)
    (hk : k ≠ "poster") (l : List (String × String))
    (hpres : getAttrList "poster" attrs ≠ "" → hasKey "poster" l = true) :
    setAttrList k v (posterStep b attrs l) = posterStep b attrs (setAttrList k v l) := by
  unfold posterStep
  by_cases hc : getAttrList "poster" attrs = ""
  · rw [if_pos hc, if_pos hc]
  · rw [if_neg hc, if_neg hc]
    exact setAttrList_comm k "poster" v _ hk l (hpres hc)

/-- The media-attribute rewrite is idempotent. -/
theorem fixMediaAttrs_idem (b : URLm) (hb : validU b = true)
    (attrs : List (String × String)) :
    fixMediaAttrs b (fixMediaAttrs b attrs) = fixMediaAttrs b attrs := by
  have hAbsorbSrc : srcStep b (fixMediaAttrs b attrs) (fixMediaAttrs b attrs) =
      fixMediaAttrs b attrs := by
    by_cases hs : getAttrList "src" attrs = ""
    · have hval : getAttrList "src" (fixMediaAttrs b attrs) = "" := by
        unfold fixMediaAttrs
        rw [srcsetStep_get_ne b attrs "src" (by decide) _,
          posterStep_get_ne b attrs "src" (by decide) _]
        unfold srcStep
        rw [if_pos hs]
        exact hs
      unfold srcStep
      rw [if_pos hval]
    · have hval : getAttrList "src" (fixMediaAttrs b attrs) =
          toAbsoluteURI (getAttrList "src" attrs) (some b) := by
        unfold fixMediaAttrs
        rw [srcsetStep_get_ne b attrs "src" (by decide) _,
          posterStep_get_ne b attrs "src" (by decide) _]
        unfold srcStep
        rw [if_neg hs]
        exact getAttrList_setAttrList_same "src" _ _
      have hvne : getAttrList "src" (fixMediaAttrs b attrs) ≠ "" := by
        rw [hval]
        exact toAbs_ne_empty _ b hb hs
      unfold srcStep
      rw [if_neg hvne, hval, toAbs_idem _ b hb]
      show setAttrList "src" (toAbsoluteURI (getAttrList "src" attrs) (some b))
          (fixMediaAttrs b attrs) = fixMediaAttrs b attrs
      unfold fixMediaAttrs
      rw [set_srcsetStep_comm b attrs _ _ (by decide) _
        (fun hss => posterStep_hasKey b attrs _ _
          (srcStep_hasKey b attrs _ _ (getAttrList_ne_hasKey "srcset" attrs hss)))]
      rw [set_posterStep_comm b attrs _ _ (by decide) _
        (fun hp => srcStep_hasKey b attrs _ _ (getAttrList_ne_hasKey "poster" attrs hp))]
      unfold srcStep
      rw [if_neg hs, setAttrList_idem]
  have hAbsorbPoster : posterStep b (fixMediaAttrs b attrs) (fixMediaAttrs b attrs) =
      fixMediaAttrs b attrs := by
    by_cases hp : getAttrList "poster" attrs = ""
    · have hval : getAttrList "poster" (fixMediaAttrs b attrs) = "" := by
        unfold fixMediaAttrs
        rw [srcsetStep_get_ne b attrs "poster" (by decide) _]
        unfold posterStep
        rw [if_pos hp, srcStep_get_ne b attrs "poster" (by decide) _]
        exact hp
      unfold posterStep
      rw [if_pos hval]
    · have hval : getAttrList "poster" (fixMediaAttrs b attrs) =
          toAbsoluteURI (getAttrList "poster" attrs) (some b) := by
        unfold fixMediaAttrs
        rw [srcsetStep_get_ne b attrs "poster" (by decide) _]
        unfold posterStep
        rw [if_neg hp]
        exact getAttrList_setAttrList_same "poster" _ _
      have hvne : getAttrList "poster" (fixMediaAttrs b attrs) ≠ "" := by
        rw [hval]
        exact toAbs_ne_empty _ b hb hp
      unfold posterStep
      rw [if_neg hvne, hval, toAbs_idem _ b hb]
      show setAttrList "poster" (toAbsoluteURI (getAttrList "poster" attrs) (some b))
          (fixMediaAttrs b attrs) = fixMediaAttrs b attrs
      unfold fixMediaAttrs
      rw [set_srcsetStep_comm b attrs _ _ (by decide) _
        (fun hss => posterStep_hasKey b attrs _ _
          (srcStep_hasKey b attrs _ _ (getAttrList_ne_hasKey "srcset" attrs hss)))]
      show srcsetStep b attrs (setAttrList "poster"
          (toAbsoluteURI (getAttrList "poster" attrs) (some b))
          (posterStep b attrs (srcStep b attrs attrs))) =
        srcsetStep b attrs (posterStep b attrs (srcStep b attrs attrs))
      congr 1
      unfold posterStep
      rw [if_neg hp, setAttrList_idem]
  have hAbsorbSrcset : srcsetStep b (fixMediaAttrs b attrs) (fixMediaAttrs b attrs) =
      fixMediaAttrs b attrs := by
    by_cases hss : getAttrList "srcset" attrs = ""
    · have hval : getAttrList "srcset" (fixMediaAttrs b attrs) = "" := by
        unfold fixMediaAttrs
        unfold srcsetStep
        rw [if_pos hss, posterStep_get_ne b attrs "srcset" (by decide) _,
          srcStep_get_ne b attrs "srcset" (by decide) _]
        exact hss
      unfold srcsetStep
      rw [if_pos hval]
    · have hval : getAttrList "srcset" (fixMediaAttrs b attrs) =
          ⟨srcsetFix b (getAttrList "srcset" attrs).data⟩ := by
        unfold fixMediaAttrs
        unfold srcsetStep
        rw [if_neg hss]
        exact getAttrList_setAttrList_same "srcset" _ _
      have hvne : getAttrList "srcset" (fixMediaAttrs b attrs) ≠ "" := by
        rw [hval]
        intro hcon
        exact srcsetFix_ne_nil b hb _ (ne_empty_data _ hss) (congrArg String.data hcon)
      unfold srcsetStep
      rw [if_neg hvne, hval]
      show setAttrList "srcset"
          ⟨srcsetFix b (srcsetFix b (getAttrList "srcset" attrs).data)⟩
          (fixMediaAttrs b attrs) = fixMediaAttrs b attrs
      rw [srcsetFix_idem b hb]
      show setAttrList "srcset" ⟨srcsetFix b (getAttrList "srcset" attrs).data⟩
          (srcsetStep b attrs (posterStep b attrs (srcStep b attrs attrs))) =
        fixMediaAttrs b attrs
      unfold fixMediaAttrs
      unfold srcsetStep
      rw [if_neg hss, setAttrList_idem]
  show srcsetStep b (fixMediaAttrs b attrs) (posterStep b (fixMediaAttrs b attrs)
      (srcStep b (fixMediaAttrs b attrs) (fixMediaAttrs b attrs))) = fixMediaAttrs b attrs
  rw [hAbsorbSrc, hAbsorbPoster, hAbsorbSrcset]

/-- Model of `dom.RemoveAttribute` on an attribute list. -/
def removeAttrList (k : String) : List (String × String) → List (String × String)
  | [] => []
  | a :: rest => if a.1 = k then rest else a :: removeAttrList k rest

/-- The single-text-child test of the `javascript:` collapse
(`parser.go` line 270). -/
def singleTextChild : List HNode → Option String
  | [.txt d] => some d
  | _ => none

mutual

/-- Model of `fixRelativeURIs` (`parser.go` lines 255-319) as a recursive
tree transform: `<a>` nodes with a `javascript:` href collapse to their text
(single text child) or to a `<span>` keeping the children; other nonempty
hrefs are resolved (the attribute is removed if resolution empties it);
media elements get `src`, `poster` and `srcset` rewritten; everything else
is kept, with children rewritten throughout. -/
def fixRel (b : URLm) : HNode → HNode
  | .txt s => .txt s
  | .doc ks => .doc (fixRelList b ks)
  | .elem t attrs ks =>
    if t = "a" then
      if getAttrList "href" attrs = "" then .elem t attrs (fixRelList b ks)
      else if isJSPrefix (getAttrList "href" attrs).data = true then
        match singleTextChild ks with
        | some d => .txt d
        | none => .elem "span" [] (fixRelList b ks)
      else if toAbsoluteURI (getAttrList "href" attrs) (some b) = "" then
        .elem t (removeAttrList "href" attrs) (fixRelList b ks)
      else
        .elem t (setAttrList "href"
          (toAbsoluteURI (getAttrList "href" attrs) (some b)) attrs)
          (fixRelList b ks)
    else if t = "img" ∨ t = "picture" ∨ t = "figure" ∨ t = "video" ∨
        t = "audio" ∨ t = "source" then
      .elem t (fixMediaAttrs b attrs) (fixRelList b ks)
    else
      .elem t attrs (fixRelList b ks)

/-- Child-list rewrite. -/
def fixRelList (b : URLm) : List HNode → List HNode
  | [] => []
  | k :: ks => fixRel b k :: fixRelList b ks

end

/-- Idempotence lifts from elements to child lists. -/
theorem fixRelList_of_elems (b : URLm) : ∀ (ks : List HNode),
    (∀ x ∈ ks, fixRel b (fixRel b x) = fixRel b x) →
    fixRelList b (fixRelList b ks) = fixRelList b ks := by
  intro ks
  induction ks with
  | nil => intro _; rfl
  | cons x xs ih =>
    intro hall
    show fixRel b (fixRel b x) :: fixRelList b (fixRelList b xs) =
      fixRel b x :: fixRelList b xs
    rw [hall x (by simp), ih (fun y hy => hall y (by simp [hy]))]

/-- The absolute-URI rewriting pass is idempotent for a parsed base whose
scheme is not `javascript`. -/
theorem fixRel_idem (b : URLm) (hb : validU b = true) (hbjs : b.scheme ≠ jsChars) :
    ∀ (n : HNode), fixRel b (fixRel b n) = fixRel b n := by
  have main : ∀ (k : Nat) (n : HNode), sizeOf n ≤ k →
      fixRel b (fixRel b n) = fixRel b n := by
    intro k
    induction k with
    | zero =>
      intro n hn
      exfalso
      cases n <;> simp at hn
    | succ m ih =>
      intro n hn
      cases n with
      | txt s => rfl
      | doc ks =>
        have hsub : ∀ x ∈ ks, fixRel b (fixRel b x) = fixRel b x := by
          intro x hx
          apply ih
          have h1 : sizeOf x < sizeOf ks := List.sizeOf_lt_of_mem hx
          have h2 : sizeOf ks < sizeOf (HNode.doc ks) := by
            simp
          omega
        show HNode.doc (fixRelList b (fixRelList b ks)) = HNode.doc (fixRelList b ks)
        rw [fixRelList_of_elems b ks hsub]
      | elem t attrs ks =>
        have hsub : ∀ x ∈ ks, fixRel b (fixRel b x) = fixRel b x := by
          intro x hx
          apply ih
          have h1 : sizeOf x < sizeOf ks := List.sizeOf_lt_of_mem hx
          have h2 : sizeOf ks < sizeOf (HNode.elem t attrs ks) := by
            simp
          omega
        have hlist := fixRelList_of_elems b ks hsub
        by_cases ha : t = "a"
        · by_cases h0 : getAttrList "href" attrs = ""
          · have h1 : fixRel b (.elem t attrs ks) = .elem t attrs (fixRelList b ks) := by
              simp only [fixRel]
              rw [if_pos ha, if_pos h0]
            have h2 : fixRel b (.elem t attrs (fixRelList b ks)) =
                .elem t attrs (fixRelList b (fixRelList b ks)) := by
              simp only [fixRel]
              rw [if_pos ha, if_pos h0]
            rw [h1, h2, hlist]
          · by_cases hjs : isJSPrefix (getAttrList "href" attrs).data = true
            · cases hst : singleTextChild ks with
              | some d =>
                have h1 : fixRel b (.elem t attrs ks) = .txt d := by
                  simp only [fixRel]
                  rw [if_pos ha, if_neg h0, if_pos hjs, hst]
                rw [h1]
                rfl
              | none =>
                have h1 : fixRel b (.elem t attrs ks) =
                    .elem "span" [] (fixRelList b ks) := by
                  simp only [fixRel]
                  rw [if_pos ha, if_neg h0, if_pos hjs, hst]
                have h2 : fixRel b (.elem "span" [] (fixRelList b ks)) =
                    .elem "span" [] (fixRelList b (fixRelList b ks)) := by
                  simp only [fixRel]
                  rw [if_neg (by decide), if_neg (by decide)]
                rw [h1, h2, hlist]
            · have hne2 : toAbsoluteURI (getAttrList "href" attrs) (some b) ≠ "" :=
                toAbs_ne_empty _ b hb h0
              have h1 : fixRel b (.elem t attrs ks) =
                  .elem t (setAttrList "href"
                    (toAbsoluteURI (getAttrList "href" attrs) (some b)) attrs)
                    (fixRelList b ks) := by
                simp only [fixRel]
                rw [if_pos ha, if_neg h0, if_neg hjs, if_neg hne2]
              have hget : getAttrList "href" (setAttrList "href"
                  (toAbsoluteURI (getAttrList "href" attrs) (some b)) attrs) =
                  toAbsoluteURI (getAttrList "href" attrs) (some b) :=
                getAttrList_setAttrList_same "href" _ _
              have hget0 : getAttrList "href" (setAttrList "href"
                  (toAbsoluteURI (getAttrList "href" attrs) (some b)) attrs) ≠ "" := by
                rw [hget]
                exact hne2
              have hjs2 : isJSPrefix (getAttrList "href" (setAttrList "href"
                  (toAbsoluteURI (getAttrList "href" attrs) (some b)) attrs)).data =
                  false := by
                rw [hget]
                apply toAbs_not_js _ b hb hbjs
                cases hx : isJSPrefix (getAttrList "href" attrs).data
                · rfl
                · exact absurd hx hjs
              have hidem := toAbs_idem (getAttrList "href" attrs) b hb
              have h2 : fixRel b (.elem t (setAttrList "href"
                  (toAbsoluteURI (getAttrList "href" attrs) (some b)) attrs)
                  (fixRelList b ks)) =
                  .elem t (setAttrList "href"
                    (toAbsoluteURI (getAttrList "href" attrs) (some b)) attrs)
                    (fixRelList b (fixRelList b ks)) := by
                simp only [fixRel]
                rw [if_pos ha, if_neg hget0, if_neg (by rw [hjs2]; simp), hget, hidem]
                rw [if_neg hne2, setAttrList_idem]
              rw [h1, h2, hlist]
        · by_cases hm : t = "img" ∨ t = "picture" ∨ t = "figure" ∨ t = "video" ∨
              t = "audio" ∨ t = "source"
          · have h1 : fixRel b (.elem t attrs ks) =
                .elem t (fixMediaAttrs b attrs) (fixRelList b ks) := by
              simp only [fixRel]
              rw [if_neg ha, if_pos hm]
            have h2 : fixRel b (.elem t (fixMediaAttrs b attrs) (fixRelList b ks)) =
                .elem t (fixMediaAttrs b (fixMediaAttrs b attrs))
                  (fixRelList b (fixRelList b ks)) := by
              simp only [fixRel]
              rw [if_neg ha, if_pos hm]
            rw [h1, h2, hlist, fixMediaAttrs_idem b hb]
          · have h1 : fixRel b (.elem t attrs ks) = .elem t attrs (fixRelList b ks) := by
              simp only [fixRel]
              rw [if_neg ha, if_neg hm]
            have h2 : fixRel b (.elem t attrs (fixRelList b ks)) =
                .elem t attrs (fixRelList b (fixRelList b ks)) := by
              simp only [fixRel]
              rw [if_neg ha, if_neg hm]
            rw [h1, h2, hlist]
  intro n
  exact main (sizeOf n) n (le_refl _)

/-- The shape behind a positive `isDataPrefix`. -/
theorem dataPrefix_head (l : List Char) (h : isDataPrefix l = true) :
    ∃ w, l = 'd' :: 'a' :: 't' :: 'a' :: ':' :: w := by
  cases l with
  | nil => simp [isDataPrefix] at h
  | cons a l1 =>
    cases l1 with
    | nil => simp [isDataPrefix] at h
    | cons a2 l2 =>
      cases l2 with
      | nil => simp [isDataPrefix] at h
      | cons a3 l3 =>
        cases l3 with
        | nil => simp [isDataPrefix] at h
        | cons a4 l4 =>
          cases l4 with
          | nil => simp [isDataPrefix] at h
          | cons a5 l5 =>
            simp [isDataPrefix] at h
            obtain ⟨h1, h2, h3, h4, h5⟩ := h
            exact ⟨l5, by rw [h1, h2, h3, h4, h5]⟩

/-- An anchor with a relative href and a single text child. -/
def c9Node : HNode := HNode.elem "a" [("href", "foo")] [HNode.txt "t"]

/-- C9 counterexample: with a parsed base whose scheme is `javascript`
(`javascript://x`), the first rewriting pass resolves the anchor's relative
href to `javascript://x/foo`, and the second pass collapses the anchor —
`strings.HasPrefix(href, "javascript:")` now holds — into a bare text node:
applying the absolute-URI rewriting twice differs from applying it once. -/
theorem c9_counterexample :
    fixRel ⟨jsChars, ['x'], []⟩ (fixRel ⟨jsChars, ['x'], []⟩ c9Node) ≠
      fixRel ⟨jsChars, ['x'], []⟩ c9Node ∧
    validU ⟨jsChars, ['x'], []⟩ = true ∧
    fixRel ⟨jsChars, ['x'], []⟩ c9Node =
      HNode.elem "a" [("href", "javascript://x/foo")] [HNode.txt "t"] ∧
    fixRel ⟨jsChars, ['x'], []⟩ (fixRel ⟨jsChars, ['x'], []⟩ c9Node) =
      HNode.txt "t" := by
  refine ⟨?_, by decide, rfl, rfl⟩
  intro h
  have h' : HNode.txt "t" =
      HNode.elem "a" [("href", "javascript://x/foo")] [HNode.txt "t"] := h
  exact HNode.noConfusion h'

/-- C9 amended: `toAbsoluteURI` leaves `#fragment` URIs, `data:` URIs and
already-absolute URLs (scheme and host both present) unchanged, and is
idempotent against any parsed base; the post-processor's absolute-URI
rewriting pass is idempotent for any parsed base WHOSE SCHEME IS NOT
`javascript` — for a `javascript:`-scheme base, hrefs resolved by the first
pass start with `javascript:` and are collapsed by a second pass. -/
theorem c9_uri_idempotence :
    (∀ (u : String) (bo : Option URLm), isHashPrefix u.data = true →
      toAbsoluteURI u bo = u) ∧
    (∀ (u : String) (bo : Option URLm), isDataPrefix u.data = true →
      toAbsoluteURI u bo = u) ∧
    (∀ (u : String) (b t : URLm), parseURL u = some t →
      t.scheme ≠ [] → t.host ≠ [] → toAbsoluteURI u (some b) = u) ∧
    (∀ (u : String) (b : URLm), validU b = true →
      toAbsoluteURI (toAbsoluteURI u (some b)) (some b) = toAbsoluteURI u (some b)) ∧
    (∀ (b : URLm) (n : HNode), validU b = true → b.scheme ≠ jsChars →
      fixRel b (fixRel b n) = fixRel b n) := by
  refine ⟨?_, ?_, ?_, toAbs_idem, fun b n hb hbjs => fixRel_idem b hb hbjs n⟩
  · intro u bo hh
    cases bo with
    | none => rfl
    | some b =>
      simp only [toAbsoluteURI]
      by_cases h1 : u = ""
      · rw [if_pos h1]
      · rw [if_neg h1, if_pos hh]
  · intro u bo hd
    obtain ⟨w, hw⟩ := dataPrefix_head u.data hd
    cases bo with
    | none => rfl
    | some b =>
      simp only [toAbsoluteURI]
      by_cases h1 : u = ""
      · rw [if_pos h1]
      · have hhash : isHashPrefix u.data = false := by
          rw [hw]
          simp [isHashPrefix]
        rw [if_neg h1, if_neg (by rw [hhash]; simp), if_pos hd]
  · intro u b t hp hts hth
    rcases toAbs_cases u b with he | ⟨t', hp', hna', he⟩
    · exact he
    · rw [hp] at hp'
      injection hp' with h'
      rw [← h'] at hna'
      exact absurd ⟨hts, hth⟩ hna'

/-- Witness for C9's amended theorem: a fragment is untouched, resolution
against `http://h` is idempotent on a relative path, and the rewriting pass
is idempotent on the anchor for that base. -/
theorem c9_uri_idempotence_witness :
    toAbsoluteURI "#frag" (some ⟨['h', 't', 't', 'p'], ['h'], []⟩) = "#frag" ∧
    toAbsoluteURI (toAbsoluteURI "foo" (some ⟨['h', 't', 't', 'p'], ['h'], []⟩))
        (some ⟨['h', 't', 't', 'p'], ['h'], []⟩) =
      toAbsoluteURI "foo" (some ⟨['h', 't', 't', 'p'], ['h'], []⟩) ∧
    fixRel ⟨['h', 't', 't', 'p'], ['h'], []⟩
        (fixRel ⟨['h', 't', 't', 'p'], ['h'], []⟩ c9Node) =
      fixRel ⟨['h', 't', 't', 'p'], ['h'], []⟩ c9Node :=
  ⟨c9_uri_idempotence.1 "#frag" _ (by decide),
   c9_uri_idempotence.2.2.2.1 "foo" _ (by decide),
   c9_uri_idempotence.2.2.2.2 _ c9Node (by decide) (by decide)⟩

end GoReadability
